import Mathlib

/-!
Verification of the biLangGen pipeline against its specification.

Each Python module relevant to the checked claims is shallowly embedded:
pure functions become Lean functions on `ℚ` / `String` / `List Char`,
stateful objects become structures with explicit state passing, network
calls become oracles passed in as parameters, and raising becomes
`Except`.  Machine floats are modelled by exact rationals.
-/

set_option maxRecDepth 10000

namespace BiLangGen

/-! ## utils/rate_limiter.py -/

/-- State of `RateLimiter` (src/utils/rate_limiter.py).  Delays are seconds,
modelled as rationals. -/
structure RateLimiter where
  min_delay : ℚ
  max_delay : ℚ
  current_delay : ℚ
  backoff_factor : ℚ
  recovery_factor : ℚ
  jitter : ℚ
deriving DecidableEq

/-- `RateLimiter.report_error`: `current_delay = min(max_delay, current_delay * backoff_factor)`. -/
def RateLimiter.report_error (rl : RateLimiter) : RateLimiter :=
  { rl with current_delay := min rl.max_delay (rl.current_delay * rl.backoff_factor) }

/-- `RateLimiter.report_success`: `current_delay = max(min_delay, current_delay * recovery_factor)`. -/
def RateLimiter.report_success (rl : RateLimiter) : RateLimiter :=
  { rl with current_delay := max rl.min_delay (rl.current_delay * rl.recovery_factor) }

/-- `RateLimiter._get_delay_with_jitter`: `max(min_delay, current_delay + jitter)`.
The random sample `random.uniform(-range, range)` is passed in as `jitterSample`. -/
def RateLimiter.get_delay_with_jitter (rl : RateLimiter) (jitterSample : ℚ) : ℚ :=
  max rl.min_delay (rl.current_delay + jitterSample)

/-- `RateLimiter.wait`: sleeps `delay - elapsed` when `elapsed < delay`.  The value
returned here is the resulting time elapsed since the previous request once the
sleep finishes (`elapsed` plus the slept amount). -/
def RateLimiter.wait_spacing (rl : RateLimiter) (elapsed jitterSample : ℚ) : ℚ :=
  let delay := rl.get_delay_with_jitter jitterSample
  if elapsed < delay then elapsed + (delay - elapsed) else elapsed

/-- Default construction `RateLimiter()` from the source. -/
def rateLimiterDefault : RateLimiter :=
  { min_delay := 1/2, max_delay := 30, current_delay := 1/2
    backoff_factor := 2, recovery_factor := 9/10, jitter := 1/10 }

/-! ## core/languages.py -/

/-- `Language` dataclass (src/core/languages.py). -/
structure Language where
  code : String
  name : String
  name_ru : String
  tts_code : String
  wordfreq_code : String
deriving DecidableEq

def RUSSIAN : Language :=
  { code := "ru", name := "Russian", name_ru := "Русский", tts_code := "ru-RU", wordfreq_code := "ru" }

def ENGLISH : Language :=
  { code := "en", name := "English", name_ru := "Английский", tts_code := "en-US", wordfreq_code := "en" }

def ENGLISH_GB : Language :=
  { code := "en-GB", name := "British English", name_ru := "Британский английский", tts_code := "en-GB", wordfreq_code := "en" }

def SPANISH : Language :=
  { code := "es", name := "Spanish (Spain)", name_ru := "Испанский (Испания)", tts_code := "es-ES", wordfreq_code := "es" }

def SPANISH_LATAM : Language :=
  { code := "es-latam", name := "Spanish (Latin America)", name_ru := "Испанский (Латинская Америка)", tts_code := "es-US", wordfreq_code := "es" }

def PORTUGUESE_BR : Language :=
  { code := "pt-BR", name := "Portuguese (Brazil)", name_ru := "Португальский (Бразилия)", tts_code := "pt-BR", wordfreq_code := "pt" }

def GERMAN : Language :=
  { code := "de", name := "German", name_ru := "Немецкий", tts_code := "de-DE", wordfreq_code := "de" }

def FRENCH : Language :=
  { code := "fr", name := "French", name_ru := "Французский", tts_code := "fr-FR", wordfreq_code := "fr" }

def ALL_LANGUAGES : List Language :=
  [RUSSIAN, ENGLISH, ENGLISH_GB, SPANISH, SPANISH_LATAM, PORTUGUESE_BR, GERMAN, FRENCH]

/-- `_LANGUAGE_MAP = {lang.code: lang for lang in ALL_LANGUAGES}` as an association list
(codes are pairwise distinct, so dict and association-list lookup agree). -/
def LANGUAGE_MAP : List (String × Language) :=
  ALL_LANGUAGES.map (fun lang => (lang.code, lang))

/-- `_ALIASES` dict from the source, keys verbatim (note the mixed-case keys). -/
def ALIASES : List (String × Language) :=
  [("es-ar", SPANISH_LATAM), ("es-419", SPANISH_LATAM), ("es-US", SPANISH_LATAM),
   ("es-ES", SPANISH), ("en-US", ENGLISH), ("ru-RU", RUSSIAN), ("pt", PORTUGUESE_BR)]

/-- Python `str.lower` for the ASCII language codes (computable list-based model
of `String.toLower`). -/
def asciiLower (s : String) : String :=
  String.mk (s.toList.map (fun c =>
    if 'A' ≤ c && c ≤ 'Z' then Char.ofNat (c.toNat + 32) else c))

/-- Python `s.split(sep)[0]`: the prefix of `s` before the first `-`. -/
def baseCode (s : String) : String :=
  String.mk (s.toList.takeWhile (fun c => c ≠ '-'))

/-- `get_language`: lowercase the code, then try the code map, the alias dict,
and finally a case-insensitive scan of `ALL_LANGUAGES`. -/
def get_language (code : String) : Option Language :=
  let code_lower := asciiLower code
  match LANGUAGE_MAP.lookup code_lower with
  | some lang => some lang
  | none =>
    match ALIASES.lookup code_lower with
    | some lang => some lang
    | none => ALL_LANGUAGES.find? (fun lang => asciiLower lang.code == code_lower)

/-- `require_language`: raising `UnsupportedLanguageError` becomes `Except.error`. -/
def require_language (code : String) (context : String) : Except String Language :=
  match get_language code with
  | none => Except.error ("Unsupported language code: " ++ code ++ " in " ++ context)
  | some lang => Except.ok lang

/-- `is_supported`. -/
def is_supported (code : String) : Bool :=
  (get_language code).isSome

/-! ## audio/combiner.py -/

/-- One timeline entry produced by `combine_audio_streaming` (times in seconds).
The `wordcard` component models the optional `wordcard_start` / `wordcard_duration`
keys, which the source adds only when `wordcard_duration_ms > 0`. -/
structure TimelineEntry where
  start : ℚ
  source_duration : ℚ
  pause_between : ℚ
  target_duration : ℚ
  wordcard : Option (ℚ × ℚ)
  end_ : ℚ
deriving DecidableEq

/-- One element of `wordcard_files[i]`: either the combined format
`(combined_path, None)` or the legacy `(target_word_audio, source_translation_audio)`
pair.  Each audio file is modelled by its probed duration in ms, `none` when the
file does not exist (`Path.exists()` false). -/
inductive WordCard where
  | combined (dur : Option ℚ)
  | legacy (tgtDur srcDur : Option ℚ)
deriving DecidableEq

/-- Time in ms contributed by one word card (file durations via `_get_audio_duration_ms`;
missing files contribute nothing).  A legacy pair always adds the
`pause_between_words_ms` between the two word files. -/
def WordCard.dur (pause_between_words_ms : ℚ) : WordCard → ℚ
  | .combined d => d.getD 0
  | .legacy t s => t.getD 0 + pause_between_words_ms + s.getD 0

/-- Total `wordcard_duration_ms` accumulated over `sentence_wordcards`:
every card contributes `WordCard.dur`, and after each legacy card that is not
the last card the source appends one more inter-pair pause
(`if word_idx < len(sentence_wordcards) - 1`). -/
def wordcardsDuration (pause_between_words_ms : ℚ) : List WordCard → ℚ
  | [] => 0
  | [c] => c.dur pause_between_words_ms
  | c :: rest =>
      c.dur pause_between_words_ms
        + (match c with
           | .legacy _ _ => pause_between_words_ms
           | .combined _ => 0)
        + wordcardsDuration pause_between_words_ms rest

/-- `sentence_end_ms` for one loop iteration of `combine_audio_streaming`:
source duration (0 when the file is missing), the inter-language pause (always
appended), target duration, and — when the sentence has word cards — the
pre-wordcard pause plus the accumulated word-card duration. -/
def sentenceEnd (pl pwc pw : ℚ) (src tgt : Option ℚ) (scs : List WordCard) (t : ℚ) : ℚ :=
  let afterTgt : ℚ := t + src.getD 0 + pl + tgt.getD 0
  if scs.isEmpty then afterTgt else afterTgt + pwc + wordcardsDuration pw scs

/-- The timeline entry recorded for one loop iteration (times stored in
seconds); `wordcard_start`/`wordcard_duration` keys only when
`wordcard_duration_ms > 0`. -/
def combineEntry (pl pwc pw : ℚ) (src tgt : Option ℚ) (scs : List WordCard) (t : ℚ) :
    TimelineEntry :=
  let wdur : ℚ := wordcardsDuration pw scs
  { start := t / 1000
    source_duration := src.getD 0 / 1000
    pause_between := pl / 1000
    target_duration := tgt.getD 0 / 1000
    wordcard :=
      if 0 < wdur then some ((t + src.getD 0 + pl + tgt.getD 0 + pwc) / 1000, wdur / 1000)
      else none
    end_ := sentenceEnd pl pwc pw src tgt scs t / 1000 }

/-- Main loop of `combine_audio_streaming` over `zip(source_files, target_files)`.
`srcs`/`tgts` are the probed durations (ms) of the per-sentence audio files
(`none` = file missing), `wcs` the remaining word-card lists (`wordcard_files[i]`
defaults to `[]` past the end), `i` the loop index, `total = len(source_files)`,
`t` the running `current_time_ms`; the inter-sentence pause is appended except
after iteration `total - 1`. -/
def combineGo (pl ps pwc pw : ℚ) :
    List (Option ℚ) → List (Option ℚ) → List (List WordCard) → ℕ → ℕ → ℚ →
    List TimelineEntry
  | [], _, _, _, _, _ => []
  | _ :: _, [], _, _, _, _ => []
  | src :: srcs, tgt :: tgts, wcs, i, total, t =>
      let scs : List WordCard := wcs.headD []
      let send : ℚ := sentenceEnd pl pwc pw src tgt scs t
      combineEntry pl pwc pw src tgt scs t
        :: combineGo pl ps pwc pw srcs tgts wcs.tail (i + 1) total
            (if i < total - 1 then send + ps else send)

/-- Timeline returned by `combine_audio_streaming` (src/audio/combiner.py lines 253-471);
the concat-file bookkeeping and the ffmpeg invocations affect only the audio file,
not the returned timeline. -/
def combine_audio_streaming (source_files target_files : List (Option ℚ))
    (wordcard_files : List (List WordCard))
    (pause_between_langs_ms : ℚ := 500) (pause_between_sentences_ms : ℚ := 800)
    (pause_before_wordcard_ms : ℚ := 300) (pause_between_words_ms : ℚ := 200) :
    List TimelineEntry :=
  combineGo pause_between_langs_ms pause_between_sentences_ms
    pause_before_wordcard_ms pause_between_words_ms
    source_files target_files wordcard_files 0 source_files.length 0

/-- Scaling of one entry inside `verify_and_correct_timeline`: every field is
multiplied by `scale` except `pause_between` (source comment:
"pause_between stays the same (it's a constant)"). -/
def scaleEntry (scale : ℚ) (e : TimelineEntry) : TimelineEntry :=
  { start := e.start * scale
    source_duration := e.source_duration * scale
    pause_between := e.pause_between
    target_duration := e.target_duration * scale
    wordcard := e.wordcard.map (fun p => (p.1 * scale, p.2 * scale))
    end_ := e.end_ * scale }

/-- Expected duration: `max(expected, entry.get("end", 0))` folded over the timeline
starting from `0.0`. -/
def expectedDuration (timeline : List TimelineEntry) : ℚ :=
  timeline.foldl (fun acc e => max acc e.end_) 0

/-- `verify_and_correct_timeline` (src/audio/combiner.py lines 509-540).
`actual_duration_sec` is the probed duration of the combined file in seconds. -/
def verify_and_correct_timeline (timeline : List TimelineEntry)
    (actual_duration_sec : ℚ) : List TimelineEntry :=
  if timeline.isEmpty then timeline
  else
    let expected := expectedDuration timeline
    if expected ≤ 0 then timeline
    else if 1 < |actual_duration_sec - expected| then
      timeline.map (scaleEntry (actual_duration_sec / expected))
    else timeline

/-! ## providers/translation/openai_gpt.py -/

/-- Outcome of one `client.chat.completions.create` call, as observed by
`_translate_single`:
* `ok content` — the call returned and `json.loads` succeeded; `content` is the
  parsed `"text"` field (`none` when the key is absent, in which case
  `result.get("text", text)` falls back to the input);
* `rateLimitError` — the call raised `openai.RateLimitError`;
* `apiError isRateLike` — the call raised `openai.APIError`; `isRateLike` is the
  source's `"rate_limit" in str(e).lower() or "429" in str(e)` test;
* `otherError` — the call raised any other exception (includes JSON parse errors). -/
inductive ApiResponse where
  | ok (content : Option String)
  | rateLimitError
  | apiError (isRateLike : Bool)
  | otherError
deriving DecidableEq

/-- Cyrillic character class of `_count_cyrillic`: `[а-яА-ЯёЁ]`. -/
def isCyrillicChar (c : Char) : Bool :=
  ('а' ≤ c && c ≤ 'я') || ('А' ≤ c && c ≤ 'Я') || c = 'ё' || c = 'Ё'

/-- `_has_cyrillic`. -/
def has_cyrillic (text : String) : Bool :=
  text.toList.any isCyrillicChar

/-- Cyrillic target languages exempt from the no-Cyrillic check. -/
def cyrillicTargets : List String := ["ru", "uk", "be", "bg", "sr", "mk"]

/-- Python `str.strip()` on strings. -/
def pyStripStr (s : String) : String :=
  String.mk (((s.toList.dropWhile Char.isWhitespace).reverse.dropWhile
    Char.isWhitespace).reverse)

/-- `OpenAITranslator._validate_translation`. -/
def validate_translation (original translation source_lang target_lang : String) : Bool :=
  if pyStripStr translation == pyStripStr original then false
  else if source_lang == "ru" && !(cyrillicTargets.contains target_lang)
      && has_cyrillic translation then false
  else true

/-- Retry loop of `_translate_single`.  `responses` is the oracle giving the
outcome of the n-th API call made by this invocation; `remaining` counts the
attempts left out of `MAX_RETRIES = 5` (so `attempt < MAX_RETRIES - 1` in the
source is `1 < remaining` here); `callIdx` indexes the next API call.
Sleeps (`time.sleep`, retry-delay arithmetic) do not affect the returned value
and are dropped. -/
def translateSingleGo (responses : ℕ → ApiResponse) (text source_lang target_lang : String) :
    ℕ → ℕ → Except String String
  | 0, _ => Except.error ("Translation failed after 5 retries: " ++ text)
  | remaining + 1, callIdx =>
      match responses callIdx with
      | .ok content =>
          let translation := content.getD text
          if validate_translation text translation source_lang target_lang then
            Except.ok translation
          else if 1 ≤ remaining then
            -- second call with higher temperature inside the same attempt
            match responses (callIdx + 1) with
            | .ok content2 =>
                let translation2 := content2.getD text
                if validate_translation text translation2 source_lang target_lang then
                  Except.ok translation2
                else
                  translateSingleGo responses text source_lang target_lang remaining (callIdx + 2)
            | .rateLimitError =>
                translateSingleGo responses text source_lang target_lang remaining (callIdx + 2)
            | .apiError isRateLike =>
                if isRateLike then
                  translateSingleGo responses text source_lang target_lang remaining (callIdx + 2)
                else Except.ok text
            | .otherError => Except.ok text
          else
            translateSingleGo responses text source_lang target_lang remaining (callIdx + 1)
      | .rateLimitError =>
          translateSingleGo responses text source_lang target_lang remaining (callIdx + 1)
      | .apiError isRateLike =>
          if isRateLike then
            translateSingleGo responses text source_lang target_lang remaining (callIdx + 1)
          else Except.ok text
      | .otherError => Except.ok text

/-- `OpenAIGPTTranslator._translate_single` (src/providers/translation/openai_gpt.py
lines 360-434).  Raising `RuntimeError` becomes `Except.error`; returning becomes
`Except.ok`. -/
def openai_translate_single (responses : ℕ → ApiResponse)
    (text source_lang target_lang : String) : Except String String :=
  if pyStripStr text == "" then Except.ok text
  else translateSingleGo responses text source_lang target_lang 5 0

/-- `OpenAIGPTTranslator.translate`: the `source_lang == target_lang` short-circuit,
then `_translate_single` (the prompt-dialect update has no effect on the result
value or on raising). -/
def openai_translate (responses : ℕ → ApiResponse)
    (text source_lang target_lang : String) : Except String String :=
  if source_lang == target_lang then Except.ok text
  else openai_translate_single responses text source_lang target_lang

/-- `Translator.translate` (src/core/translator.py lines 115-144): same-language
short-circuit, then the cache (a cached empty string is falsy and ignored), then
the provider; a provider exception propagates. -/
def translator_translate (cached : Option String) (provider : Except String String)
    (text source_lang target_lang : String) : Except String String :=
  if source_lang == target_lang then Except.ok text
  else
    match cached with
    | some c => if c == "" then provider else Except.ok c
    | none => provider

/-! ## video/ffmpeg_generator.py (ASSGenerator) -/

/-- Two-digit zero padding, `f"{n:02d}"`. -/
def pad2 (n : ℕ) : String :=
  if n < 10 then "0" ++ toString n else toString n

/-- `ms_to_ass_time`: milliseconds to `H:MM:SS.cc`. -/
def ms_to_ass_time (ms : ℕ) : String :=
  let hours := ms / 3600000
  let minutes := (ms % 3600000) / 60000
  let seconds := (ms % 60000) / 1000
  let centiseconds := (ms % 1000) / 10
  toString hours ++ ":" ++ pad2 minutes ++ ":" ++ pad2 seconds ++ "." ++ pad2 centiseconds

/-- Python `int(...)` truncation toward zero on a rational. -/
def pyInt (q : ℚ) : ℤ :=
  if 0 ≤ q then ⌊q⌋ else ⌈q⌉

/-- `re.split(r'(\\N)', text)` on the character list: pieces between occurrences
of the two-character marker `\N` (pieces may be empty; the kept markers are
re-interleaved by `karaokeSegments`). -/
def splitOnNL : List Char → List (List Char)
  | [] => [[]]
  | '\\' :: 'N' :: rest => [] :: splitOnNL rest
  | c :: rest =>
      match splitOnNL rest with
      | [] => [[c]]
      | piece :: more => (c :: piece) :: more

/-- The segment list as produced by `re.split` with the capture group: pieces
interleaved with the literal marker `\N`. -/
def karaokeSegments (text : List Char) : List (List Char) :=
  (splitOnNL text).intersperse ['\\', 'N']

/-- The marker segment. -/
def nlMarker : List Char := ['\\', 'N']

/-- Python `segment.split()`: maximal runs of non-whitespace characters.
Fuel-structural; `pyWords` supplies `fuel = length + 1`, enough because each
step consumes at least one character. -/
def pyWordsGo : ℕ → List Char → List (List Char)
  | 0, _ => []
  | _, [] => []
  | fuel + 1, c :: rest =>
      if c.isWhitespace then pyWordsGo fuel rest
      else
        (c :: rest.takeWhile (fun x => !x.isWhitespace))
          :: pyWordsGo fuel (rest.dropWhile (fun x => !x.isWhitespace))

def pyWords (s : List Char) : List (List Char) :=
  pyWordsGo (s.length + 1) s

/-- `total_chars = sum(len(s) for s in segments if s != '\\N')`, floored to 1. -/
def karaokeTotalChars (text : List Char) : ℕ :=
  let n := ((karaokeSegments text).filter (fun s => !(s == nlMarker))).foldl
    (fun acc s => acc + s.length) 0
  if n = 0 then 1 else n

/-- `word_duration_cs = int((len(word) / total_chars) * (duration_ms / 10))`. -/
def wordDurationCs (total_chars : ℕ) (duration_ms : ℤ) (word : List Char) : ℤ :=
  pyInt (((word.length : ℚ) / (total_chars : ℚ)) * ((duration_ms : ℚ) / 10))

/-- The `karaoke_parts` list: the marker for `\N` segments, otherwise one
`{\kNN}word` part per word of the segment. -/
def karaokeParts (text : List Char) (duration_ms : ℤ) : List String :=
  (karaokeSegments text).flatMap (fun seg =>
    if seg = nlMarker then ["\\N"]
    else (pyWords seg).map (fun w =>
      "\x7b\\k" ++ toString (wordDurationCs (karaokeTotalChars text) duration_ms w) ++ "\x7d"
        ++ String.mk w))

/-- The durations (in centiseconds) carried by the `\k` tags, in order. -/
def karaokeWordDurations (text : List Char) (duration_ms : ℤ) : List ℤ :=
  (karaokeSegments text).flatMap (fun seg =>
    if seg = nlMarker then []
    else (pyWords seg).map (wordDurationCs (karaokeTotalChars text) duration_ms))

/-- The joining loop over `karaoke_parts`: a space is inserted before a part
unless the accumulated text is empty or ends with the marker. -/
def joinKaraoke (parts : List String) : String :=
  parts.foldl (fun acc part =>
    if part == "\\N" then acc ++ part
    else if acc ≠ "" && !(nlMarker.isSuffixOf acc.toList) then acc ++ " " ++ part
    else acc ++ part) ""

/-- `ASSGenerator.generate_karaoke_line` (src/video/ffmpeg_generator.py lines 82-127).
`start_ms`/`duration_ms` are the already-truncated integer milliseconds the caller
passes in (non-negative in every use, hence `ℕ` for the times fed to
`ms_to_ass_time`). -/
def generate_karaoke_line (text : String) (start_ms duration_ms : ℕ) (style : String) : String :=
  let karaoke_text := joinKaraoke (karaokeParts text.toList (duration_ms : ℤ))
  let end_ms := start_ms + duration_ms
  "Dialogue: 0," ++ ms_to_ass_time start_ms ++ "," ++ ms_to_ass_time end_ms ++ ","
    ++ style ++ ",,0,0,0,," ++ "\x7b\\k0\x7d" ++ karaoke_text

/-! ## analysis/word_frequency.py -/

/-- `get_wordfreq_code` (src/core/languages.py). -/
def get_wordfreq_code (code : String) : String :=
  match get_language code with
  | some lang => lang.wordfreq_code
  | none => asciiLower (baseCode code)

/-- Python `str.lower` restricted to the character repertoire this project
processes (ASCII, Cyrillic, Spanish accented letters). -/
def pyCharLower (c : Char) : Char :=
  if 'A' ≤ c && c ≤ 'Z' then Char.ofNat (c.toNat + 32)
  else if 'А' ≤ c && c ≤ 'Я' then Char.ofNat (c.toNat + 32)
  else if c = 'Ё' then 'ё'
  else if c = 'Á' then 'á'
  else if c = 'É' then 'é'
  else if c = 'Í' then 'í'
  else if c = 'Ó' then 'ó'
  else if c = 'Ú' then 'ú'
  else if c = 'Ü' then 'ü'
  else if c = 'Ñ' then 'ñ'
  else c

/-- Python `str.lower` on a string. -/
def pyStrLower (s : String) : String :=
  String.mk (s.toList.map pyCharLower)

/-- Python regex `\w` modelled for the Latin/Cyrillic/Spanish repertoire used by
this project: ASCII alphanumerics, underscore, Cyrillic letters, Spanish accented
letters. -/
def isWordChar (c : Char) : Bool :=
  c.isAlphanum || c = '_'
    || ('а' ≤ c && c ≤ 'я') || ('А' ≤ c && c ≤ 'Я') || c = 'ё' || c = 'Ё'
    || ("áéíóúüñÁÉÍÓÚÜÑ".toList.contains c)

/-- Maximal runs of `\w` characters, i.e. `re.findall(r'\b\w+\b', ...)`. -/
def wordRuns : List Char → List (List Char)
  | [] => []
  | c :: rest =>
      if isWordChar c then
        match wordRuns rest with
        | [] => [[c]]
        | w :: ws =>
            match rest with
            | [] => [[c]]
            | d :: _ => if isWordChar d then (c :: w) :: ws else [c] :: w :: ws
      else wordRuns rest

/-- `WordFrequencyAnalyzer.extract_words`: `re.findall(r'\b\w+\b', text.lower())`. -/
def extract_words (text : String) : List String :=
  (wordRuns (pyStrLower text).toList).map String.mk

/-- Python `str.isdigit` (ASCII digits). -/
def pyIsDigit (s : String) : Bool :=
  s ≠ "" && s.toList.all Char.isDigit

/-- `STOPWORDS` table (src/analysis/word_frequency.py).  Python sets are used only
through membership tests, so lists are an adequate model. -/
def STOPWORDS_RU : List String :=
  ["и", "в", "на", "с", "по", "за", "к", "от", "из", "у", "о", "а", "но", "что",
   "как", "это", "он", "она", "они", "мы", "вы", "я", "ты", "не", "да", "же",
   "бы", "ли", "то", "так", "все", "для", "до", "при", "его", "её", "их", "мой",
   "твой", "наш", "ваш", "свой", "этот", "тот", "такой", "который", "когда",
   "где", "если", "чтобы", "потому", "только", "уже", "ещё", "очень", "можно",
   "нужно", "быть", "есть", "был", "была", "были", "будет"]

def STOPWORDS_EN : List String :=
  ["the", "a", "an", "is", "are", "was", "were", "be", "been", "being", "have",
   "has", "had", "do", "does", "did", "will", "would", "could", "should", "may",
   "might", "must", "shall", "can", "to", "of", "in", "for", "on", "with", "at",
   "by", "from", "as", "into", "through", "during", "before", "after", "above",
   "below", "between", "under", "again", "further", "then", "once", "here",
   "there", "when", "where", "why", "how", "all", "each", "few", "more", "most",
   "other", "some", "such", "no", "nor", "not", "only", "own", "same", "so",
   "than", "too", "very", "just", "and", "but", "if", "or", "because", "until",
   "while", "it", "its", "this", "that", "these", "those", "i", "me", "my",
   "myself", "we", "our", "ours", "ourselves", "you", "your", "yours",
   "yourself", "yourselves", "he", "him", "his", "himself", "she", "her",
   "hers", "herself", "they", "them", "their", "theirs", "themselves", "what",
   "which", "who", "whom", "am"]

def STOPWORDS_ES : List String :=
  ["el", "la", "los", "las", "un", "una", "unos", "unas", "y", "o", "de", "del",
   "en", "con", "por", "para", "a", "al", "que", "es", "son", "está", "están",
   "fue", "fueron", "ser", "estar", "tener", "hacer", "como", "pero", "más",
   "ya", "muy", "también", "solo", "sin", "sobre", "entre", "hasta", "desde",
   "durante", "si", "no", "sí", "yo", "tú", "él", "ella", "nosotros",
   "vosotros", "ellos", "ellas", "mi", "tu", "su", "nuestro", "vuestro",
   "este", "esta", "estos", "estas", "ese", "esa", "esos", "esas", "aquel",
   "aquella", "aquellos", "aquellas", "qué", "quién", "cuál", "cuándo",
   "dónde", "cómo", "cuánto", "hay", "había", "ha", "han", "he", "hemos",
   "me", "te", "se", "le", "les", "lo", "nos", "os"]

/-- The `STOPWORDS` dict (with the `es-latam` entry aliased to `es`). -/
def STOPWORDS : List (String × List String) :=
  [("ru", STOPWORDS_RU), ("en", STOPWORDS_EN), ("es", STOPWORDS_ES),
   ("es-latam", STOPWORDS_ES)]

/-- State of a `WordFrequencyAnalyzer`.  `wordfreqZipf` is the external
`wordfreq.zipf_frequency` scorer; `none` models `WORDFREQ_AVAILABLE = False`,
in which case the source falls back to a length heuristic. -/
structure WordFrequencyAnalyzer where
  language : String
  wordfreq_code : String
  zipf_threshold : ℚ
  stopwords : List String
  wordfreqZipf : Option (String → ℚ)

/-- `WordFrequencyAnalyzer.__init__`: validates the language, stores the wordfreq
code and the stopword set (base code for Spanish variants). -/
def mkWordFrequencyAnalyzer (language : String) (zipf_threshold : ℚ)
    (wordfreqZipf : Option (String → ℚ)) : Except String WordFrequencyAnalyzer :=
  match get_language language with
  | none => Except.error ("Unsupported language code: " ++ language)
  | some lang =>
      let base_code := baseCode lang.code
      let stop :=
        match STOPWORDS.lookup lang.code with
        | some s => s
        | none => (STOPWORDS.lookup base_code).getD []
      Except.ok
        { language := lang.code
          wordfreq_code := get_wordfreq_code lang.code
          zipf_threshold := zipf_threshold
          stopwords := stop
          wordfreqZipf := wordfreqZipf }

/-- `WordFrequencyAnalyzer.get_zipf_score`: the wordfreq library score when
available, otherwise the fallback `max(1, 7 - len(word) * 0.5)`. -/
def WordFrequencyAnalyzer.get_zipf_score (a : WordFrequencyAnalyzer) (word : String) : ℚ :=
  match a.wordfreqZipf with
  | some z => z word
  | none => max 1 (7 - (word.length : ℚ) / 2)

/-- Inner selection loop of `get_top_rare_per_sentence` over the sorted
`word_data` of one sentence: skip lemmas already used in this sentence or in
earlier sentences, append otherwise, stop (`break`) as soon as the list reaches
`max_per_sentence`.  Returns the sentence list and the grown `seen_lemmas`. -/
def topRarePick (max_per : ℤ) (curLen : ℕ) (sentLemmas seen : List String) :
    List (String × ℚ × String) → List (String × ℚ × String) × List String
  | [] => ([], seen)
  | (word, score, lem) :: rest =>
      if sentLemmas.contains lem || seen.contains lem then
        topRarePick max_per curLen sentLemmas seen rest
      else
        if max_per ≤ ((curLen + 1 : ℕ) : ℤ) then ([(word, score, lem)], lem :: seen)
        else
          let out := topRarePick max_per (curLen + 1) (lem :: sentLemmas) (lem :: seen) rest
          ((word, score, lem) :: out.1, out.2)

/-- `word_data` of one sentence in the regex-fallback branch of
`get_top_rare_per_sentence` (no spaCy model): extract words, drop short words,
stopwords and digits, score the word itself, keep positive scores, with the
lowercased word as its own lemma; then sort ascending by score (Python's stable
sort). -/
def topRareWordData (a : WordFrequencyAnalyzer) (sentence : String) :
    List (String × ℚ × String) :=
  let word_data := (extract_words sentence).filterMap (fun word =>
    if word.length < 3 then none
    else if a.stopwords.contains (pyStrLower word) then none
    else if pyIsDigit word then none
    else
      let lem := pyStrLower word
      let score := a.get_zipf_score word
      if 0 < score then some (word, score, lem) else none)
  word_data.mergeSort (fun x y => x.2.1 ≤ y.2.1)

/-- Outer loop of `get_top_rare_per_sentence` threading `seen_lemmas` through the
sentences. -/
def topRareGo (a : WordFrequencyAnalyzer) (max_per : ℤ) :
    List String → List String → List (List (String × ℚ × String))
  | [], _ => []
  | sentence :: rest, seen =>
      let out := topRarePick max_per 0 [] seen (topRareWordData a sentence)
      out.1 :: topRareGo a max_per rest out.2

/-- `WordFrequencyAnalyzer.get_top_rare_per_sentence`
(src/analysis/word_frequency.py lines 104-193), regex-fallback branch
(the spaCy tokenizer is an external library). -/
def WordFrequencyAnalyzer.get_top_rare_per_sentence (a : WordFrequencyAnalyzer)
    (sentences : List String) (max_per_sentence : ℤ := 5) :
    List (List (String × ℚ × String)) :=
  topRareGo a max_per_sentence sentences []

/-- Value of `extract_global_rare_words` for one word:
`{zipf, rank, count, sentences}` (rank is unused downstream and omitted). -/
structure RareInfo where
  zipf : ℚ
  count : ℕ
  sentences : List ℕ
deriving DecidableEq

/-- Python `round` (banker's rounding: ties to even). -/
def pyRound (q : ℚ) : ℤ :=
  if q - ⌊q⌋ = 1/2 then (if 2 ∣ ⌊q⌋ then ⌊q⌋ else ⌊q⌋ + 1) else round q

/-- Per-sentence targets of `get_rare_words_for_sentences`:
`0` for empty sentences, otherwise `round(target_avg * length / avg_length)`
clamped to `[min_per_sentence, max_per_sentence]`. -/
def rareTargets (lengths : List ℕ) (min_per max_per : ℤ) (target_avg : ℚ) : List ℤ :=
  let avg : ℚ := if lengths.isEmpty then 1 else ((lengths.sum : ℚ) / (lengths.length : ℚ))
  lengths.map (fun l : ℕ =>
    if l = 0 then 0
    else max min_per (min max_per (pyRound (target_avg * ((l : ℚ) / avg)))))

/-- First pass of `get_rare_words_for_sentences`: each word goes to its first
occurrence sentence if that sentence still has budget.  The sentence indices in
the pool are in range in every call (the pool is produced by
`extract_global_rare_words`), so the total `getD`/`set` accesses model the
Python list indexing. -/
def rareFirstPass (targets : List ℤ) :
    List (String × RareInfo) → List (List (String × ℚ)) → List String →
    List (List (String × ℚ)) × List String
  | [], acc, used => (acc, used)
  | (word, info) :: rest, acc, used =>
      match info.sentences.head? with
      | none => rareFirstPass targets rest acc used
      | some first_sent =>
          if (((acc.getD first_sent []).length : ℕ) : ℤ) < targets.getD first_sent 0 then
            rareFirstPass targets rest
              (acc.set first_sent ((acc.getD first_sent []) ++ [(word, info.zipf)]))
              (word :: used)
          else rareFirstPass targets rest acc used

/-- Try the sentences where a word occurs, in order, appending to the first one
with remaining budget (the second pass's inner loop). -/
def rarePlace (targets : List ℤ) (word : String) (z : ℚ)
    (acc : List (List (String × ℚ))) : List ℕ → Option (List (List (String × ℚ)))
  | [] => none
  | s :: rest =>
      if (((acc.getD s []).length : ℕ) : ℤ) < targets.getD s 0 then
        some (acc.set s ((acc.getD s []) ++ [(word, z)]))
      else rarePlace targets word z acc rest

/-- Second pass of `get_rare_words_for_sentences`: words not yet used try their
other occurrence sentences. -/
def rareSecondPass (targets : List ℤ) :
    List (String × RareInfo) → List (List (String × ℚ)) → List String →
    List (List (String × ℚ))
  | [], acc, _ => acc
  | (word, info) :: rest, acc, used =>
      if used.contains word then rareSecondPass targets rest acc used
      else
        match rarePlace targets word info.zipf acc info.sentences with
        | some acc' => rareSecondPass targets rest acc' (word :: used)
        | none => rareSecondPass targets rest acc used

/-- `WordFrequencyAnalyzer.get_rare_words_for_sentences`
(src/analysis/word_frequency.py lines 268-356).  `global_rare_words` is the
pool dict as an association list (dict keys are unique). -/
def WordFrequencyAnalyzer.get_rare_words_for_sentences (a : WordFrequencyAnalyzer)
    (sentences : List String) (global_rare_words : List (String × RareInfo))
    (min_per_sentence : ℤ := 0) (max_per_sentence : ℤ := 6) (target_avg : ℚ := 5) :
    List (List (String × ℚ)) :=
  let sentence_lengths := sentences.map (fun sentence =>
    ((extract_words sentence).filter (fun w =>
      3 ≤ w.length && !(a.stopwords.contains (pyStrLower w)))).length)
  let targets := rareTargets sentence_lengths min_per_sentence max_per_sentence target_avg
  let sorted_words := global_rare_words.mergeSort (fun x y => x.2.zipf ≤ y.2.zipf)
  let out1 := rareFirstPass targets sorted_words (List.replicate sentences.length []) []
  let result := rareSecondPass targets sorted_words out1.1 out1.2
  result.map (fun l => l.mergeSort (fun x y => x.2 ≤ y.2))

/-! ## core/text_splitter.py — string helpers

The splitter is modelled on `List Char`; each Python regex of the source is
implemented as an explicit left-to-right scanner with the same match semantics. -/

/-- Python `str.strip()`. -/
def pyStrip (s : List Char) : List Char :=
  ((s.dropWhile Char.isWhitespace).reverse.dropWhile Char.isWhitespace).reverse

/-- `re.sub(r"\s+", " ", text)`: collapse whitespace runs to single spaces.
Structural recursion on `fuel`, always called with `fuel ≥ length + 1` by
`collapseWs` (the scanner consumes at least one character per step); the
exhausted-fuel case returns the remaining input unchanged. -/
def collapseWsGo : ℕ → List Char → List Char
  | 0, l => l
  | _, [] => []
  | fuel + 1, c :: rest =>
      if c.isWhitespace then ' ' :: collapseWsGo fuel (rest.dropWhile Char.isWhitespace)
      else c :: collapseWsGo fuel rest

def collapseWs (s : List Char) : List Char :=
  collapseWsGo (s.length + 1) s

/-- `TextSplitter._clean_text`. -/
def cleanText (s : List Char) : List Char :=
  pyStrip (collapseWs s)

/-- Python `str.split(sep)` for a single-character separator. -/
def splitOnChar (sep : Char) : List Char → List (List Char)
  | [] => [[]]
  | c :: rest =>
      if c = sep then [] :: splitOnChar sep rest
      else
        match splitOnChar sep rest with
        | [] => [[c]]
        | p :: ps => (c :: p) :: ps

/-- Python `str.split(sep)` for a multi-character separator (fuel-structural;
`splitOnList` supplies `fuel = length + 1`). -/
def splitOnListGo (sep : List Char) : ℕ → List Char → List (List Char)
  | 0, l => [l]
  | _, [] => [[]]
  | fuel + 1, c :: rest =>
      if sep ≠ [] ∧ sep.isPrefixOf (c :: rest) then
        [] :: splitOnListGo sep fuel ((c :: rest).drop sep.length)
      else
        match splitOnListGo sep fuel rest with
        | [] => [[c]]
        | p :: ps => (c :: p) :: ps

def splitOnList (sep : List Char) (s : List Char) : List (List Char) :=
  splitOnListGo sep (s.length + 1) s

/-- Python `str.find(pat)` restricted to found results (`none` when absent;
`pat in s` is `(findSeq pat s).isSome`). -/
def findSeq (pat : List Char) : List Char → Option ℕ
  | [] => if pat = [] then some 0 else none
  | c :: rest =>
      if pat.isPrefixOf (c :: rest) then some 0
      else (findSeq pat rest).map (· + 1)

/-- Python `str.replace(old, new)` (all non-overlapping occurrences, left to
right; the source never calls it with an empty `old`).  Fuel-structural;
`pyReplace` supplies `fuel = length + 1`. -/
def pyReplaceGo (old new : List Char) : ℕ → List Char → List Char
  | 0, l => l
  | _, [] => []
  | fuel + 1, c :: rest =>
      if old ≠ [] ∧ old.isPrefixOf (c :: rest) then
        new ++ pyReplaceGo old new fuel ((c :: rest).drop old.length)
      else c :: pyReplaceGo old new fuel rest

def pyReplace (old new : List Char) (s : List Char) : List Char :=
  pyReplaceGo old new (s.length + 1) s

/-- Uppercase class `[A-ZА-ЯЁ]` of the splitter's regexes. -/
def isUpperLetter (c : Char) : Bool :=
  ('A' ≤ c && c ≤ 'Z') || ('А' ≤ c && c ≤ 'Я') || c = 'Ё'

/-- Letter class `[A-ZА-ЯЁa-zа-яё]` of `SINGLE_LETTER_PATTERN`. -/
def isAnyLetter (c : Char) : Bool :=
  isUpperLetter c || ('a' ≤ c && c ≤ 'z') || ('а' ≤ c && c ≤ 'я') || c = 'ё'

/-- `ELLIPSIS_PATTERN.sub('_ELLIPSIS_', text)`: each `…`, and each maximal run of
two or more dots, becomes the placeholder.  All scanners below recurse
structurally on a `fuel` argument; the wrapper supplies `fuel = length + 1`,
always enough because every step consumes at least one character, and the
exhausted-fuel case returns the remaining input unchanged. -/
def protectEllipsisGo : ℕ → List Char → List Char
  | 0, l => l
  | _, [] => []
  | fuel + 1, c :: rest =>
      if c = '…' then "_ELLIPSIS_".toList ++ protectEllipsisGo fuel rest
      else if c = '.' ∧ rest.headD ' ' = '.' then
        "_ELLIPSIS_".toList ++ protectEllipsisGo fuel (rest.tail.dropWhile (· = '.'))
      else c :: protectEllipsisGo fuel rest

def protectEllipsis (s : List Char) : List Char :=
  protectEllipsisGo (s.length + 1) s

/-- Length of the first extension of `exts` (given lowercase) matching
case-insensitively at the start of `l` with a `\b` boundary after it. -/
def findExt (exts : List (List Char)) (l : List Char) : Option ℕ :=
  match exts with
  | [] => none
  | ext :: more =>
      if (l.take ext.length).map pyCharLower = ext
          && (match l.drop ext.length with
              | [] => true
              | d :: _ => !isWordChar d) then
        some ext.length
      else findExt more l

/-- Scanner shared by `FILE_EXT_PATTERN` and `DOMAIN_PATTERN`:
`(\w+)\.(alt1|alt2|…)\b` with `re.IGNORECASE`, substituting
`group1 ++ marker ++ group2` (the matched extension keeps its original case). -/
def protectExtGo (exts : List (List Char)) (marker : List Char) :
    ℕ → List Char → List Char
  | 0, l => l
  | _, [] => []
  | fuel + 1, c :: rest =>
      if isWordChar c then
        let k := (rest.takeWhile isWordChar).length
        let run := c :: rest.takeWhile isWordChar
        if (rest.drop k).headD ' ' = '.' then
          let tail := rest.drop (k + 1)
          match findExt exts tail with
          | some n =>
              run ++ marker ++ tail.take n
                ++ protectExtGo exts marker fuel (rest.drop (k + 1 + n))
          | none => run ++ '.' :: protectExtGo exts marker fuel (rest.drop (k + 1))
        else run ++ protectExtGo exts marker fuel (rest.drop k)
      else c :: protectExtGo exts marker fuel rest

def protectExt (exts : List (List Char)) (marker : List Char) (s : List Char) :
    List Char :=
  protectExtGo exts marker (s.length + 1) s

/-- Extension alternation of `FILE_EXT_PATTERN`. -/
def FILE_EXTS : List (List Char) :=
  ["json", "xml", "txt", "md", "py", "js", "ts", "html", "css", "yml", "yaml",
   "csv", "pdf", "doc", "docx", "xls", "xlsx", "mp3", "mp4", "wav", "jpg",
   "png", "gif", "zip", "tar", "gz"].map String.toList

/-- TLD alternation of `DOMAIN_PATTERN`. -/
def DOMAIN_TLDS : List (List Char) :=
  ["com", "org", "net", "ru", "io", "dev", "co", "edu", "gov", "info", "me",
   "tv", "uk", "de", "fr", "es", "it", "nl", "pl", "ua", "by", "kz"].map String.toList

/-- `DECIMAL_PATTERN.sub(r'\1_DECIMAL_\2', text)`: `(\d+)\.(\d+)`. -/
def protectDecimalGo : ℕ → List Char → List Char
  | 0, l => l
  | _, [] => []
  | fuel + 1, c :: rest =>
      if c.isDigit then
        let k := (rest.takeWhile Char.isDigit).length
        let run := c :: rest.takeWhile Char.isDigit
        if (rest.drop k).headD ' ' = '.' then
          let tail := rest.drop (k + 1)
          if (match tail with | d :: _ => d.isDigit | [] => false) then
            let k2 := (tail.takeWhile Char.isDigit).length
            run ++ "_DECIMAL_".toList ++ tail.takeWhile Char.isDigit
              ++ protectDecimalGo fuel (rest.drop (k + 1 + k2))
          else run ++ '.' :: protectDecimalGo fuel (rest.drop (k + 1))
        else run ++ protectDecimalGo fuel (rest.drop k)
      else c :: protectDecimalGo fuel rest

def protectDecimal (s : List Char) : List Char :=
  protectDecimalGo (s.length + 1) s

/-- Detect `(\d{1,3})\.` at the start of `l`: the digit run must be 1–3 long and
be followed directly by a dot; returns the run length. -/
def numMatch (l : List Char) : Option ℕ :=
  let run := l.takeWhile Char.isDigit
  if run.length = 0 ∨ 3 < run.length then none
  else if (l.drop run.length).headD ' ' = '.' then some run.length
  else none

/-- `NUMBERED_LIST_PATTERN.sub(...)`: `(?:^|\s)(\d{1,3})\.` replaced by
`prefix + digits + '_NUM_'`.  `boundary` is true at the string start and right
after an emitted whitespace character (the regex's consumed `\s`). -/
def protectNumberedGo : ℕ → Bool → List Char → List Char
  | 0, _, l => l
  | _, _, [] => []
  | fuel + 1, boundary, c :: rest =>
      if boundary then
        match numMatch (c :: rest) with
        | some n =>
            (c :: rest).take n ++ "_NUM_".toList
              ++ protectNumberedGo fuel false ((c :: rest).drop (n + 1))
        | none => c :: protectNumberedGo fuel c.isWhitespace rest
      else c :: protectNumberedGo fuel c.isWhitespace rest

def protectNumbered (boundary : Bool) (s : List Char) : List Char :=
  protectNumberedGo (s.length + 1) boundary s

/-- Greedy `([A-ZА-ЯЁ]\.)+`: returns the number of pairs and the replacement
text (each dot replaced by `_ACRO_`, as `group(0).replace('.', '_ACRO_')` does).
The pairs consume two characters each. -/
def acroTake : List Char → ℕ × List Char
  | [] => (0, [])
  | [_] => (0, [])
  | u :: d :: rest =>
      if d = '.' ∧ isUpperLetter u = true then
        ((acroTake rest).1 + 1, u :: "_ACRO_".toList ++ (acroTake rest).2)
      else (0, [])

/-- `ACRONYM_PATTERN.sub(...)`: `\b([A-ZА-ЯЁ]\.){2,}` with each dot turned into
`_ACRO_`.  `prevIsWord` tracks the `\b` boundary; a match consumes two
characters per pair. -/
def protectAcroGo : ℕ → Bool → List Char → List Char
  | 0, _, l => l
  | _, _, [] => []
  | fuel + 1, prevIsWord, c :: rest =>
      if !prevIsWord && isUpperLetter c then
        if 2 ≤ (acroTake (c :: rest)).1 then
          (acroTake (c :: rest)).2
            ++ protectAcroGo fuel false ((c :: rest).drop (2 * (acroTake (c :: rest)).1))
        else c :: protectAcroGo fuel (isWordChar c) rest
      else c :: protectAcroGo fuel (isWordChar c) rest

def protectAcro (prevIsWord : Bool) (s : List Char) : List Char :=
  protectAcroGo (s.length + 1) prevIsWord s

/-- The lookahead `(?=\s|$|[^letters]|[A-ZА-ЯЁ]\.)` of `SINGLE_LETTER_PATTERN`,
examining the characters after the candidate's dot. -/
def initLook : List Char → Bool
  | [] => true
  | d :: tail2 =>
      if !isAnyLetter d then true
      else if isUpperLetter d then decide (tail2.headD ' ' = '.')
      else false

/-- `SINGLE_LETTER_PATTERN.sub(r'\1_INIT_', text)`:
`(?<![letters])([A-ZА-ЯЁ])\.(?=\s|$|[^letters]|[A-ZА-ЯЁ]\.)`. -/
def protectInitGo : ℕ → Bool → List Char → List Char
  | 0, _, l => l
  | _, _, [] => []
  | fuel + 1, prevIsLetter, c :: rest =>
      if rest.headD ' ' = '.' ∧ (!prevIsLetter && isUpperLetter c) = true
          ∧ initLook rest.tail = true then
        c :: "_INIT_".toList ++ protectInitGo fuel false rest.tail
      else c :: protectInitGo fuel (isAnyLetter c) rest

def protectInit (prevIsLetter : Bool) (s : List Char) : List Char :=
  protectInitGo (s.length + 1) prevIsLetter s

/-! ## core/text_splitter.py — splitter pipeline -/

/-- `ABBREVIATIONS` table (src/core/text_splitter.py lines 40-60). -/
def ABBREVIATIONS_EN : List String :=
  ["Mr.", "Mrs.", "Ms.", "Dr.", "Prof.", "Jr.", "Sr.", "vs.", "etc.",
   "i.e.", "e.g.", "Inc.", "Ltd.", "Co.", "Corp.", "Ave.", "St.", "Rd.",
   "Mt.", "ft.", "oz.", "lb.", "Jan.", "Feb.", "Mar.", "Apr.", "Jun.",
   "Jul.", "Aug.", "Sep.", "Oct.", "Nov.", "Dec.", "Rev.", "Gen.", "Col.",
   "Lt.", "Sgt.", "Capt.", "Cmdr.", "Adm.", "Ph.D.", "M.D.", "B.A.", "M.A."]

def ABBREVIATIONS_RU : List String :=
  ["г.", "гг.", "т.д.", "т.п.", "т.е.", "др.", "пр.", "ул.", "д.", "кв.",
   "им.", "проф.", "доц.", "канд.", "акад.", "чл.", "корр.", "ред.", "изд.",
   "см.", "ср.", "напр.", "п.", "пп.", "ч.", "с.", "стр.", "рис.", "табл.",
   "млн.", "млрд.", "тыс.", "руб.", "коп.", "м.", "км.", "кг.", "гр."]

def ABBREVIATIONS_ES : List String :=
  ["Sr.", "Sra.", "Srta.", "Dr.", "Dra.", "Prof.", "Ud.", "Uds.", "etc.",
   "Lic.", "Ing.", "Arq.", "Abog.", "Mtro.", "Mtra.", "Pbro.", "Mons.",
   "Gral.", "Cnel.", "Cap.", "Tte.", "Sgt.", "pág.", "págs.", "vol.",
   "núm.", "tel.", "fax.", "aprox.", "máx.", "mín.", "prom."]

def ABBREVIATIONS : List (String × List String) :=
  [("en", ABBREVIATIONS_EN), ("ru", ABBREVIATIONS_RU), ("es", ABBREVIATIONS_ES)]

/-- `DEFAULT_MAX_SENTENCE_LENGTH`. -/
def DEFAULT_MAX_SENTENCE_LENGTH : ℕ := 95

/-- State of a `TextSplitter` instance. -/
structure TextSplitter where
  language : String
  max_sentence_length : ℕ
  abbreviations : List String
deriving DecidableEq

/-- `TextSplitter.__init__`: validates the language (raising
`UnsupportedLanguageError` on unknown codes) and selects the abbreviation list
(base code for Spanish variants). -/
def mkTextSplitter (language : String)
    (max_sentence_length : ℕ := DEFAULT_MAX_SENTENCE_LENGTH) :
    Except String TextSplitter :=
  match get_language language with
  | none => Except.error ("Unsupported language code: " ++ language ++ " in TextSplitter")
  | some lang =>
      let base_code := baseCode lang.code
      Except.ok
        { language := lang.code
          max_sentence_length := max_sentence_length
          abbreviations :=
            ((ABBREVIATIONS.lookup lang.code).orElse
              (fun _ => ABBREVIATIONS.lookup base_code)).getD [] }

/-- Placeholder for a known abbreviation:
`f"_ABBR_{abbr.replace('.', '_DOT_')}_"`. -/
def abbrPlaceholder (abbr : String) : List Char :=
  "_ABBR_".toList ++ pyReplace ['.'] "_DOT_".toList abbr.toList ++ ['_']

/-- `TextSplitter._protect_abbreviations`: the eight substitution passes in
source order (ellipsis, file extensions, domains, decimals, numbered list
markers, acronyms, single-letter initials, known abbreviations). -/
def TextSplitter.protect (ts : TextSplitter) (text : List Char) : List Char :=
  let p1 := protectEllipsis text
  let p2 := protectExt FILE_EXTS "_FEXT_".toList p1
  let p3 := protectExt DOMAIN_TLDS "_DOM_".toList p2
  let p4 := protectDecimal p3
  let p5 := protectNumbered true p4
  let p6 := protectAcro false p5
  let p7 := protectInit false p6
  ts.abbreviations.foldl
    (fun acc abbr => pyReplace abbr.toList (abbrPlaceholder abbr) acc) p7

/-- `TextSplitter._restore_abbreviations`: the placeholders restored in reverse
order of protection; note `_ELLIPSIS_` is restored as exactly three dots. -/
def TextSplitter.restore (ts : TextSplitter) (text : List Char) : List Char :=
  let r1 := ts.abbreviations.foldl
    (fun acc abbr => pyReplace (abbrPlaceholder abbr) abbr.toList acc) text
  let r2 := pyReplace "_INIT_".toList ['.'] r1
  let r3 := pyReplace "_ACRO_".toList ['.'] r2
  let r4 := pyReplace "_NUM_".toList ['.'] r3
  let r5 := pyReplace "_DECIMAL_".toList ['.'] r4
  let r6 := pyReplace "_DOM_".toList ['.'] r5
  let r7 := pyReplace "_FEXT_".toList ['.'] r6
  pyReplace "_ELLIPSIS_".toList "...".toList r7

/-- Dash class `[—–-]` of the dialogue-split regex. -/
def isDashChar (c : Char) : Bool :=
  c = '—' || c = '–' || c = '-'

/-- Lookahead `(?=[—–-]\s)`. -/
def dialogLookahead : List Char → Bool
  | d :: e :: _ => isDashChar d && e.isWhitespace
  | _ => false

/-- `re.split(r'\n\s*(?=[—–-]\s)', text)`: a delimiter is a newline plus the
following whitespace run when the next characters are a dash and a whitespace. -/
def splitDialog1Go : ℕ → List Char → List (List Char)
  | 0, l => [l]
  | _, [] => [[]]
  | fuel + 1, c :: rest =>
      if c = '\n'
          ∧ dialogLookahead (rest.drop (rest.takeWhile Char.isWhitespace).length)
            = true then
        [] :: splitDialog1Go fuel (rest.drop (rest.takeWhile Char.isWhitespace).length)
      else
        match splitDialog1Go fuel rest with
        | [] => [[c]]
        | p :: ps => (c :: p) :: ps

def splitDialog1 (s : List Char) : List (List Char) :=
  splitDialog1Go (s.length + 1) s

/-- `re.split(r'\n\s*\n', part)`: a delimiter is a newline, then greedy
whitespace up to the last newline of the run (regex backtracking picks the last
newline inside the maximal whitespace run). -/
def splitDialog2Go : ℕ → List Char → List (List Char)
  | 0, l => [l]
  | _, [] => [[]]
  | fuel + 1, c :: rest =>
      if c = '\n' ∧ (rest.takeWhile Char.isWhitespace).contains '\n' = true then
        [] :: splitDialog2Go fuel
          (rest.drop ((rest.takeWhile Char.isWhitespace).length
            - ((rest.takeWhile Char.isWhitespace).reverse.takeWhile
                (fun c => c ≠ '\n')).length))
      else
        match splitDialog2Go fuel rest with
        | [] => [[c]]
        | p :: ps => (c :: p) :: ps

def splitDialog2 (s : List Char) : List (List Char) :=
  splitDialog2Go (s.length + 1) s

/-- `TextSplitter._split_dialogues`: both regex splits, then
`[p.strip() for p in result if p.strip()]`. -/
def split_dialogues (text : List Char) : List (List Char) :=
  (((splitDialog1 text).flatMap splitDialog2).map pyStrip).filter (· ≠ [])

/-- Sentence-boundary class `[.!?]`. -/
def isSB (c : Char) : Bool :=
  c = '.' || c = '!' || c = '?'

/-- `re.split(r'([.!?]+)\s+(?=[A-ZА-ЯЁ])', text)` as the interleaved list
`[t0, d0, t1, d1, …, tn]` (delimiters are the captured punctuation runs; the
separating whitespace run — at least one character — is consumed). -/
def resplitSBGo : ℕ → List Char → List (List Char)
  | 0, l => [l]
  | _, [] => [[]]
  | fuel + 1, c :: rest =>
      if isSB c then
        let k := (rest.takeWhile isSB).length
        let w := ((rest.drop k).takeWhile Char.isWhitespace).length
        if !(w == 0)
            && (match rest.drop (k + w) with
                | d :: _ => isUpperLetter d
                | [] => false) then
          [] :: (c :: rest.takeWhile isSB) :: resplitSBGo fuel (rest.drop (k + w))
        else
          match resplitSBGo fuel rest with
          | [] => [[c]]
          | p :: ps => (c :: p) :: ps
      else
        match resplitSBGo fuel rest with
        | [] => [[c]]
        | p :: ps => (c :: p) :: ps

def resplitSB (s : List Char) : List (List Char) :=
  resplitSBGo (s.length + 1) s

/-- `re.match(r'^[.!?]+$', part)`. -/
def isPunctRun (l : List Char) : Bool :=
  l ≠ [] && l.all isSB

/-- The recombination loop of `_split_regex`: glue each captured punctuation run
back onto the preceding piece; pieces without a following delimiter are kept only
when they do not strip to empty. -/
def recombineSB : List (List Char) → List (List Char)
  | [] => []
  | p :: q :: rest =>
      if isPunctRun q then (p ++ q) :: recombineSB rest
      else if pyStrip p ≠ [] then p :: recombineSB (q :: rest)
      else recombineSB (q :: rest)
  | [p] => if pyStrip p ≠ [] then [p] else []

/-- `TextSplitter._split_regex`: protect, split on sentence boundaries,
recombine, restore. -/
def TextSplitter.split_regex (ts : TextSplitter) (text : List Char) : List (List Char) :=
  (recombineSB (resplitSB (ts.protect text))).map ts.restore

/-- Conjunction patterns of `_split_long_sentence` (step 3), in source order. -/
def CONJ_PATTERNS : List (List Char) :=
  [", и ", ", а ", ", но ", ", однако ", ", хотя ",
   ", or ", ", and ", ", but ", ", yet ", ", so ",
   ", y ", ", o ", ", pero ", ", aunque "].map String.toList

/-- Step 1 of `_split_long_sentence`: the semicolon split.  Returns `none` when
the guard does not fire (no semicolon, or every filtered part is empty). -/
def semiParts (s : List Char) : Option (List (List Char)) :=
  if s.contains ';' then
    let pieces := splitOnChar ';' s
    let parts := (pieces.dropLast.map (fun p => pyStrip p ++ [';']))
      ++ [pyStrip (pieces.getLastD [])]
    let parts := parts.filter (fun p => pyStrip p ≠ [] ∧ p ≠ [';'])
    if parts ≠ [] then some parts else none
  else none

/-- Step 2: the spaced em-dash split. -/
def emdashParts (s : List Char) : Option (List (List Char)) :=
  if (findSeq " — ".toList s).isSome then
    let pieces := splitOnList " — ".toList s
    let parts := [pyStrip (pieces.headD [])]
      ++ (pieces.tail.map (fun p => "— ".toList ++ pyStrip p))
    let parts := parts.filter (fun p => pyStrip p ≠ [] ∧ p ≠ ['—'])
    if parts ≠ [] then some parts else none
  else none

/-- Step 3: comma followed by a conjunction; the first listed pattern that is
present and yields two non-empty halves wins (`part1` keeps the comma, `part2`
starts at the conjunction, the space between them is dropped).  When a present
pattern yields an empty half the Python `for` loop falls through to the next
pattern. -/
def conjPartsGo (s : List Char) : List (List Char) → Option (List Char × List Char)
  | [] => none
  | pat :: more =>
      match findSeq pat s with
      | some idx =>
          let part1 := pyStrip (s.take (idx + 1))
          let part2 := pyStrip (s.drop (idx + 2))
          if part1 ≠ [] ∧ part2 ≠ [] then some (part1, part2)
          else conjPartsGo s more
      | none => conjPartsGo s more

def conjParts (s : List Char) : Option (List Char × List Char) :=
  conjPartsGo s CONJ_PATTERNS

/-- First comma index minimizing the distance to `mid` (Python `min` keeps the
first minimum). -/
def bestComma (mid : ℕ) : List ℕ → ℕ → ℕ
  | [], best => best
  | i :: rest, best =>
      if ((i : ℤ) - mid).natAbs < ((best : ℤ) - mid).natAbs then bestComma mid rest i
      else bestComma mid rest best

/-- Step 4: split at the comma nearest the middle, only when it lies strictly
between 20% and 80% of the sentence's own length and both halves are
non-empty.  The source's `len(sentence) * 0.2 < best_comma < len(sentence) * 0.8`
is written in the equivalent integer form `len < 5·best ∧ 5·best < 4·len`
(multiplying through by 5; see `commaWindow_models_float`). -/
def commaParts (s : List Char) : Option (List Char × List Char) :=
  if s.contains ',' then
    let mid := s.length / 2
    let commas := ((s.enum.filter (fun p => p.2 = ',')).map (·.1))
    match commas with
    | [] => none
    | c0 :: cs =>
        let best := bestComma mid cs c0
        if s.length < 5 * best ∧ 5 * best < 4 * s.length then
          let part1 := pyStrip (s.take (best + 1))
          let part2 := pyStrip (s.drop (best + 1))
          if part1 ≠ [] ∧ part2 ≠ [] then some (part1, part2) else none
        else none
  else none

/-- `TextSplitter._split_long_sentence` (src/core/text_splitter.py lines
218-284).  `fuel` is `11 - depth`: the source starts at `depth = 0` and returns
the sentence unchanged once `depth > 10` (i.e. at `fuel = 0`). -/
def TextSplitter.split_long_sentence (ts : TextSplitter) : ℕ → List Char → List (List Char)
  | fuel, s =>
      if s.length ≤ ts.max_sentence_length then [s]
      else
        match fuel with
        | 0 => [s]
        | fuel + 1 =>
            match semiParts s with
            | some parts => (parts.map (ts.split_long_sentence fuel)).flatten
            | none =>
            match emdashParts s with
            | some parts => (parts.map (ts.split_long_sentence fuel)).flatten
            | none =>
            match conjParts s with
            | some p => ts.split_long_sentence fuel p.1 ++ ts.split_long_sentence fuel p.2
            | none =>
            match commaParts s with
            | some p => ts.split_long_sentence fuel p.1 ++ ts.split_long_sentence fuel p.2
            | none => [s]

/-- True when the recursion-depth cap (`depth > 10`) is reached somewhere while
splitting `s`: the same recursion structure as `split_long_sentence`, recording
whether any branch runs out of fuel on an over-long sentence. -/
def TextSplitter.capHit (ts : TextSplitter) : ℕ → List Char → Bool
  | fuel, s =>
      if s.length ≤ ts.max_sentence_length then false
      else
        match fuel with
        | 0 => true
        | fuel + 1 =>
            match semiParts s with
            | some parts => parts.any (ts.capHit fuel)
            | none =>
            match emdashParts s with
            | some parts => parts.any (ts.capHit fuel)
            | none =>
            match conjParts s with
            | some p => ts.capHit fuel p.1 || ts.capHit fuel p.2
            | none =>
            match commaParts s with
            | some p => ts.capHit fuel p.1 || ts.capHit fuel p.2
            | none => false

/-- `TextSplitter._split_long_sentences`. -/
def TextSplitter.split_long_sentences (ts : TextSplitter) (sentences : List (List Char)) :
    List (List Char) :=
  sentences.flatMap (fun s =>
    if s.length ≤ ts.max_sentence_length then [s]
    else ts.split_long_sentence 11 s)

/-- The sentence list before the length cap: dialogue/paragraph split, cleaning,
regex sentence split (NLTK being an external library, the in-source regex
fallback `_split_regex` is the modelled tokenizer), strip and drop empties. -/
def TextSplitter.sentencesPreCap (ts : TextSplitter) (text : List Char) : List (List Char) :=
  let all_sentences := (split_dialogues text).flatMap (fun para =>
    let para := cleanText para
    if para = [] then [] else ts.split_regex para)
  (all_sentences.map pyStrip).filter (· ≠ [])

/-- `TextSplitter.split` (src/core/text_splitter.py lines 154-193) on `List Char`. -/
def TextSplitter.splitCore (ts : TextSplitter) (text : List Char) : List (List Char) :=
  if text = [] then []
  else
    let result := ts.sentencesPreCap text
    if 0 < ts.max_sentence_length then ts.split_long_sentences result else result

/-- `TextSplitter.split` on strings. -/
def TextSplitter.split (ts : TextSplitter) (text : String) : List String :=
  (ts.splitCore text.toList).map String.mk

/-!
# Theorems
-/

/-! ## Rate limiter (C8, C9) -/

/-- Error backoff characterization: all fields but `current_delay` are constant
under iteration, and the delay is the clamped geometric progression. -/
theorem report_error_iter (rl : RateLimiter) (hb : 1 ≤ rl.backoff_factor)
    (hM0 : 0 ≤ rl.max_delay) (hcM : rl.current_delay ≤ rl.max_delay) :
    ∀ k : ℕ,
      (RateLimiter.report_error^[k] rl).current_delay
          = min rl.max_delay (rl.current_delay * rl.backoff_factor ^ k)
        ∧ (RateLimiter.report_error^[k] rl).max_delay = rl.max_delay
        ∧ (RateLimiter.report_error^[k] rl).backoff_factor = rl.backoff_factor := by
  intro k
  induction k with
  | zero => simp [min_eq_right hcM]
  | succ k ih =>
      obtain ⟨ihc, ihM, ihb⟩ := ih
      rw [Function.iterate_succ_apply']
      refine ⟨?_, by simp [RateLimiter.report_error, ihM], by simp [RateLimiter.report_error, ihb]⟩
      simp only [RateLimiter.report_error, ihc, ihM, ihb]
      rcases le_or_lt (rl.current_delay * rl.backoff_factor ^ k) rl.max_delay with h | h
      · rw [min_eq_right h, pow_succ, ← mul_assoc]
      · rw [min_eq_left h.le]
        have hb0 : (0 : ℚ) ≤ rl.backoff_factor ^ k := by positivity
        have h1 : rl.max_delay ≤ rl.max_delay * rl.backoff_factor :=
          le_mul_of_one_le_right hM0 hb
        have h2 : rl.max_delay ≤ rl.current_delay * rl.backoff_factor ^ (k + 1) := by
          rw [pow_succ, ← mul_assoc]
          nlinarith
        rw [min_eq_left h1, min_eq_left h2]

/-- Success recovery characterization. -/
theorem report_success_iter (rl : RateLimiter) (hr0 : 0 ≤ rl.recovery_factor)
    (hr1 : rl.recovery_factor ≤ 1) (hm0 : 0 ≤ rl.min_delay)
    (hmc : rl.min_delay ≤ rl.current_delay) :
    ∀ m : ℕ,
      (RateLimiter.report_success^[m] rl).current_delay
          = max rl.min_delay (rl.current_delay * rl.recovery_factor ^ m)
        ∧ (RateLimiter.report_success^[m] rl).min_delay = rl.min_delay
        ∧ (RateLimiter.report_success^[m] rl).recovery_factor = rl.recovery_factor := by
  intro m
  induction m with
  | zero => simp [max_eq_right hmc]
  | succ m ih =>
      obtain ⟨ihc, ihm, ihr⟩ := ih
      rw [Function.iterate_succ_apply']
      refine ⟨?_, by simp [RateLimiter.report_success, ihm],
        by simp [RateLimiter.report_success, ihr]⟩
      simp only [RateLimiter.report_success, ihc, ihm, ihr]
      rcases le_or_lt rl.min_delay (rl.current_delay * rl.recovery_factor ^ m) with h | h
      · rw [max_eq_right h, pow_succ, ← mul_assoc]
      · rw [max_eq_left h.le]
        have hr0' : (0 : ℚ) ≤ rl.recovery_factor ^ m := by positivity
        have h1 : rl.min_delay * rl.recovery_factor ≤ rl.min_delay :=
          mul_le_of_le_one_right hm0 hr1
        have h2 : rl.current_delay * rl.recovery_factor ^ (m + 1) ≤ rl.min_delay := by
          rw [pow_succ, ← mul_assoc]
          nlinarith
        rw [max_eq_left h1, max_eq_left h2]

/-- C8: starting from `current_delay = initial`, after `k` consecutive
`report_error()` calls the delay equals `min(max_delay, initial · backoff^k)`,
and after `m` consecutive `report_success()` calls it equals
`max(min_delay, initial · recovery^m)` — under the configuration constraints
the factors' names imply (`backoff_factor ≥ 1`, `0 ≤ recovery_factor ≤ 1`,
`0 ≤ min_delay ≤ initial ≤ max_delay`), all satisfied by the source defaults. -/
theorem rateLimiter_adaptivity (rl : RateLimiter)
    (hb : 1 ≤ rl.backoff_factor) (hr0 : 0 ≤ rl.recovery_factor)
    (hr1 : rl.recovery_factor ≤ 1) (hm0 : 0 ≤ rl.min_delay)
    (hmc : rl.min_delay ≤ rl.current_delay) (hcM : rl.current_delay ≤ rl.max_delay)
    (k m : ℕ) :
    (RateLimiter.report_error^[k] rl).current_delay
        = min rl.max_delay (rl.current_delay * rl.backoff_factor ^ k)
      ∧ (RateLimiter.report_success^[m] rl).current_delay
        = max rl.min_delay (rl.current_delay * rl.recovery_factor ^ m) := by
  have hc0 : 0 ≤ rl.current_delay := le_trans hm0 hmc
  have hM0 : 0 ≤ rl.max_delay := le_trans hc0 hcM
  exact ⟨(report_error_iter rl hb hM0 hcM k).1,
    (report_success_iter rl hr0 hr1 hm0 hmc m).1⟩

/-- Witness for C8 at the source defaults: three errors take the delay from
0.5 s to 4 s, two successes take it to `max(0.5, 0.5·0.81) = 0.5`. -/
theorem rateLimiter_adaptivity_witness :
    (RateLimiter.report_error^[3] rateLimiterDefault).current_delay = 4
      ∧ (RateLimiter.report_success^[2] rateLimiterDefault).current_delay = 1/2 := by
  have h := rateLimiter_adaptivity rateLimiterDefault
    (by norm_num [rateLimiterDefault]) (by norm_num [rateLimiterDefault])
    (by norm_num [rateLimiterDefault]) (by norm_num [rateLimiterDefault])
    (by norm_num [rateLimiterDefault]) (by norm_num [rateLimiterDefault]) 3 2
  refine ⟨h.1.trans (by norm_num [rateLimiterDefault]),
    h.2.trans (by norm_num [rateLimiterDefault])⟩

/-- C9: the jittered delay computed by `_get_delay_with_jitter` is clamped from
below by `min_delay` for every jitter sample (even a negative one that would
take `current_delay + jitter` below the floor), and hence the inter-request
spacing `wait()` enforces is at least `min_delay`. -/
theorem wait_enforces_min_delay (rl : RateLimiter) (elapsed jitterSample : ℚ) :
    rl.min_delay ≤ rl.get_delay_with_jitter jitterSample
      ∧ rl.min_delay ≤ rl.wait_spacing elapsed jitterSample := by
  constructor
  · exact le_max_left _ _
  · show rl.min_delay ≤
      if elapsed < rl.get_delay_with_jitter jitterSample then
        elapsed + (rl.get_delay_with_jitter jitterSample - elapsed)
      else elapsed
    by_cases h : elapsed < rl.get_delay_with_jitter jitterSample
    · rw [if_pos h]
      have heq : elapsed + (rl.get_delay_with_jitter jitterSample - elapsed)
          = rl.get_delay_with_jitter jitterSample := by ring
      rw [heq]
      exact le_max_left _ _
    · rw [if_neg h]
      exact le_trans (le_max_left _ _) (not_lt.mp h)

/-! ## Language registry (C10) -/

/-- C10: `get_language` lowercases the requested code before consulting the
alias table, so the mixed-case alias keys can never match: the all-lowercase
aliases resolve, while `en-US`, `ru-RU`, `es-ES` and `es-US` return `None`
despite appearing in `_ALIASES`, and the `TextSplitter` constructor rejects
them with `UnsupportedLanguageError`. -/
theorem language_alias_case_sensitivity :
    get_language "es-ar" = some SPANISH_LATAM
      ∧ get_language "es-419" = some SPANISH_LATAM
      ∧ get_language "pt" = some PORTUGUESE_BR
      ∧ get_language "en-US" = none
      ∧ get_language "ru-RU" = none
      ∧ get_language "es-ES" = none
      ∧ get_language "es-US" = none
      ∧ (mkTextSplitter "en-US").toOption = none
      ∧ (mkTextSplitter "ru-RU").toOption = none
      ∧ (mkTextSplitter "es-ES").toOption = none
      ∧ (mkTextSplitter "es-US").toOption = none := by
  decide

/-! ## Timeline correction (C3) -/

/-- Scaling of a timeline entry as claim C3 words it: every timeline field
multiplied by the ratio, `pause_between` included. -/
def claimC3Scale (scale : ℚ) (e : TimelineEntry) : TimelineEntry :=
  { start := e.start * scale
    source_duration := e.source_duration * scale
    pause_between := e.pause_between * scale
    target_duration := e.target_duration * scale
    wordcard := e.wordcard.map (fun p => (p.1 * scale, p.2 * scale))
    end_ := e.end_ * scale }

/-- Concrete timeline entry for the C3 counterexample. -/
def c3Entry : TimelineEntry :=
  { start := 0, source_duration := 1, pause_between := 3, target_duration := 1
    wordcard := none, end_ := 10 }

/-- C3 counterexample: for the one-entry timeline with `end = 10` and
`pause_between = 3`, probed duration 20 (difference 10 > 1), the correction does
not multiply `pause_between` by `actual/expected = 2` as the claim states: the
scaled timeline differs from the claim's fully-scaled one. -/
theorem verify_and_correct_timeline_counterexample :
    1 < |20 - expectedDuration [c3Entry]|
      ∧ verify_and_correct_timeline [c3Entry] 20
          ≠ [claimC3Scale (20 / expectedDuration [c3Entry]) c3Entry]
      ∧ (verify_and_correct_timeline [c3Entry] 20).map (·.pause_between) = [3] := by
  have he : expectedDuration [c3Entry] = 10 := by
    simp [expectedDuration, c3Entry]
  refine ⟨by rw [he]; norm_num, ?_, ?_⟩
  · rw [he]
    norm_num [verify_and_correct_timeline, expectedDuration, scaleEntry, claimC3Scale,
      c3Entry, TimelineEntry.mk.injEq]
  · rw [show (20 : ℚ) = 20 from rfl]
    norm_num [verify_and_correct_timeline, expectedDuration, scaleEntry, c3Entry]

/-- C3 (amended): for a non-empty timeline with positive expected duration,
when the probed duration differs from the expected by more than 1 s every
timeline field of every entry is multiplied by `actual/expected` — except
`pause_between`, which the source deliberately leaves unscaled; otherwise the
timeline is returned unchanged. -/
theorem verify_and_correct_timeline_spec (timeline : List TimelineEntry)
    (actual : ℚ) (hne : timeline ≠ [])
    (hpos : 0 < expectedDuration timeline) :
    (1 < |actual - expectedDuration timeline| →
        verify_and_correct_timeline timeline actual
          = timeline.map (fun e =>
              { start := e.start * (actual / expectedDuration timeline)
                source_duration := e.source_duration * (actual / expectedDuration timeline)
                pause_between := e.pause_between
                target_duration := e.target_duration * (actual / expectedDuration timeline)
                wordcard := e.wordcard.map (fun p =>
                  (p.1 * (actual / expectedDuration timeline),
                   p.2 * (actual / expectedDuration timeline)))
                end_ := e.end_ * (actual / expectedDuration timeline) }))
      ∧ (|actual - expectedDuration timeline| ≤ 1 →
          verify_and_correct_timeline timeline actual = timeline) := by
  have hempty : timeline.isEmpty = false := by
    cases timeline with
    | nil => exact absurd rfl hne
    | cons a l => rfl
  have hle : ¬ expectedDuration timeline ≤ 0 := not_le.mpr hpos
  constructor
  · intro hgt
    simp only [verify_and_correct_timeline, hempty, Bool.false_eq_true, if_false,
      hle, hgt, if_true, if_neg, scaleEntry]
    rfl
  · intro hlt
    have hgt : ¬ 1 < |actual - expectedDuration timeline| := not_lt.mpr hlt
    simp only [verify_and_correct_timeline, hempty, Bool.false_eq_true, if_false,
      hle, hgt, if_neg]

/-- Witness for C3 at a concrete input discharging both hypotheses. -/
theorem verify_and_correct_timeline_spec_witness :
    [c3Entry] ≠ [] ∧ 0 < expectedDuration [c3Entry]
      ∧ ((1 < |20 - expectedDuration [c3Entry]| →
            verify_and_correct_timeline [c3Entry] 20
              = [c3Entry].map (fun e =>
                  { start := e.start * (20 / expectedDuration [c3Entry])
                    source_duration := e.source_duration * (20 / expectedDuration [c3Entry])
                    pause_between := e.pause_between
                    target_duration := e.target_duration * (20 / expectedDuration [c3Entry])
                    wordcard := e.wordcard.map (fun p =>
                      (p.1 * (20 / expectedDuration [c3Entry]),
                       p.2 * (20 / expectedDuration [c3Entry])))
                    end_ := e.end_ * (20 / expectedDuration [c3Entry]) }))
          ∧ (|20 - expectedDuration [c3Entry]| ≤ 1 →
              verify_and_correct_timeline [c3Entry] 20 = [c3Entry])) :=
  ⟨by simp, by norm_num [expectedDuration, c3Entry],
    verify_and_correct_timeline_spec [c3Entry] 20 (by simp)
      (by norm_num [expectedDuration, c3Entry])⟩

/-! ## Streaming combiner timeline (C2) -/

/-- `getD` of a tail. -/
theorem getD_tail {α : Type} (l : List α) (j : ℕ) (d : α) :
    l.tail.getD j d = l.getD (j + 1) d := by
  cases l <;> simp [List.getD]

/-- Per-entry equation of the streaming combiner: each entry's `end` is its
`start` plus source duration, inter-language pause, target duration, the
pre-wordcard pause when the sentence has word cards, and the word-card duration
(0 when absent).  Word-card durations are assumed non-negative, as probed
durations are. -/
theorem combineGo_entry_eq (pl ps pwc pw : ℚ) :
    ∀ (srcs tgts : List (Option ℚ)) (wcs : List (List WordCard)) (i total : ℕ) (t : ℚ),
      (∀ scs ∈ wcs, 0 ≤ wordcardsDuration pw scs) →
      ∀ j e, (combineGo pl ps pwc pw srcs tgts wcs i total t).get? j = some e →
        e.end_ = e.start + e.source_duration + e.pause_between + e.target_duration
          + (if (wcs.getD j []).isEmpty then 0 else pwc / 1000)
          + ((e.wordcard.map Prod.snd).getD 0) := by
  intro srcs
  induction srcs with
  | nil =>
      intro tgts wcs i total t _ j e h
      simp [combineGo] at h
  | cons src srcs ih =>
      intro tgts wcs i total t hw j e h
      cases tgts with
      | nil => simp [combineGo] at h
      | cons tgt tgts =>
          cases j with
          | zero =>
              have he : e = combineEntry pl pwc pw src tgt (wcs.headD []) t := by
                simpa [combineGo] using h.symm
              subst he
              have hget : wcs.getD 0 [] = wcs.headD [] := by cases wcs <;> rfl
              rw [hget]
              by_cases hcs : (wcs.headD []).isEmpty
              · have hnil : wcs.headD [] = [] := by
                  simpa [List.isEmpty_iff] using hcs
                simp only [combineEntry, sentenceEnd, hnil, List.isEmpty_nil, if_true,
                  wordcardsDuration, lt_self_iff_false, if_false]
                simp
                ring
              · have hmem : wcs.headD [] ∈ wcs := by
                  cases wcs with
                  | nil => simp at hcs
                  | cons w ws => simp [List.headD]
                have hge := hw _ hmem
                rcases eq_or_lt_of_le hge with heq | hpos
                · simp only [combineEntry, sentenceEnd, hcs, if_false, ← heq,
                    lt_self_iff_false]
                  simp
                  ring
                · simp only [combineEntry, sentenceEnd, hcs, if_false, hpos, if_true]
                  simp
                  ring
          | succ j =>
              have h' : (combineGo pl ps pwc pw srcs tgts wcs.tail (i + 1) total
                  (if i < total - 1 then sentenceEnd pl pwc pw src tgt (wcs.headD []) t + ps
                   else sentenceEnd pl pwc pw src tgt (wcs.headD []) t)).get? j = some e := by
                simpa [combineGo] using h
              have hw' : ∀ scs ∈ wcs.tail, 0 ≤ wordcardsDuration pw scs := by
                intro scs hs
                exact hw scs (List.mem_of_mem_tail hs)
              have := ih tgts wcs.tail (i + 1) total _ hw' j e h'
              rwa [getD_tail] at this

/-- The first entry of a non-empty combiner timeline starts at `t / 1000`. -/
theorem combineGo_head_start (pl ps pwc pw : ℚ)
    (src tgt : Option ℚ) (srcs tgts : List (Option ℚ)) (wcs : List (List WordCard))
    (i total : ℕ) (t : ℚ) :
    (combineGo pl ps pwc pw (src :: srcs) (tgt :: tgts) wcs i total t).get? 0
      = some (combineEntry pl pwc pw src tgt (wcs.headD []) t) := by
  simp [combineGo]

/-- Adjacency of consecutive entries: provided the loop index plus the number of
remaining iterations stays within `total` (true for the top-level call), each
entry starts exactly one inter-sentence pause after the previous entry's end. -/
theorem combineGo_adjacent (pl ps pwc pw : ℚ) :
    ∀ (srcs tgts : List (Option ℚ)) (wcs : List (List WordCard)) (i total : ℕ) (t : ℚ),
      i + min srcs.length tgts.length ≤ total →
      ∀ j e1 e2, (combineGo pl ps pwc pw srcs tgts wcs i total t).get? j = some e1 →
        (combineGo pl ps pwc pw srcs tgts wcs i total t).get? (j + 1) = some e2 →
        e2.start = e1.end_ + ps / 1000 := by
  intro srcs
  induction srcs with
  | nil =>
      intro tgts wcs i total t _ j e1 e2 h1 _
      simp [combineGo] at h1
  | cons src srcs ih =>
      intro tgts wcs i total t htot j e1 e2 h1 h2
      cases tgts with
      | nil => simp [combineGo] at h1
      | cons tgt tgts =>
          cases j with
          | zero =>
              have he1 : e1 = combineEntry pl pwc pw src tgt (wcs.headD []) t := by
                simpa [combineGo] using h1.symm
              have h2' : (combineGo pl ps pwc pw srcs tgts wcs.tail (i + 1) total
                  (if i < total - 1 then sentenceEnd pl pwc pw src tgt (wcs.headD []) t + ps
                   else sentenceEnd pl pwc pw src tgt (wcs.headD []) t)).get? 0 = some e2 := by
                simpa [combineGo] using h2
              -- the successor entry exists, so both lists are non-empty
              cases srcs with
              | nil => simp [combineGo] at h2'
              | cons src' srcs' =>
                  cases tgts with
                  | nil => simp [combineGo] at h2'
                  | cons tgt' tgts' =>
                      have hlt : i < total - 1 := by
                        simp only [List.length_cons] at htot
                        omega
                      rw [combineGo_head_start] at h2'
                      have he2 := Option.some.inj h2'
                      rw [he1, ← he2]
                      simp only [combineEntry, if_pos hlt]
                      ring
          | succ j =>
              have h1' : (combineGo pl ps pwc pw srcs tgts wcs.tail (i + 1) total
                  (if i < total - 1 then sentenceEnd pl pwc pw src tgt (wcs.headD []) t + ps
                   else sentenceEnd pl pwc pw src tgt (wcs.headD []) t)).get? j
                  = some e1 := by
                simpa only [combineGo, List.get?_cons_succ] using h1
              have h2' : (combineGo pl ps pwc pw srcs tgts wcs.tail (i + 1) total
                  (if i < total - 1 then sentenceEnd pl pwc pw src tgt (wcs.headD []) t + ps
                   else sentenceEnd pl pwc pw src tgt (wcs.headD []) t)).get? (j + 1)
                  = some e2 := by
                simpa only [combineGo, List.get?_cons_succ] using h2
              have htot' : (i + 1) + min srcs.length tgts.length ≤ total := by
                simp only [List.length_cons] at htot
                omega
              exact ih tgts wcs.tail (i + 1) total _ htot' j e1 e2 h1' h2'

/-- C2 counterexample: one sentence (source 2000 ms, target 2500 ms) with one
combined-format word card of 1000 ms and the default pauses.  The produced entry
is `(start 0, src 2, pause 0.5, tgt 2.5, wordcard (5.3, 1), end 6.3)`, and
`start + src + pause + tgt + wordcard_dur = 6.0 ≠ 6.3 = end`: the claim's
equation misses the pre-wordcard pause (0.3 s). -/
theorem combine_audio_streaming_counterexample :
    (combine_audio_streaming [some 2000] [some 2500] [[WordCard.combined (some 1000)]]
        500 800 300 200).map (fun e =>
          (e.start, e.source_duration, e.pause_between, e.target_duration,
            (e.wordcard.map Prod.snd).getD 0, e.end_))
      = [(0, 2, 1/2, 5/2, 1, 63/10)]
    ∧ (63 : ℚ)/10 ≠ 0 + 2 + 1/2 + 5/2 + 1 := by
  constructor
  · norm_num [combine_audio_streaming, combineGo, combineEntry, sentenceEnd,
      wordcardsDuration, WordCard.dur]
  · norm_num

/-- C2 (amended): every timeline entry of `combine_audio_streaming` satisfies
`end = start + source_duration + pause_between + target_duration +
(pause_before_wordcard when the sentence has word cards) + wordcard_duration`
(`wordcard_duration = 0` when absent), and consecutive entries satisfy
`start[i+1] = end[i] + inter_sentence_pause` — for non-negative word-card
durations, as probed durations are. -/
theorem combine_audio_streaming_timeline
    (srcs tgts : List (Option ℚ)) (wcs : List (List WordCard)) (pl ps pwc pw : ℚ)
    (hw : ∀ scs ∈ wcs, 0 ≤ wordcardsDuration pw scs) :
    (∀ j e, (combine_audio_streaming srcs tgts wcs pl ps pwc pw).get? j = some e →
        e.end_ = e.start + e.source_duration + e.pause_between + e.target_duration
          + (if (wcs.getD j []).isEmpty then 0 else pwc / 1000)
          + ((e.wordcard.map Prod.snd).getD 0))
      ∧ (∀ j e1 e2, (combine_audio_streaming srcs tgts wcs pl ps pwc pw).get? j = some e1 →
          (combine_audio_streaming srcs tgts wcs pl ps pwc pw).get? (j + 1) = some e2 →
          e2.start = e1.end_ + ps / 1000) := by
  constructor
  · exact combineGo_entry_eq pl ps pwc pw srcs tgts wcs 0 srcs.length 0 hw
  · exact combineGo_adjacent pl ps pwc pw srcs tgts wcs 0 srcs.length 0
      (by simp [Nat.min_le_left])

/-- Witness for C2 on a concrete two-sentence input (spec §8 scenario 5 plus a
word card), discharging the non-negativity hypothesis. -/
theorem combine_audio_streaming_timeline_witness :
    (∀ scs ∈ [[WordCard.combined (some 1000)]], 0 ≤ wordcardsDuration 200 scs)
      ∧ ((∀ j e, (combine_audio_streaming [some 2000, some 3000] [some 2500, some 2000]
            [[WordCard.combined (some 1000)]] 500 800 300 200).get? j = some e →
            e.end_ = e.start + e.source_duration + e.pause_between + e.target_duration
              + (if (([[WordCard.combined (some 1000)]] :
                  List (List WordCard)).getD j []).isEmpty then 0 else (300 : ℚ) / 1000)
              + ((e.wordcard.map Prod.snd).getD 0))
          ∧ (∀ j e1 e2, (combine_audio_streaming [some 2000, some 3000]
              [some 2500, some 2000] [[WordCard.combined (some 1000)]]
              500 800 300 200).get? j = some e1 →
              (combine_audio_streaming [some 2000, some 3000] [some 2500, some 2000]
                [[WordCard.combined (some 1000)]] 500 800 300 200).get? (j + 1) = some e2 →
              e2.start = e1.end_ + (800 : ℚ) / 1000)) :=
  ⟨by intro scs hs
      simp only [List.mem_singleton] at hs
      subst hs
      norm_num [wordcardsDuration, WordCard.dur],
    combine_audio_streaming_timeline [some 2000, some 3000] [some 2500, some 2000]
      [[WordCard.combined (some 1000)]] 500 800 300 200
      (by intro scs hs
          simp only [List.mem_singleton] at hs
          subst hs
          norm_num [wordcardsDuration, WordCard.dur])⟩

/-! ## Translator failure escalation (C1) -/

/-- Exhausting the retry budget on retryable (rate-limit) errors raises. -/
theorem translateSingleGo_all_retryable (resp : ℕ → ApiResponse) (text sl tl : String)
    (h : ∀ n, resp n = ApiResponse.rateLimitError ∨ resp n = ApiResponse.apiError true) :
    ∀ r c, translateSingleGo resp text sl tl r c
      = Except.error ("Translation failed after 5 retries: " ++ text) := by
  intro r
  induction r with
  | zero => intro c; rfl
  | succ r ih =>
      intro c
      rcases h c with hc | hc <;> simp [translateSingleGo, hc, ih]

/-- A response that parses but never yields a changed text fails validation on
every attempt, and the loop raises once the attempts are exhausted. -/
theorem translateSingleGo_all_invalid (resp : ℕ → ApiResponse) (text sl tl : String)
    (h : ∀ n, resp n = ApiResponse.ok none) :
    ∀ r c, translateSingleGo resp text sl tl r c
      = Except.error ("Translation failed after 5 retries: " ++ text) := by
  have hval : validate_translation text text sl tl = false := by
    simp [validate_translation]
  intro r
  induction r with
  | zero => intro c; rfl
  | succ r ih =>
      intro c
      rcases Nat.eq_zero_or_pos r with hr | hr
      · subst hr
        simp [translateSingleGo, h c, hval, ih]
      · have h1r : 1 ≤ r := hr
        simp [translateSingleGo, h c, h (c + 1), hval, h1r, ih]

/-- C1 counterexample: a permanent (non-rate-limit) API error on the very first
call makes `translate` return the original input text instead of raising —
`"Привет"` comes back unchanged from a ru→es request. -/
theorem openai_translate_counterexample :
    openai_translate (fun _ : ℕ => ApiResponse.apiError false) "Привет" "ru" "es"
      = Except.ok "Привет" := by
  rfl

/-- C1 (amended): for `source_lang ≠ target_lang` and non-blank input,
`_translate_single` raises once `MAX_RETRIES` attempts are exhausted — on
rate-limit errors throughout, or on responses that never validate — but on a
non-retryable error (an APIError that is not rate-limit-like, or any other
exception, including parse errors) it returns the original input text instead
of raising. -/
theorem openai_translate_failure_behavior (resp : ℕ → ApiResponse)
    (text sl tl : String) (hne : (sl == tl) = false)
    (hblank : (pyStripStr text == "") = false) :
    ((∀ n, resp n = ApiResponse.rateLimitError ∨ resp n = ApiResponse.apiError true) →
        openai_translate resp text sl tl
          = Except.error ("Translation failed after 5 retries: " ++ text))
      ∧ ((∀ n, resp n = ApiResponse.ok none) →
          openai_translate resp text sl tl
            = Except.error ("Translation failed after 5 retries: " ++ text))
      ∧ (resp 0 = ApiResponse.apiError false →
          openai_translate resp text sl tl = Except.ok text)
      ∧ (resp 0 = ApiResponse.otherError →
          openai_translate resp text sl tl = Except.ok text) := by
  have hunfold : openai_translate resp text sl tl
      = translateSingleGo resp text sl tl 5 0 := by
    simp [openai_translate, openai_translate_single, hne, hblank]
  refine ⟨?_, ?_, ?_, ?_⟩
  · intro h
    rw [hunfold]
    exact translateSingleGo_all_retryable resp text sl tl h 5 0
  · intro h
    rw [hunfold]
    exact translateSingleGo_all_invalid resp text sl tl h 5 0
  · intro h
    rw [hunfold]
    simp [translateSingleGo, h]
  · intro h
    rw [hunfold]
    simp [translateSingleGo, h]

/-- Witness for C1 at a concrete ru→es request with non-blank text. -/
theorem openai_translate_failure_behavior_witness :
    (("ru" == "es") = false) ∧ ((pyStripStr "Дом" == "") = false)
      ∧ (((∀ n, (fun _ : ℕ => ApiResponse.rateLimitError) n = ApiResponse.rateLimitError
            ∨ (fun _ : ℕ => ApiResponse.rateLimitError) n = ApiResponse.apiError true) →
          openai_translate (fun _ : ℕ => ApiResponse.rateLimitError) "Дом" "ru" "es"
            = Except.error ("Translation failed after 5 retries: " ++ "Дом"))
        ∧ ((∀ n, (fun _ : ℕ => ApiResponse.rateLimitError) n = ApiResponse.ok none) →
            openai_translate (fun _ : ℕ => ApiResponse.rateLimitError) "Дом" "ru" "es"
              = Except.error ("Translation failed after 5 retries: " ++ "Дом"))
        ∧ ((fun _ : ℕ => ApiResponse.rateLimitError) 0 = ApiResponse.apiError false →
            openai_translate (fun _ : ℕ => ApiResponse.rateLimitError) "Дом" "ru" "es"
              = Except.ok "Дом")
        ∧ ((fun _ : ℕ => ApiResponse.rateLimitError) 0 = ApiResponse.otherError →
            openai_translate (fun _ : ℕ => ApiResponse.rateLimitError) "Дом" "ru" "es"
              = Except.ok "Дом")) :=
  ⟨rfl, rfl,
    openai_translate_failure_behavior (fun _ : ℕ => ApiResponse.rateLimitError)
      "Дом" "ru" "es" rfl rfl⟩

/-! ## Karaoke subtitle timing (C7) -/

/-- Splitting a filter at the whitespace boundary. -/
theorem filter_eq_takeWhile_append (p : Char → Bool) (l : List Char) :
    l.filter p = l.takeWhile p ++ (l.dropWhile p).filter p := by
  induction l with
  | nil => rfl
  | cons c rest ih =>
      by_cases hp : p c
      · simp [List.filter_cons, List.takeWhile_cons, List.dropWhile_cons, hp, ih]
      · simp [List.filter_cons, List.takeWhile_cons, List.dropWhile_cons, hp]

/-- The words of a segment are exactly its non-whitespace characters, in order
(for any sufficient fuel). -/
theorem pyWordsGo_flatten : ∀ (fuel : ℕ) (s : List Char), s.length ≤ fuel →
    (pyWordsGo fuel s).flatten = s.filter (fun c => !c.isWhitespace)
  | 0, s, hs => by
      have hnil : s = [] := List.length_eq_zero.mp (Nat.le_zero.mp hs)
      subst hnil; rfl
  | _ + 1, [], _ => rfl
  | fuel + 1, c :: rest, hs => by
      have hrest : rest.length ≤ fuel := by
        simp only [List.length_cons] at hs; omega
      by_cases hc : c.isWhitespace
      · rw [show pyWordsGo (fuel + 1) (c :: rest) = pyWordsGo fuel rest by
          simp [pyWordsGo, hc]]
        rw [pyWordsGo_flatten fuel rest hrest]
        simp [List.filter_cons, hc]
      · rw [show pyWordsGo (fuel + 1) (c :: rest)
            = (c :: rest.takeWhile (fun x => !x.isWhitespace))
              :: pyWordsGo fuel (rest.dropWhile (fun x => !x.isWhitespace)) by
          simp [pyWordsGo, hc]]
        rw [List.flatten_cons]
        rw [pyWordsGo_flatten fuel _
          (le_trans (List.dropWhile_sublist _).length_le hrest)]
        rw [List.filter_cons]
        simp only [hc, Bool.not_false, if_pos]
        rw [filter_eq_takeWhile_append (fun x => !x.isWhitespace) rest]
        simp

/-- The words of a segment are exactly its non-whitespace characters, in order. -/
theorem pyWords_flatten (s : List Char) :
    (pyWords s).flatten = s.filter (fun c => !c.isWhitespace) :=
  pyWordsGo_flatten (s.length + 1) s (Nat.le_succ _)

/-- Total word length of a segment is at most its length (`split()` drops the
whitespace). -/
theorem pyWords_length_sum_le (s : List Char) :
    ((pyWords s).map List.length).sum ≤ s.length := by
  have h := congrArg List.length (pyWords_flatten s)
  rw [List.length_flatten] at h
  rw [h]
  exact List.length_filter_le _ s

/-- Folding lengths equals the mapped sum. -/
theorem foldl_length_sum (L : List (List Char)) (n : ℕ) :
    L.foldl (fun acc s => acc + s.length) n = n + (L.map List.length).sum := by
  induction L generalizing n with
  | nil => simp
  | cons s L ih => simp [ih, Nat.add_assoc]

/-- The words taken by the karaoke builder cover at most `total_chars`
characters: the space characters inside segments are counted by `total_chars`
but belong to no word. -/
theorem karaoke_word_lengths_le (text : List Char) :
    (((karaokeSegments text).flatMap
        (fun seg => if seg = nlMarker then [] else pyWords seg)).map List.length).sum
      ≤ karaokeTotalChars text := by
  have haux : ∀ L : List (List Char),
      ((L.flatMap (fun seg => if seg = nlMarker then [] else pyWords seg)).map
        List.length).sum
        ≤ ((L.filter (fun s => !(s == nlMarker))).map List.length).sum := by
    intro L
    induction L with
    | nil => simp
    | cons seg L ih =>
        by_cases hm : seg = nlMarker
        · simp [hm, ih]
        · have hbeq : (seg == nlMarker) = false := beq_eq_false_iff_ne.mpr hm
          simp only [List.flatMap_cons, if_neg hm, List.map_append, List.sum_append,
            List.filter_cons, hbeq, Bool.not_false, if_true, List.map_cons,
            List.sum_cons]
          exact Nat.add_le_add (pyWords_length_sum_le seg) ih
  refine le_trans (haux (karaokeSegments text)) ?_
  unfold karaokeTotalChars
  dsimp only
  rw [foldl_length_sum]
  simp only [Nat.zero_add]
  split <;> omega

/-- `total_chars` is positive (it is floored to 1). -/
theorem karaokeTotalChars_pos (text : List Char) : 0 < karaokeTotalChars text := by
  unfold karaokeTotalChars
  dsimp only
  split <;> omega

/-- The tag duration list is the per-word duration map over the word list. -/
theorem karaokeWordDurations_eq_map (text : List Char) (dur : ℤ) :
    karaokeWordDurations text dur
      = ((karaokeSegments text).flatMap
          (fun seg => if seg = nlMarker then [] else pyWords seg)).map
        (wordDurationCs (karaokeTotalChars text) dur) := by
  unfold karaokeWordDurations
  rw [List.map_flatMap]
  congr 1
  funext seg
  split <;> simp

/-- Each truncated per-word duration is bounded by the exact proportional
share, and is non-negative for non-negative durations. -/
theorem wordDurationCs_bounds (tc : ℕ) (htc : 0 < tc) (dur : ℤ) (hd : 0 ≤ dur)
    (w : List Char) :
    0 ≤ wordDurationCs tc dur w
      ∧ ((wordDurationCs tc dur w : ℚ)) ≤ (w.length : ℚ) * dur / (10 * tc) := by
  have htcq : (0 : ℚ) < (tc : ℚ) := by exact_mod_cast htc
  have hdq : (0 : ℚ) ≤ (dur : ℚ) := by exact_mod_cast hd
  have hq : ((w.length : ℚ) / (tc : ℚ)) * ((dur : ℚ) / 10)
      = (w.length : ℚ) * dur / (10 * tc) := by
    ring
  have hq0 : (0 : ℚ) ≤ ((w.length : ℚ) / (tc : ℚ)) * ((dur : ℚ) / 10) := by
    positivity
  constructor
  · unfold wordDurationCs pyInt
    rw [if_pos hq0]
    exact_mod_cast Int.floor_nonneg.mpr hq0
  · unfold wordDurationCs pyInt
    rw [if_pos hq0, ← hq]
    exact_mod_cast Int.floor_le _

/-- Sum bound over a word list. -/
theorem sum_wordDurationCs_le (tc : ℕ) (htc : 0 < tc) (dur : ℤ) (hd : 0 ≤ dur) :
    ∀ ws : List (List Char),
      (((ws.map (wordDurationCs tc dur)).sum : ℤ) : ℚ)
        ≤ (((ws.map List.length).sum : ℕ) : ℚ) * dur / (10 * tc) := by
  intro ws
  induction ws with
  | nil => simp
  | cons w ws ih =>
      have h1 := (wordDurationCs_bounds tc htc dur hd w).2
      have hexp : (((w.length + (ws.map List.length).sum : ℕ)) : ℚ) * dur / (10 * tc)
          = (w.length : ℚ) * dur / (10 * tc)
            + (((ws.map List.length).sum : ℕ) : ℚ) * dur / (10 * tc) := by
        push_cast
        ring
      simp only [List.map_cons, List.sum_cons]
      rw [Int.cast_add, hexp]
      exact add_le_add h1 ih

/-- C7 counterexample: for the text `"ab cd"` and a source duration of 1000 ms,
`total_chars = 5` counts the space, each word gets
`int((2/5)·(1000/10)) = 40` cs, and the tag durations sum to 800 ms, not the
1000 ms the claim requires. -/
theorem karaoke_durations_counterexample :
    karaokeWordDurations "ab cd".toList 1000 = [40, 40]
      ∧ 10 * ((40 : ℤ) + 40) ≠ 1000 := by
  constructor
  · have hshape : karaokeWordDurations "ab cd".toList 1000
        = [wordDurationCs 5 1000 ['a', 'b'], wordDurationCs 5 1000 ['c', 'd']] := by
      rfl
    have h40 : ∀ w : List Char, w.length = 2 → wordDurationCs 5 1000 w = 40 := by
      intro w hw
      unfold wordDurationCs pyInt
      rw [hw]
      rw [show ((2 : ℕ) : ℚ) / ((5 : ℕ) : ℚ) * ((1000 : ℤ) / 10 : ℚ) = 40 by norm_num]
      rw [if_pos (by norm_num : (0:ℚ) ≤ 40)]
      exact_mod_cast Int.floor_intCast 40
    rw [hshape, h40 ['a', 'b'] rfl, h40 ['c', 'd'] rfl]
  · decide

/-- C7 (amended): the karaoke event covers exactly
`[start, start + duration]`; each word's `\k` duration is the truncated share
`int((len(word)/total_chars)·(duration/10))` centiseconds, where `total_chars`
counts every character of the segments including spaces; the durations are
non-negative and their total is at most the duration (undershooting it by the
truncation and by the space characters), not exactly equal to it. -/
theorem generate_karaoke_line_spec (text : String) (start_ms duration_ms : ℕ)
    (style : String) :
    generate_karaoke_line text start_ms duration_ms style
        = "Dialogue: 0," ++ ms_to_ass_time start_ms ++ ","
          ++ ms_to_ass_time (start_ms + duration_ms) ++ "," ++ style ++ ",,0,0,0,,"
          ++ "\x7b\\k0\x7d" ++ joinKaraoke (karaokeParts text.toList (duration_ms : ℤ))
      ∧ (∀ d ∈ karaokeWordDurations text.toList (duration_ms : ℤ), 0 ≤ d)
      ∧ 10 * (karaokeWordDurations text.toList (duration_ms : ℤ)).sum
          ≤ (duration_ms : ℤ) := by
  have htc := karaokeTotalChars_pos text.toList
  have hd : (0 : ℤ) ≤ (duration_ms : ℤ) := Int.ofNat_nonneg _
  refine ⟨rfl, ?_, ?_⟩
  · intro d hdmem
    rw [karaokeWordDurations_eq_map] at hdmem
    obtain ⟨w, _, rfl⟩ := List.mem_map.mp hdmem
    exact (wordDurationCs_bounds _ htc _ hd w).1
  · rw [karaokeWordDurations_eq_map]
    have hsum := sum_wordDurationCs_le (karaokeTotalChars text.toList) htc _ hd
      ((karaokeSegments text.toList).flatMap
        (fun seg => if seg = nlMarker then [] else pyWords seg))
    have hlen := karaoke_word_lengths_le text.toList
    have htcq : (0 : ℚ) < (karaokeTotalChars text.toList : ℚ) := by exact_mod_cast htc
    have hdq : (0 : ℚ) ≤ ((duration_ms : ℤ) : ℚ) := by exact_mod_cast hd
    have hlenq : (((((karaokeSegments text.toList).flatMap
        (fun seg => if seg = nlMarker then [] else pyWords seg)).map
          List.length).sum : ℕ) : ℚ) ≤ (karaokeTotalChars text.toList : ℚ) := by
      exact_mod_cast hlen
    have hstep : (((((karaokeSegments text.toList).flatMap
          (fun seg => if seg = nlMarker then [] else pyWords seg)).map
            List.length).sum : ℕ) : ℚ) * ((duration_ms : ℤ) : ℚ)
            / (10 * (karaokeTotalChars text.toList : ℚ))
        ≤ ((duration_ms : ℤ) : ℚ) / 10 := by
      rw [div_le_div_iff₀ (by positivity) (by norm_num)]
      nlinarith [mul_le_mul_of_nonneg_right hlenq hdq]
    have hfinal := le_trans hsum hstep
    have h10 : (10 : ℚ) * ((((karaokeSegments text.toList).flatMap
        (fun seg => if seg = nlMarker then [] else pyWords seg)).map
          (wordDurationCs (karaokeTotalChars text.toList) (duration_ms : ℤ))).sum : ℚ)
        ≤ ((duration_ms : ℤ) : ℚ) := by linarith
    exact_mod_cast h10

/-! ## Rare-word selection (C6) -/

/-- `getD` after `set` at the written index. -/
theorem getD_set_self_of_lt {α : Type} (l : List (List α)) (i : ℕ) (v : List α)
    (h : i < l.length) : (l.set i v).getD i [] = v := by
  simp [List.getD_eq_getElem?_getD, List.getElem?_set_self', h]

/-- `getD` after `set` at another index. -/
theorem getD_set_of_ne {α : Type} (l : List (List α)) (i j : ℕ) (v : List α)
    (h : i ≠ j) : (l.set i v).getD j [] = l.getD j [] := by
  simp [List.getD_eq_getElem?_getD, List.getElem?_set_ne h]

/-- Decomposing a list of lists around an in-range index. -/
theorem eq_take_getD_drop {α : Type} (l : List (List α)) (i : ℕ) (h : i < l.length) :
    l = l.take i ++ [l.getD i []] ++ l.drop (i + 1) := by
  nth_rewrite 1 [show l = l.take i ++ l.drop i from (List.take_append_drop i l).symm]
  rw [List.drop_eq_getElem_cons h]
  simp [List.getD_eq_getElem?_getD, List.getElem?_eq_getElem h]

/-- Appending one element to slot `i` of an accumulator is, up to permutation,
consing it onto the flattened accumulator. -/
theorem set_append_flatten_perm {α : Type} (acc : List (List α)) (i : ℕ) (x : α)
    (h : i < acc.length) :
    ((acc.set i ((acc.getD i []) ++ [x])).flatten).Perm (x :: acc.flatten) := by
  have hset : acc.set i ((acc.getD i []) ++ [x])
      = acc.take i ++ [(acc.getD i []) ++ [x]] ++ acc.drop (i + 1) := by
    rw [List.set_eq_take_append_cons_drop]
    simp [h]
  have hexp : acc.flatten
      = (acc.take i).flatten ++ ((acc.getD i []) ++ (acc.drop (i + 1)).flatten) := by
    conv_lhs => rw [eq_take_getD_drop acc i h]
    simp [List.flatten_append]
  rw [hset, hexp]
  have hL : (acc.take i ++ [(acc.getD i []) ++ [x]] ++ acc.drop (i + 1)).flatten
      = ((acc.take i).flatten ++ (acc.getD i []))
          ++ x :: (acc.drop (i + 1)).flatten := by
    simp [List.flatten_append]
  rw [hL]
  have hmid := @List.perm_middle _ x ((acc.take i).flatten ++ (acc.getD i []))
    ((acc.drop (i + 1)).flatten)
  simpa [List.append_assoc] using hmid

/-- Every per-sentence target, read with the out-of-range default `0` and floored
at `0`, is at most `max_per_sentence`. -/
theorem rareTargets_getD_le (lengths : List ℕ) (min_per max_per : ℤ) (avg : ℚ)
    (h0 : 0 ≤ min_per) (hmM : min_per ≤ max_per) (i : ℕ) :
    max ((rareTargets lengths min_per max_per avg).getD i 0) 0 ≤ max_per := by
  simp only [rareTargets]
  by_cases hi : i < lengths.length
  · rw [List.getD_eq_getElem?_getD, List.getElem?_map, List.getElem?_eq_getElem hi]
    simp only [Option.map_some', Option.getD_some]
    split
    · omega
    · omega
  · rw [List.getD_eq_getElem?_getD, List.getElem?_map,
      List.getElem?_eq_none (by omega : lengths.length ≤ i)]
    simp only [Option.map_none', Option.getD_none]
    omega

/-- Unfolding of the per-sentence selection loop on a cons cell. -/
theorem topRarePick_cons (max_per : ℤ) (curLen : ℕ) (sentLemmas seen : List String)
    (word : String) (score : ℚ) (lem : String) (rest : List (String × ℚ × String)) :
    topRarePick max_per curLen sentLemmas seen ((word, score, lem) :: rest)
      = if sentLemmas.contains lem || seen.contains lem then
          topRarePick max_per curLen sentLemmas seen rest
        else if max_per ≤ ((curLen + 1 : ℕ) : ℤ) then
          ([(word, score, lem)], lem :: seen)
        else
          ((word, score, lem)
              :: (topRarePick max_per (curLen + 1) (lem :: sentLemmas)
                  (lem :: seen) rest).1,
            (topRarePick max_per (curLen + 1) (lem :: sentLemmas)
              (lem :: seen) rest).2) := rfl

/-- One-sentence selection loop: the returned `seen_lemmas` is exactly the picked
lemmas (newest first) on top of the old one; the picked lemmas avoid both scope
lists and are pairwise distinct. -/
theorem topRarePick_spec (max_per : ℤ) :
    ∀ (wd : List (String × ℚ × String)) (curLen : ℕ) (sentLemmas seen : List String),
      (topRarePick max_per curLen sentLemmas seen wd).2
          = ((topRarePick max_per curLen sentLemmas seen wd).1.map
              (fun x => x.2.2)).reverse ++ seen
        ∧ (∀ lem ∈ (topRarePick max_per curLen sentLemmas seen wd).1.map
            (fun x => x.2.2), lem ∉ sentLemmas ∧ lem ∉ seen)
        ∧ ((topRarePick max_per curLen sentLemmas seen wd).1.map
            (fun x => x.2.2)).Nodup := by
  intro wd
  induction wd with
  | nil =>
      intro curLen sentLemmas seen
      refine ⟨rfl, ?_, ?_⟩ <;> simp [topRarePick]
  | cons hd rest ih =>
      intro curLen sentLemmas seen
      obtain ⟨word, score, lem⟩ := hd
      rw [topRarePick_cons]
      by_cases hmem : (sentLemmas.contains lem || seen.contains lem) = true
      · rw [if_pos hmem]
        exact ih curLen sentLemmas seen
      · rw [if_neg hmem]
        rw [Bool.not_eq_true, Bool.or_eq_false_iff] at hmem
        have hfr1 : lem ∉ sentLemmas := by simpa using hmem.1
        have hfr2 : lem ∉ seen := by simpa using hmem.2
        by_cases hcap : max_per ≤ ((curLen + 1 : ℕ) : ℤ)
        · rw [if_pos hcap]
          refine ⟨by simp, ?_, by simp⟩
          intro l hl
          simp only [List.map_cons, List.map_nil, List.mem_singleton] at hl
          subst hl
          exact ⟨hfr1, hfr2⟩
        · rw [if_neg hcap]
          obtain ⟨ih1, ih2, ih3⟩ := ih (curLen + 1) (lem :: sentLemmas) (lem :: seen)
          refine ⟨?_, ?_, ?_⟩
          · show (topRarePick max_per (curLen + 1) (lem :: sentLemmas)
                (lem :: seen) rest).2 = _
            rw [ih1]
            simp
          · intro l hl
            simp only [List.map_cons, List.mem_cons] at hl
            rcases hl with rfl | hl
            · exact ⟨hfr1, hfr2⟩
            · have hl2 := ih2 l hl
              exact ⟨fun hc => hl2.1 (List.mem_cons_of_mem _ hc),
                fun hc => hl2.2 (List.mem_cons_of_mem _ hc)⟩
          · simp only [List.map_cons, List.nodup_cons]
            refine ⟨?_, ih3⟩
            intro hc
            exact (ih2 _ hc).2 (List.mem_cons_self _ _)

/-- The selection loop appends at most up to the cap (one final element may be
appended exactly when the cap is reached, matching the post-append `break`). -/
theorem topRarePick_len (max_per : ℤ) :
    ∀ (wd : List (String × ℚ × String)) (curLen : ℕ) (sentLemmas seen : List String),
      ((topRarePick max_per curLen sentLemmas seen wd).1.length : ℤ) + curLen
        ≤ max max_per ((curLen : ℤ) + 1) := by
  intro wd
  induction wd with
  | nil =>
      intro curLen sentLemmas seen
      simp only [topRarePick, List.length_nil]
      omega
  | cons hd rest ih =>
      intro curLen sentLemmas seen
      obtain ⟨word, score, lem⟩ := hd
      rw [topRarePick_cons]
      by_cases hmem : (sentLemmas.contains lem || seen.contains lem) = true
      · rw [if_pos hmem]
        exact ih curLen sentLemmas seen
      · rw [if_neg hmem]
        by_cases hcap : max_per ≤ ((curLen + 1 : ℕ) : ℤ)
        · rw [if_pos hcap]
          simp only [List.length_cons, List.length_nil]
          omega
        · rw [if_neg hcap]
          have ihh := ih (curLen + 1) (lem :: sentLemmas) (lem :: seen)
          simp only [List.length_cons] at ihh ⊢
          push_cast at ihh hcap ⊢
          omega

/-- Unfolding of the outer loop on a cons cell. -/
theorem topRareGo_cons (a : WordFrequencyAnalyzer) (mp : ℤ) (sentence : String)
    (rest : List String) (seen : List String) :
    topRareGo a mp (sentence :: rest) seen
      = (topRarePick mp 0 [] seen (topRareWordData a sentence)).1
          :: topRareGo a mp rest
              (topRarePick mp 0 [] seen (topRareWordData a sentence)).2 := rfl

/-- Global lemma uniqueness of `get_top_rare_per_sentence`: the lemmas collected
over all sentences are pairwise distinct and avoid the incoming `seen` set. -/
theorem topRareGo_spec (a : WordFrequencyAnalyzer) (mp : ℤ) :
    ∀ (sentences : List String) (seen : List String),
      ((topRareGo a mp sentences seen).flatMap
          (fun l => l.map (fun x => x.2.2))).Nodup
        ∧ ∀ lem ∈ (topRareGo a mp sentences seen).flatMap
            (fun l => l.map (fun x => x.2.2)), lem ∉ seen := by
  intro sentences
  induction sentences with
  | nil =>
      intro seen
      simp [topRareGo]
  | cons sentence rest ih =>
      intro seen
      rw [topRareGo_cons]
      obtain ⟨h1, h2, h3⟩ := topRarePick_spec mp (topRareWordData a sentence) 0 [] seen
      obtain ⟨ihn, ihf⟩ := ih (topRarePick mp 0 [] seen (topRareWordData a sentence)).2
      simp only [List.flatMap_cons]
      constructor
      · refine List.Nodup.append h3 ihn ?_
        intro x hx hx2
        have hnot := ihf x hx2
        rw [h1] at hnot
        exact hnot (List.mem_append.mpr (Or.inl (List.mem_reverse.mpr hx)))
      · intro lem hl
        rcases List.mem_append.mp hl with hl | hl
        · exact (h2 lem hl).2
        · have hnot := ihf lem hl
          rw [h1] at hnot
          intro hseen
          exact hnot (List.mem_append.mpr (Or.inr hseen))

/-- Per-sentence cap of `get_top_rare_per_sentence`, which holds as soon as the
cap is at least `1`. -/
theorem topRareGo_len (a : WordFrequencyAnalyzer) (mp : ℤ) (hmp : 1 ≤ mp) :
    ∀ (sentences : List String) (seen : List String),
      ∀ l ∈ topRareGo a mp sentences seen, (l.length : ℤ) ≤ mp := by
  intro sentences
  induction sentences with
  | nil =>
      intro seen l hl
      simp [topRareGo] at hl
  | cons sentence rest ih =>
      intro seen l hl
      rw [topRareGo_cons] at hl
      rcases List.mem_cons.mp hl with rfl | hl
      · have hb := topRarePick_len mp (topRareWordData a sentence) 0 [] seen
        simp only [Nat.cast_zero, add_zero] at hb
        omega
      · exact ih _ l hl

/-- Unfolding of the first distribution pass on a cons cell. -/
theorem rareFirstPass_cons (targets : List ℤ) (word : String) (info : RareInfo)
    (rest : List (String × RareInfo)) (acc : List (List (String × ℚ)))
    (used : List String) :
    rareFirstPass targets ((word, info) :: rest) acc used
      = match info.sentences.head? with
        | none => rareFirstPass targets rest acc used
        | some fs =>
            if (((acc.getD fs []).length : ℕ) : ℤ) < targets.getD fs 0 then
              rareFirstPass targets rest
                (acc.set fs ((acc.getD fs []) ++ [(word, info.zipf)])) (word :: used)
            else rareFirstPass targets rest acc used := rfl

/-- First pass, cons cell with a word that occurs in no sentence. -/
theorem rareFirstPass_cons_none (targets : List ℤ) (word : String) (info : RareInfo)
    (rest : List (String × RareInfo)) (acc : List (List (String × ℚ)))
    (used : List String) (h : info.sentences.head? = none) :
    rareFirstPass targets ((word, info) :: rest) acc used
      = rareFirstPass targets rest acc used := by
  rw [rareFirstPass_cons, h]

/-- First pass, cons cell with a first-occurrence sentence. -/
theorem rareFirstPass_cons_some (targets : List ℤ) (word : String) (info : RareInfo)
    (rest : List (String × RareInfo)) (acc : List (List (String × ℚ)))
    (used : List String) (fs : ℕ) (h : info.sentences.head? = some fs) :
    rareFirstPass targets ((word, info) :: rest) acc used
      = if (((acc.getD fs []).length : ℕ) : ℤ) < targets.getD fs 0 then
          rareFirstPass targets rest
            (acc.set fs ((acc.getD fs []) ++ [(word, info.zipf)])) (word :: used)
        else rareFirstPass targets rest acc used := by
  rw [rareFirstPass_cons, h]

/-- Invariants of the first distribution pass: with distinct pool keys not yet
used, the placed words stay pairwise distinct, every placed word is recorded in
`used`, and every sentence stays within its target. -/
theorem rareFirstPass_spec (targets : List ℤ) :
    ∀ (pool : List (String × RareInfo)) (acc : List (List (String × ℚ)))
      (used : List String),
      (pool.map Prod.fst).Nodup →
      (∀ w ∈ pool.map Prod.fst, w ∉ used) →
      (acc.flatten.map Prod.fst).Nodup →
      (∀ w ∈ acc.flatten.map Prod.fst, w ∈ used) →
      (∀ i : ℕ, (((acc.getD i []).length : ℕ) : ℤ) ≤ max (targets.getD i 0) 0) →
      ((rareFirstPass targets pool acc used).1.flatten.map Prod.fst).Nodup
        ∧ (∀ w ∈ (rareFirstPass targets pool acc used).1.flatten.map Prod.fst,
            w ∈ (rareFirstPass targets pool acc used).2)
        ∧ (∀ i : ℕ,
            ((((rareFirstPass targets pool acc used).1.getD i []).length : ℕ) : ℤ)
              ≤ max (targets.getD i 0) 0) := by
  intro pool
  induction pool with
  | nil =>
      intro acc used _ _ hnod hused hlen
      exact ⟨hnod, hused, hlen⟩
  | cons hd rest ih =>
      intro acc used hkeys hfresh hnod hused hlen
      obtain ⟨word, info⟩ := hd
      simp only [List.map_cons, List.nodup_cons] at hkeys
      have hfresh' : ∀ w ∈ rest.map Prod.fst, w ∉ used :=
        fun w hw => hfresh w (by simp [hw])
      have hfreshw : word ∉ used := hfresh word (by simp)
      cases hhd : info.sentences.head? with
      | none =>
          rw [rareFirstPass_cons_none _ _ _ _ _ _ hhd]
          exact ih acc used hkeys.2 hfresh' hnod hused hlen
      | some fs =>
          rw [rareFirstPass_cons_some _ _ _ _ _ _ _ hhd]
          by_cases hbud : (((acc.getD fs []).length : ℕ) : ℤ) < targets.getD fs 0
          · rw [if_pos hbud]
            have hfreshrest : ∀ w ∈ rest.map Prod.fst, w ∉ word :: used := by
              intro w hw hmem
              rcases List.mem_cons.mp hmem with rfl | hwused
              · exact hkeys.1 hw
              · exact hfresh' w hw hwused
            by_cases hrange : fs < acc.length
            · have hperm := set_append_flatten_perm acc fs (word, info.zipf) hrange
              have hpermw : ((acc.set fs ((acc.getD fs [])
                    ++ [(word, info.zipf)])).flatten.map Prod.fst).Perm
                  (word :: acc.flatten.map Prod.fst) := by
                simpa using hperm.map Prod.fst
              have hwordfresh : word ∉ acc.flatten.map Prod.fst :=
                fun hc => hfreshw (hused word hc)
              refine ih _ _ hkeys.2 hfreshrest ?_ ?_ ?_
              · exact hpermw.nodup_iff.mpr (List.nodup_cons.mpr ⟨hwordfresh, hnod⟩)
              · intro w hw
                rcases List.mem_cons.mp (hpermw.mem_iff.mp hw) with rfl | hww
                · exact List.mem_cons_self _ _
                · exact List.mem_cons_of_mem _ (hused w hww)
              · intro i
                by_cases hi : fs = i
                · subst hi
                  rw [getD_set_self_of_lt _ _ _ hrange]
                  simp only [List.length_append, List.length_cons, List.length_nil]
                  push_cast
                  omega
                · rw [getD_set_of_ne _ _ _ _ hi]
                  exact hlen i
            · have hset : acc.set fs ((acc.getD fs []) ++ [(word, info.zipf)]) = acc :=
                List.set_eq_of_length_le (by omega)
              rw [hset]
              refine ih acc (word :: used) hkeys.2 hfreshrest hnod ?_ hlen
              intro w hw
              exact List.mem_cons_of_mem _ (hused w hw)
          · rw [if_neg hbud]
            exact ih acc used hkeys.2 hfresh' hnod hused hlen

/-- Unfolding of the second pass's inner placement loop on a cons cell. -/
theorem rarePlace_cons (targets : List ℤ) (word : String) (z : ℚ)
    (acc : List (List (String × ℚ))) (s : ℕ) (rest : List ℕ) :
    rarePlace targets word z acc (s :: rest)
      = if (((acc.getD s []).length : ℕ) : ℤ) < targets.getD s 0 then
          some (acc.set s ((acc.getD s []) ++ [(word, z)]))
        else rarePlace targets word z acc rest := rfl

/-- A successful placement either conses the word onto the flattened accumulator
(up to permutation) or leaves it unchanged, and preserves the per-sentence
targets. -/
theorem rarePlace_spec (targets : List ℤ) (word : String) (z : ℚ) :
    ∀ (sents : List ℕ) (acc acc' : List (List (String × ℚ))),
      rarePlace targets word z acc sents = some acc' →
      (∀ i : ℕ, (((acc.getD i []).length : ℕ) : ℤ) ≤ max (targets.getD i 0) 0) →
      (acc'.flatten.Perm ((word, z) :: acc.flatten) ∨ acc' = acc)
        ∧ ∀ i : ℕ, (((acc'.getD i []).length : ℕ) : ℤ) ≤ max (targets.getD i 0) 0 := by
  intro sents
  induction sents with
  | nil =>
      intro acc acc' h hlen
      simp [rarePlace] at h
  | cons s rest ih =>
      intro acc acc' h hlen
      rw [rarePlace_cons] at h
      by_cases hbud : (((acc.getD s []).length : ℕ) : ℤ) < targets.getD s 0
      · rw [if_pos hbud] at h
        injection h with h
        subst h
        constructor
        · by_cases hrange : s < acc.length
          · exact Or.inl (set_append_flatten_perm acc s (word, z) hrange)
          · exact Or.inr (List.set_eq_of_length_le (by omega))
        · intro i
          by_cases hrange : s < acc.length
          · by_cases hi : s = i
            · subst hi
              rw [getD_set_self_of_lt _ _ _ hrange]
              simp only [List.length_append, List.length_cons, List.length_nil]
              push_cast
              omega
            · rw [getD_set_of_ne _ _ _ _ hi]
              exact hlen i
          · rw [List.set_eq_of_length_le (by omega : acc.length ≤ s)]
            exact hlen i
      · rw [if_neg hbud] at h
        exact ih acc acc' h hlen

/-- Unfolding of the second distribution pass on a cons cell. -/
theorem rareSecondPass_cons (targets : List ℤ) (word : String) (info : RareInfo)
    (rest : List (String × RareInfo)) (acc : List (List (String × ℚ)))
    (used : List String) :
    rareSecondPass targets ((word, info) :: rest) acc used
      = if used.contains word then rareSecondPass targets rest acc used
        else
          match rarePlace targets word info.zipf acc info.sentences with
          | some acc' => rareSecondPass targets rest acc' (word :: used)
          | none => rareSecondPass targets rest acc used := rfl

/-- Invariants of the second distribution pass: distinctness of the placed words
and the per-sentence targets are preserved. -/
theorem rareSecondPass_spec (targets : List ℤ) :
    ∀ (pool : List (String × RareInfo)) (acc : List (List (String × ℚ)))
      (used : List String),
      (acc.flatten.map Prod.fst).Nodup →
      (∀ w ∈ acc.flatten.map Prod.fst, w ∈ used) →
      (∀ i : ℕ, (((acc.getD i []).length : ℕ) : ℤ) ≤ max (targets.getD i 0) 0) →
      ((rareSecondPass targets pool acc used).flatten.map Prod.fst).Nodup
        ∧ ∀ i : ℕ,
            ((((rareSecondPass targets pool acc used).getD i []).length : ℕ) : ℤ)
              ≤ max (targets.getD i 0) 0 := by
  intro pool
  induction pool with
  | nil =>
      intro acc used hnod _ hlen
      exact ⟨hnod, hlen⟩
  | cons hd rest ih =>
      intro acc used hnod hused hlen
      obtain ⟨word, info⟩ := hd
      rw [rareSecondPass_cons]
      by_cases hm : used.contains word = true
      · rw [if_pos hm]
        exact ih acc used hnod hused hlen
      · rw [if_neg hm]
        have hword : word ∉ used := by simpa using hm
        cases hpl : rarePlace targets word info.zipf acc info.sentences with
        | none => exact ih acc used hnod hused hlen
        | some acc' =>
            obtain ⟨hperm, hlen'⟩ := rarePlace_spec targets word info.zipf
              info.sentences acc acc' hpl hlen
            have hwordfresh : word ∉ acc.flatten.map Prod.fst :=
              fun hc => hword (hused word hc)
            have hnod' : (acc'.flatten.map Prod.fst).Nodup := by
              rcases hperm with hperm | rfl
              · have hp := hperm.map Prod.fst
                simp only [List.map_cons] at hp
                exact hp.nodup_iff.mpr (List.nodup_cons.mpr ⟨hwordfresh, hnod⟩)
              · exact hnod
            have hused' : ∀ w ∈ acc'.flatten.map Prod.fst, w ∈ word :: used := by
              rcases hperm with hperm | rfl
              · intro w hw
                have hp := hperm.map Prod.fst
                simp only [List.map_cons] at hp
                rcases List.mem_cons.mp (hp.mem_iff.mp hw) with rfl | hww
                · exact List.mem_cons_self _ _
                · exact List.mem_cons_of_mem _ (hused w hww)
              · intro w hw
                exact List.mem_cons_of_mem _ (hused w hw)
            exact ih acc' (word :: used) hnod' hused' hlen'

/-- Per-list sorting keeps the flattened contents (up to permutation). -/
theorem flatMap_map_mergeSort_perm {α β : Type} (g : α → α → Bool) (f : α → β)
    (S : List (List α)) :
    ((S.map (fun l => l.mergeSort g)).flatMap (List.map f)).Perm
      (S.flatMap (List.map f)) := by
  induction S with
  | nil => simp
  | cons s S ih =>
      simp only [List.map_cons, List.flatMap_cons]
      exact ((List.mergeSort_perm s g).map f).append ih

/-- An empty accumulator flattens to nothing. -/
theorem flatten_replicate_nil {α : Type} (n : ℕ) :
    (List.replicate n ([] : List α)).flatten = [] := by
  induction n with
  | zero => rfl
  | succ n ih => simp [List.replicate_succ, ih]

/-- Every slot of an empty accumulator reads back empty. -/
theorem getD_replicate_nil {α : Type} (n i : ℕ) :
    (List.replicate n ([] : List α)).getD i [] = [] := by
  by_cases hi : i < n
  · rw [List.getD_eq_getElem?_getD,
      List.getElem?_eq_getElem (by simpa using hi)]
    simp [List.getElem_replicate]
  · rw [List.getD_eq_getElem?_getD,
      List.getElem?_eq_none (by simp only [List.length_replicate]; omega)]
    rfl

/-- Any member of a list of lists is one of its `getD` reads. -/
theorem mem_getD_of_mem {α : Type} (L : List (List α)) (l : List α) (h : l ∈ L) :
    ∃ i : ℕ, L.getD i [] = l := by
  obtain ⟨i, hi, heq⟩ := List.mem_iff_getElem.mp h
  refine ⟨i, ?_⟩
  rw [List.getD_eq_getElem?_getD, List.getElem?_eq_getElem hi]
  simp only [Option.getD_some]
  exact heq

/-- Core of `get_rare_words_for_sentences`: both passes starting from the empty
accumulator, followed by the per-sentence sort, produce pairwise-distinct words
within per-target bounds. -/
theorem rare_words_core (targets : List ℤ) (pool : List (String × RareInfo)) (n : ℕ)
    (g : (String × ℚ) → (String × ℚ) → Bool) (max_per : ℤ)
    (hkeys : (pool.map Prod.fst).Nodup)
    (htargets : ∀ i : ℕ, max (targets.getD i 0) 0 ≤ max_per) :
    ((((rareSecondPass targets pool
          (rareFirstPass targets pool (List.replicate n []) []).1
          (rareFirstPass targets pool (List.replicate n []) []).2).map
            (fun l => l.mergeSort g)).flatMap (List.map Prod.fst)).Nodup)
      ∧ ∀ l ∈ (rareSecondPass targets pool
          (rareFirstPass targets pool (List.replicate n []) []).1
          (rareFirstPass targets pool (List.replicate n []) []).2).map
            (fun l => l.mergeSort g), (l.length : ℤ) ≤ max_per := by
  obtain ⟨hfp1, hfp2, hfp3⟩ := rareFirstPass_spec targets pool (List.replicate n []) []
    hkeys (by simp) (by simp [flatten_replicate_nil]) (by simp [flatten_replicate_nil])
    (by intro i; rw [getD_replicate_nil]; simp)
  obtain ⟨hsp1, hsp2⟩ := rareSecondPass_spec targets pool _ _ hfp1 hfp2 hfp3
  constructor
  · have hperm := flatMap_map_mergeSort_perm g Prod.fst
      (rareSecondPass targets pool
        (rareFirstPass targets pool (List.replicate n []) []).1
        (rareFirstPass targets pool (List.replicate n []) []).2)
    have heq : (rareSecondPass targets pool
          (rareFirstPass targets pool (List.replicate n []) []).1
          (rareFirstPass targets pool (List.replicate n []) []).2).flatMap
            (List.map Prod.fst)
        = (rareSecondPass targets pool
            (rareFirstPass targets pool (List.replicate n []) []).1
            (rareFirstPass targets pool (List.replicate n []) []).2).flatten.map
              Prod.fst := by
      rw [List.map_flatten, List.flatMap_def]
    rw [heq] at hperm
    exact hperm.nodup_iff.mpr hsp1
  · intro l hl
    obtain ⟨l', hl', rfl⟩ := List.mem_map.mp hl
    rw [(List.mergeSort_perm l' g).length_eq]
    obtain ⟨i, hi⟩ := mem_getD_of_mem _ _ hl'
    have hb : ((l'.length : ℕ) : ℤ) ≤ max (targets.getD i 0) 0 := by
      rw [← hi]
      exact hsp2 i
    exact le_trans hb (htargets i)

/-- C6 (amended): for `get_rare_words_for_sentences` with
`0 ≤ min_per_sentence ≤ max_per_sentence` and distinct pool keys (the pool is a
Python dict), every word appears in at most one sentence and at most once there,
and every sentence's list has at most `max_per_sentence` entries; for
`get_top_rare_per_sentence` the lemmas are globally pairwise distinct, and the
per-sentence cap holds provided `max_per_sentence ≥ 1` (the loop appends once
before testing the cap, so the cap `0` can be exceeded). -/
theorem rare_word_selection_spec (a : WordFrequencyAnalyzer)
    (sentences : List String) (pool : List (String × RareInfo))
    (min_per max_per : ℤ) (target_avg : ℚ) (mp : ℤ)
    (h0 : 0 ≤ min_per) (hmM : min_per ≤ max_per)
    (hkeys : (pool.map Prod.fst).Nodup) :
    (((a.get_rare_words_for_sentences sentences pool min_per max_per
          target_avg).flatMap (List.map Prod.fst)).Nodup
      ∧ ∀ l ∈ a.get_rare_words_for_sentences sentences pool min_per max_per
          target_avg, (l.length : ℤ) ≤ max_per)
    ∧ (((a.get_top_rare_per_sentence sentences mp).flatMap
          (fun l => l.map (fun x => x.2.2))).Nodup
      ∧ (1 ≤ mp → ∀ l ∈ a.get_top_rare_per_sentence sentences mp,
          (l.length : ℤ) ≤ mp)) := by
  constructor
  · refine rare_words_core _ _ _ _ max_per ?_ ?_
    · exact ((List.mergeSort_perm pool _).map Prod.fst).nodup_iff.mpr hkeys
    · intro i
      exact rareTargets_getD_le _ min_per max_per _ h0 hmM i
  · constructor
    · exact (topRareGo_spec a mp sentences []).1
    · intro hmp l hl
      exact topRareGo_len a mp hmp sentences [] l hl

/-- C6 counterexample: through the real constructor, with a scorer that rates
every word `4.0`, the cap `max_per_sentence = 0` (allowed by the claim's
`max ≥ min ≥ 0`) is exceeded: the single sentence receives one word, because the
loop appends before testing the cap. -/
theorem get_top_rare_budget_counterexample :
    mkWordFrequencyAnalyzer "en" 3 (some (fun _ => (4 : ℚ)))
        = Except.ok (WordFrequencyAnalyzer.mk "en" "en" 3 STOPWORDS_EN
            (some (fun _ => (4 : ℚ))))
      ∧ ((WordFrequencyAnalyzer.mk "en" "en" 3 STOPWORDS_EN
            (some (fun _ => (4 : ℚ)))).get_top_rare_per_sentence
            ["serendipity"] 0).map List.length = [1]
      ∧ ¬ ((1 : ℤ) ≤ (0 : ℤ)) := by
  refine ⟨rfl, ?_, by decide⟩
  have h1 : topRareWordData
        (WordFrequencyAnalyzer.mk "en" "en" 3 STOPWORDS_EN (some (fun _ => (4 : ℚ))))
        "serendipity"
      = [("serendipity", (4 : ℚ), "serendipity")] := by
    have h2 : topRareWordData
          (WordFrequencyAnalyzer.mk "en" "en" 3 STOPWORDS_EN (some (fun _ => (4 : ℚ))))
          "serendipity"
        = [("serendipity", (4 : ℚ), "serendipity")].mergeSort
            (fun x y => decide (x.2.1 ≤ y.2.1)) := rfl
    rw [h2, List.mergeSort_singleton]
  show ((topRareGo _ 0 ["serendipity"] []).map List.length) = [1]
  rw [topRareGo_cons, h1]
  rfl

/-- Witness for the amended C6 at a concrete Spanish configuration: one
sentence, a one-word pool, caps `min = 0 ≤ max = 1`. -/
theorem rare_word_selection_spec_witness :
    ((0 : ℤ) ≤ 0 ∧ (0 : ℤ) ≤ 1
        ∧ (([("casa", RareInfo.mk (3/2) 1 [0])].map Prod.fst).Nodup))
      ∧ ((((WordFrequencyAnalyzer.mk "es" "es" 3 STOPWORDS_ES
              none).get_rare_words_for_sentences ["una casa"]
              [("casa", RareInfo.mk (3/2) 1 [0])] 0 1 5).flatMap
                (List.map Prod.fst)).Nodup
          ∧ ∀ l ∈ (WordFrequencyAnalyzer.mk "es" "es" 3 STOPWORDS_ES
              none).get_rare_words_for_sentences ["una casa"]
              [("casa", RareInfo.mk (3/2) 1 [0])] 0 1 5, (l.length : ℤ) ≤ 1)
      ∧ ((((WordFrequencyAnalyzer.mk "es" "es" 3 STOPWORDS_ES
              none).get_top_rare_per_sentence ["una casa"] 1).flatMap
                (fun l => l.map (fun x => x.2.2))).Nodup
          ∧ (1 ≤ (1 : ℤ) → ∀ l ∈ (WordFrequencyAnalyzer.mk "es" "es" 3 STOPWORDS_ES
              none).get_top_rare_per_sentence ["una casa"] 1, (l.length : ℤ) ≤ 1)) :=
  ⟨⟨le_refl 0, by decide, by simp⟩,
    (rare_word_selection_spec (WordFrequencyAnalyzer.mk "es" "es" 3 STOPWORDS_ES none)
      ["una casa"] [("casa", RareInfo.mk (3/2) 1 [0])] 0 1 5 1
      (le_refl 0) (by decide) (by simp)).1,
    (rare_word_selection_spec (WordFrequencyAnalyzer.mk "es" "es" 3 STOPWORDS_ES none)
      ["una casa"] [("casa", RareInfo.mk (3/2) 1 [0])] 0 1 5 1
      (le_refl 0) (by decide) (by simp)).2⟩

/-! ## Long-sentence splitting bounds (C5) -/

/-- The integer comma window used by `commaParts` is exactly the source's
floating-point window `len(sentence) * 0.2 < best < len(sentence) * 0.8`. -/
theorem commaWindow_models_float (len best : ℕ) :
    ((len : ℚ) * (2 / 10) < (best : ℚ) ∧ (best : ℚ) < (len : ℚ) * (8 / 10))
      ↔ (len < 5 * best ∧ 5 * best < 4 * len) := by
  constructor
  · rintro ⟨h1, h2⟩
    constructor
    · have h1' : (len : ℚ) < 5 * best := by linarith
      exact_mod_cast h1'
    · have h2' : (5 : ℚ) * best < 4 * len := by linarith
      exact_mod_cast h2'
  · rintro ⟨h1, h2⟩
    have h1' : (len : ℚ) < 5 * best := by exact_mod_cast h1
    have h2' : (5 : ℚ) * best < 4 * len := by exact_mod_cast h2
    constructor
    · linarith
    · linarith

/-- Recursive guarantee of `_split_long_sentence`: every returned piece is short
enough, or none of the four split attempts applies to it, or the depth cap was
hit somewhere below `s`. -/
theorem split_long_sentence_spec (ts : TextSplitter) :
    ∀ (fuel : ℕ) (s : List Char), ∀ t ∈ ts.split_long_sentence fuel s,
      t.length ≤ ts.max_sentence_length
        ∨ (semiParts t = none ∧ emdashParts t = none ∧ conjParts t = none
            ∧ commaParts t = none)
        ∨ ts.capHit fuel s = true := by
  intro fuel
  induction fuel with
  | zero =>
      intro s t ht
      by_cases hs : s.length ≤ ts.max_sentence_length
      · rw [show ts.split_long_sentence 0 s = [s] from by
          simp [TextSplitter.split_long_sentence, hs]] at ht
        rw [List.mem_singleton.mp ht]
        exact Or.inl hs
      · right; right
        simp [TextSplitter.capHit, hs]
  | succ fuel ih =>
      intro s t ht
      by_cases hs : s.length ≤ ts.max_sentence_length
      · rw [show ts.split_long_sentence (fuel + 1) s = [s] from by
          simp [TextSplitter.split_long_sentence, hs]] at ht
        rw [List.mem_singleton.mp ht]
        exact Or.inl hs
      · cases hsemi : semiParts s with
        | some parts =>
            rw [show ts.split_long_sentence (fuel + 1) s
                = (parts.map (ts.split_long_sentence fuel)).flatten from by
              simp [TextSplitter.split_long_sentence, hs, hsemi]] at ht
            obtain ⟨lp, hlp, htl⟩ := List.mem_flatten.mp ht
            obtain ⟨p, hp, rfl⟩ := List.mem_map.mp hlp
            rcases ih p t htl with h | h | h
            · exact Or.inl h
            · exact Or.inr (Or.inl h)
            · right; right
              simp only [TextSplitter.capHit, if_neg hs, hsemi, List.any_eq_true]
              exact ⟨p, hp, h⟩
        | none =>
        cases hem : emdashParts s with
        | some parts =>
            rw [show ts.split_long_sentence (fuel + 1) s
                = (parts.map (ts.split_long_sentence fuel)).flatten from by
              simp [TextSplitter.split_long_sentence, hs, hsemi, hem]] at ht
            obtain ⟨lp, hlp, htl⟩ := List.mem_flatten.mp ht
            obtain ⟨p, hp, rfl⟩ := List.mem_map.mp hlp
            rcases ih p t htl with h | h | h
            · exact Or.inl h
            · exact Or.inr (Or.inl h)
            · right; right
              simp only [TextSplitter.capHit, if_neg hs, hsemi, hem, List.any_eq_true]
              exact ⟨p, hp, h⟩
        | none =>
        cases hconj : conjParts s with
        | some p =>
            rw [show ts.split_long_sentence (fuel + 1) s
                = ts.split_long_sentence fuel p.1 ++ ts.split_long_sentence fuel p.2
                from by
              simp [TextSplitter.split_long_sentence, hs, hsemi, hem, hconj]] at ht
            have hcap : ts.capHit fuel p.1 = true ∨ ts.capHit fuel p.2 = true →
                ts.capHit (fuel + 1) s = true := by
              intro hor
              simp only [TextSplitter.capHit, if_neg hs, hsemi, hem, hconj,
                Bool.or_eq_true]
              exact hor
            rcases List.mem_append.mp ht with htl | htl
            · rcases ih p.1 t htl with h | h | h
              · exact Or.inl h
              · exact Or.inr (Or.inl h)
              · exact Or.inr (Or.inr (hcap (Or.inl h)))
            · rcases ih p.2 t htl with h | h | h
              · exact Or.inl h
              · exact Or.inr (Or.inl h)
              · exact Or.inr (Or.inr (hcap (Or.inr h)))
        | none =>
        cases hcomma : commaParts s with
        | some p =>
            rw [show ts.split_long_sentence (fuel + 1) s
                = ts.split_long_sentence fuel p.1 ++ ts.split_long_sentence fuel p.2
                from by
              simp [TextSplitter.split_long_sentence, hs, hsemi, hem, hconj,
                hcomma]] at ht
            have hcap : ts.capHit fuel p.1 = true ∨ ts.capHit fuel p.2 = true →
                ts.capHit (fuel + 1) s = true := by
              intro hor
              simp only [TextSplitter.capHit, if_neg hs, hsemi, hem, hconj, hcomma,
                Bool.or_eq_true]
              exact hor
            rcases List.mem_append.mp ht with htl | htl
            · rcases ih p.1 t htl with h | h | h
              · exact Or.inl h
              · exact Or.inr (Or.inl h)
              · exact Or.inr (Or.inr (hcap (Or.inl h)))
            · rcases ih p.2 t htl with h | h | h
              · exact Or.inl h
              · exact Or.inr (Or.inl h)
              · exact Or.inr (Or.inr (hcap (Or.inr h)))
        | none =>
            rw [show ts.split_long_sentence (fuel + 1) s = [s] from by
              simp [TextSplitter.split_long_sentence, hs, hsemi, hem, hconj,
                hcomma]] at ht
            rw [List.mem_singleton.mp ht]
            exact Or.inr (Or.inl ⟨hsemi, hem, hconj, hcomma⟩)

/-- C5 (amended): with `max_sentence_length = L > 0`, every output sentence is
either within the limit, or admits none of the four split attempts of
`_split_long_sentence` — no usable semicolon parts, no usable spaced em-dash
parts, no comma-plus-conjunction pattern with two non-empty halves, and no comma
strictly inside `(0.2·len, 0.8·len)` of the sentence's own length (the
claim's window `[0.2·L, 0.8·L]` is measured against the wrong quantity) — or the
recursion-depth cap (`depth > 10`) was hit while splitting one of the
pre-cap sentences. -/
theorem split_max_length_spec (ts : TextSplitter) (text : String)
    (hL : 0 < ts.max_sentence_length) :
    ∀ t ∈ ts.splitCore text.toList,
      t.length ≤ ts.max_sentence_length
        ∨ (semiParts t = none ∧ emdashParts t = none ∧ conjParts t = none
            ∧ commaParts t = none)
        ∨ ∃ s ∈ ts.sentencesPreCap text.toList, ts.capHit 11 s = true := by
  intro t ht
  by_cases htext : text.data = []
  · simp [TextSplitter.splitCore, htext] at ht
  · rw [show ts.splitCore text.toList
        = ts.split_long_sentences (ts.sentencesPreCap text.toList) from by
      simp [TextSplitter.splitCore, htext, hL]] at ht
    simp only [TextSplitter.split_long_sentences, List.mem_flatMap] at ht
    obtain ⟨s, hsmem, hts⟩ := ht
    by_cases hlen : s.length ≤ ts.max_sentence_length
    · rw [if_pos hlen] at hts
      rw [List.mem_singleton.mp hts]
      exact Or.inl hlen
    · rw [if_neg hlen] at hts
      rcases split_long_sentence_spec ts 11 s t hts with h | h | h
      · exact Or.inl h
      · exact Or.inr (Or.inl h)
      · exact Or.inr (Or.inr ⟨s, hsmem, h⟩)

/-- Witness for the amended C5: the English splitter with `L = 10` on a text
whose only comma sits outside the sentence-relative window. -/
theorem split_max_length_spec_witness :
    0 < (TextSplitter.mk "en" 10 ABBREVIATIONS_EN).max_sentence_length
      ∧ ∀ t ∈ (TextSplitter.mk "en" 10 ABBREVIATIONS_EN).splitCore
          "ab cdefg, qqqq wwww eeee rrrr tttt yyyyy".toList,
        t.length ≤ (TextSplitter.mk "en" 10 ABBREVIATIONS_EN).max_sentence_length
          ∨ (semiParts t = none ∧ emdashParts t = none ∧ conjParts t = none
              ∧ commaParts t = none)
          ∨ ∃ s ∈ (TextSplitter.mk "en" 10 ABBREVIATIONS_EN).sentencesPreCap
              "ab cdefg, qqqq wwww eeee rrrr tttt yyyyy".toList,
            (TextSplitter.mk "en" 10 ABBREVIATIONS_EN).capHit 11 s = true :=
  ⟨by decide,
    split_max_length_spec (TextSplitter.mk "en" 10 ABBREVIATIONS_EN)
      "ab cdefg, qqqq wwww eeee rrrr tttt yyyyy" (by decide)⟩

/-- C5 counterexample: through the real constructor with `L = 10`, the text
`"ab cdefg, qqqq wwww eeee rrrr tttt yyyyy"` (length 40) is returned unsplit:
it exceeds `L`, yet its only comma sits at index 8, inside the claim's window
`[0.2·L, 0.8·L] = [2, 8]` — the code's window is measured against the
sentence's own length (`(8, 32)`), not against `L`. -/
theorem split_window_counterexample :
    mkTextSplitter "en" 10 = Except.ok (TextSplitter.mk "en" 10 ABBREVIATIONS_EN)
      ∧ (TextSplitter.mk "en" 10 ABBREVIATIONS_EN).split
          "ab cdefg, qqqq wwww eeee rrrr tttt yyyyy"
        = ["ab cdefg, qqqq wwww eeee rrrr tttt yyyyy"]
      ∧ "ab cdefg, qqqq wwww eeee rrrr tttt yyyyy".toList.length = 40
      ∧ ¬ ((40 : ℕ) ≤ 10)
      ∧ "ab cdefg, qqqq wwww eeee rrrr tttt yyyyy".toList.getD 8 ' ' = ','
      ∧ ((10 : ℕ) ≤ 5 * 8 ∧ 5 * 8 ≤ 4 * 10) :=
  ⟨rfl, rfl, rfl, by decide, rfl, by decide⟩

/-! ## Split round trip (C4) -/

/-- Dropping leading whitespace keeps the non-whitespace content. -/
theorem filter_nw_dropWhile_ws (l : List Char) :
    ((l.dropWhile Char.isWhitespace).filter (fun c => !c.isWhitespace))
      = l.filter (fun c => !c.isWhitespace) := by
  induction l with
  | nil => rfl
  | cons c rest ih =>
      by_cases hc : c.isWhitespace
      · simp [List.dropWhile_cons, List.filter_cons, hc, ih]
      · simp [List.dropWhile_cons, List.filter_cons, hc]

/-- A whitespace run has no non-whitespace content. -/
theorem filter_nw_takeWhile_ws (l : List Char) :
    ((l.takeWhile Char.isWhitespace).filter (fun c => !c.isWhitespace)) = [] := by
  rw [List.filter_eq_nil_iff]
  intro a ha
  have hws := List.mem_takeWhile_imp ha
  simp [hws]

/-- `str.strip()` keeps the non-whitespace content. -/
theorem pyStrip_filter (l : List Char) :
    ((pyStrip l).filter (fun c => !c.isWhitespace))
      = l.filter (fun c => !c.isWhitespace) := by
  simp [pyStrip, List.filter_reverse, filter_nw_dropWhile_ws]

/-- `str.strip()` only removes characters. -/
theorem pyStrip_subset (l : List Char) : ∀ c ∈ pyStrip l, c ∈ l := by
  intro c hc
  unfold pyStrip at hc
  rw [List.mem_reverse] at hc
  have h1 : c ∈ (l.dropWhile Char.isWhitespace).reverse :=
    (List.dropWhile_sublist _).subset hc
  rw [List.mem_reverse] at h1
  exact (List.dropWhile_sublist _).subset h1

/-- A string that strips to nothing is all whitespace. -/
theorem pyStrip_nil_filter (l : List Char) (h : pyStrip l = []) :
    l.filter (fun c => !c.isWhitespace) = [] := by
  rw [← pyStrip_filter l, h]
  rfl

/-- `l.drop (l.takeWhile p).length = l.dropWhile p`. -/
theorem drop_takeWhile_length (p : Char → Bool) : ∀ l : List Char,
    l.drop (l.takeWhile p).length = l.dropWhile p := by
  intro l
  induction l with
  | nil => rfl
  | cons c rest ih =>
      by_cases hc : p c
      · simp [List.takeWhile_cons, List.dropWhile_cons, hc, ih]
      · simp [List.takeWhile_cons, List.dropWhile_cons, hc]

/-- Whitespace collapsing keeps the non-whitespace content. -/
theorem collapseWsGo_filter : ∀ (fuel : ℕ) (s : List Char),
    (collapseWsGo fuel s).filter (fun c => !c.isWhitespace)
      = s.filter (fun c => !c.isWhitespace)
  | 0, s => by rw [show collapseWsGo 0 s = s from by simp [collapseWsGo]]
  | _ + 1, [] => rfl
  | fuel + 1, c :: rest => by
      by_cases hc : c.isWhitespace
      · rw [show collapseWsGo (fuel + 1) (c :: rest)
            = ' ' :: collapseWsGo fuel (rest.dropWhile Char.isWhitespace) from by
          simp [collapseWsGo, hc]]
        rw [List.filter_cons, List.filter_cons]
        simp only [hc, show (' ' : Char).isWhitespace = true from rfl, Bool.not_true,
          Bool.false_eq_true, if_false]
        rw [collapseWsGo_filter fuel _, filter_nw_dropWhile_ws]
      · rw [show collapseWsGo (fuel + 1) (c :: rest)
            = c :: collapseWsGo fuel rest from by simp [collapseWsGo, hc]]
        rw [List.filter_cons, List.filter_cons]
        rw [collapseWsGo_filter fuel rest]

/-- Whitespace collapsing only keeps original characters or inserts spaces. -/
theorem collapseWsGo_subset : ∀ (fuel : ℕ) (s : List Char),
    ∀ c ∈ collapseWsGo fuel s, c ∈ s ∨ c = ' '
  | 0, s => by
      rw [show collapseWsGo 0 s = s from by simp [collapseWsGo]]
      exact fun c hc => Or.inl hc
  | _ + 1, [] => fun c hc => absurd hc (List.not_mem_nil c)
  | fuel + 1, c :: rest => by
      intro d hd
      by_cases hc : c.isWhitespace
      · rw [show collapseWsGo (fuel + 1) (c :: rest)
            = ' ' :: collapseWsGo fuel (rest.dropWhile Char.isWhitespace) from by
          simp [collapseWsGo, hc]] at hd
        rcases List.mem_cons.mp hd with rfl | hd
        · exact Or.inr rfl
        · rcases collapseWsGo_subset fuel _ d hd with h | h
          · exact Or.inl (List.mem_cons_of_mem _ ((List.dropWhile_sublist _).subset h))
          · exact Or.inr h
      · rw [show collapseWsGo (fuel + 1) (c :: rest)
            = c :: collapseWsGo fuel rest from by simp [collapseWsGo, hc]] at hd
        rcases List.mem_cons.mp hd with rfl | hd
        · exact Or.inl (List.mem_cons_self _ _)
        · rcases collapseWsGo_subset fuel rest d hd with h | h
          · exact Or.inl (List.mem_cons_of_mem _ h)
          · exact Or.inr h

/-- `_clean_text` keeps the non-whitespace content. -/
theorem cleanText_filter (s : List Char) :
    (cleanText s).filter (fun c => !c.isWhitespace)
      = s.filter (fun c => !c.isWhitespace) := by
  unfold cleanText collapseWs
  rw [pyStrip_filter, collapseWsGo_filter]

/-- `_clean_text` only keeps original characters or inserts spaces. -/
theorem cleanText_subset (s : List Char) : ∀ c ∈ cleanText s, c ∈ s ∨ c = ' ' := by
  intro c hc
  exact collapseWsGo_subset _ _ c (pyStrip_subset _ c hc)

/-- Elements of a short prefix of a list all satisfy the `takeWhile` predicate. -/
theorem take_le_takeWhile_all (p : Char → Bool) : ∀ (l : List Char) (m : ℕ),
    m ≤ (l.takeWhile p).length → ∀ a ∈ l.take m, p a
  | _, 0, _ => by simp
  | [], _ + 1, h => by simp at h
  | c :: rest, m + 1, h => by
      rw [List.takeWhile_cons] at h
      by_cases hc : p c
      · rw [if_pos hc] at h
        simp only [List.length_cons, Nat.add_le_add_iff_right] at h
        intro a ha
        rcases List.mem_cons.mp (by simpa using ha) with rfl | ha2
        · exact hc
        · exact take_le_takeWhile_all p rest m h a ha2
      · rw [if_neg hc] at h
        simp at h

/-- Unfolding of the first dialogue scanner on a cons cell. -/
theorem splitDialog1Go_cons (fuel : ℕ) (c : Char) (rest : List Char) :
    splitDialog1Go (fuel + 1) (c :: rest)
      = if c = '\n'
            ∧ dialogLookahead (rest.drop (rest.takeWhile Char.isWhitespace).length)
              = true then
          [] :: splitDialog1Go fuel (rest.drop (rest.takeWhile Char.isWhitespace).length)
        else match splitDialog1Go fuel rest with
          | [] => [[c]]
          | p :: ps => (c :: p) :: ps := rfl

/-- The first dialogue split only consumes whitespace. -/
theorem splitDialog1Go_flatten : ∀ (fuel : ℕ) (s : List Char),
    (splitDialog1Go fuel s).flatten.filter (fun c => !c.isWhitespace)
      = s.filter (fun c => !c.isWhitespace)
  | 0, s => by
      rw [show splitDialog1Go 0 s = [s] from by simp [splitDialog1Go]]
      simp
  | _ + 1, [] => by simp [splitDialog1Go]
  | fuel + 1, c :: rest => by
      rw [splitDialog1Go_cons]
      by_cases hcond : c = '\n'
          ∧ dialogLookahead (rest.drop (rest.takeWhile Char.isWhitespace).length) = true
      · rw [if_pos hcond]
        obtain ⟨hc, -⟩ := hcond
        subst hc
        simp only [List.flatten_cons, List.nil_append]
        rw [splitDialog1Go_flatten fuel _, drop_takeWhile_length,
          filter_nw_dropWhile_ws, List.filter_cons]
        simp [show ('\n' : Char).isWhitespace = true from rfl]
      · rw [if_neg hcond]
        cases hrec : splitDialog1Go fuel rest with
        | nil =>
            have hih := splitDialog1Go_flatten fuel rest
            rw [hrec] at hih
            simp only [List.flatten_nil, List.filter_nil] at hih
            simp only [List.flatten_cons, List.flatten_nil, List.append_nil,
              List.filter_cons, ← hih, List.filter_nil]
        | cons p ps =>
            have hih := splitDialog1Go_flatten fuel rest
            rw [hrec] at hih
            simp only [List.flatten_cons] at hih ⊢
            rw [List.cons_append, List.filter_cons, List.filter_cons, hih]

/-- The first dialogue split only redistributes the input's characters. -/
theorem splitDialog1Go_subset : ∀ (fuel : ℕ) (s : List Char),
    ∀ p ∈ splitDialog1Go fuel s, ∀ c ∈ p, c ∈ s
  | 0, s => by
      intro p hp c hc
      rw [show splitDialog1Go 0 s = [s] from by simp [splitDialog1Go]] at hp
      rw [List.mem_singleton.mp hp] at hc
      exact hc
  | _ + 1, [] => by
      intro p hp c hc
      rw [show splitDialog1Go (_ + 1) [] = [[]] from by simp [splitDialog1Go]] at hp
      rw [List.mem_singleton.mp hp] at hc
      exact absurd hc (List.not_mem_nil c)
  | fuel + 1, c0 :: rest => by
      intro p hp c hc
      rw [splitDialog1Go_cons] at hp
      by_cases hcond : c0 = '\n'
          ∧ dialogLookahead (rest.drop (rest.takeWhile Char.isWhitespace).length) = true
      · rw [if_pos hcond] at hp
        rcases List.mem_cons.mp hp with rfl | hp
        · exact absurd hc (List.not_mem_nil c)
        · have hmem := splitDialog1Go_subset fuel _ p hp c hc
          exact List.mem_cons_of_mem _ (List.mem_of_mem_drop hmem)
      · rw [if_neg hcond] at hp
        cases hrec : splitDialog1Go fuel rest with
        | nil =>
            rw [hrec] at hp
            rcases List.mem_singleton.mp hp with rfl
            rcases List.mem_singleton.mp hc with rfl
            exact List.mem_cons_self _ _
        | cons q qs =>
            rw [hrec] at hp
            rcases List.mem_cons.mp hp with rfl | hp
            · rcases List.mem_cons.mp hc with rfl | hc2
              · exact List.mem_cons_self _ _
              · have hmem := splitDialog1Go_subset fuel rest q
                  (by rw [hrec]; exact List.mem_cons_self _ _) c hc2
                exact List.mem_cons_of_mem _ hmem
            · have hmem := splitDialog1Go_subset fuel rest p
                (by rw [hrec]; exact List.mem_cons_of_mem _ hp) c hc
              exact List.mem_cons_of_mem _ hmem

/-- Unfolding of the second dialogue scanner on a cons cell. -/
theorem splitDialog2Go_cons (fuel : ℕ) (c : Char) (rest : List Char) :
    splitDialog2Go (fuel + 1) (c :: rest)
      = if c = '\n' ∧ (rest.takeWhile Char.isWhitespace).contains '\n' = true then
          [] :: splitDialog2Go fuel
            (rest.drop ((rest.takeWhile Char.isWhitespace).length
              - ((rest.takeWhile Char.isWhitespace).reverse.takeWhile
                  (fun c => c ≠ '\n')).length))
        else match splitDialog2Go fuel rest with
          | [] => [[c]]
          | p :: ps => (c :: p) :: ps := rfl

/-- The paragraph split only consumes whitespace. -/
theorem splitDialog2Go_flatten : ∀ (fuel : ℕ) (s : List Char),
    (splitDialog2Go fuel s).flatten.filter (fun c => !c.isWhitespace)
      = s.filter (fun c => !c.isWhitespace)
  | 0, s => by
      rw [show splitDialog2Go 0 s = [s] from by simp [splitDialog2Go]]
      simp
  | _ + 1, [] => by simp [splitDialog2Go]
  | fuel + 1, c :: rest => by
      rw [splitDialog2Go_cons]
      by_cases hcond : c = '\n'
          ∧ (rest.takeWhile Char.isWhitespace).contains '\n' = true
      · rw [if_pos hcond]
        obtain ⟨hc, -⟩ := hcond
        subst hc
        simp only [List.flatten_cons, List.nil_append]
        rw [splitDialog2Go_flatten fuel _]
        have hsplit : rest.filter (fun c => !c.isWhitespace)
            = (rest.take ((rest.takeWhile Char.isWhitespace).length
                - ((rest.takeWhile Char.isWhitespace).reverse.takeWhile
                    (fun c => c ≠ '\n')).length)).filter (fun c => !c.isWhitespace)
              ++ (rest.drop ((rest.takeWhile Char.isWhitespace).length
                - ((rest.takeWhile Char.isWhitespace).reverse.takeWhile
                    (fun c => c ≠ '\n')).length)).filter (fun c => !c.isWhitespace) := by
          rw [← List.filter_append, List.take_append_drop]
        have htake : (rest.take ((rest.takeWhile Char.isWhitespace).length
            - ((rest.takeWhile Char.isWhitespace).reverse.takeWhile
                (fun c => c ≠ '\n')).length)).filter (fun c => !c.isWhitespace) = [] := by
          rw [List.filter_eq_nil_iff]
          intro a ha
          have hws := take_le_takeWhile_all Char.isWhitespace rest _ (by omega) a ha
          simp [hws]
        rw [List.filter_cons]
        simp only [show ('\n' : Char).isWhitespace = true from rfl, Bool.not_true,
          Bool.false_eq_true, if_false]
        rw [hsplit, htake, List.nil_append]
      · rw [if_neg hcond]
        cases hrec : splitDialog2Go fuel rest with
        | nil =>
            have hih := splitDialog2Go_flatten fuel rest
            rw [hrec] at hih
            simp only [List.flatten_nil, List.filter_nil] at hih
            simp only [List.flatten_cons, List.flatten_nil, List.append_nil,
              List.filter_cons, ← hih, List.filter_nil]
        | cons p ps =>
            have hih := splitDialog2Go_flatten fuel rest
            rw [hrec] at hih
            simp only [List.flatten_cons] at hih ⊢
            rw [List.cons_append, List.filter_cons, List.filter_cons, hih]

/-- The paragraph split only redistributes the input's characters. -/
theorem splitDialog2Go_subset : ∀ (fuel : ℕ) (s : List Char),
    ∀ p ∈ splitDialog2Go fuel s, ∀ c ∈ p, c ∈ s
  | 0, s => by
      intro p hp c hc
      rw [show splitDialog2Go 0 s = [s] from by simp [splitDialog2Go]] at hp
      rw [List.mem_singleton.mp hp] at hc
      exact hc
  | _ + 1, [] => by
      intro p hp c hc
      rw [show splitDialog2Go (_ + 1) [] = [[]] from by simp [splitDialog2Go]] at hp
      rw [List.mem_singleton.mp hp] at hc
      exact absurd hc (List.not_mem_nil c)
  | fuel + 1, c0 :: rest => by
      intro p hp c hc
      rw [splitDialog2Go_cons] at hp
      by_cases hcond : c0 = '\n'
          ∧ (rest.takeWhile Char.isWhitespace).contains '\n' = true
      · rw [if_pos hcond] at hp
        rcases List.mem_cons.mp hp with rfl | hp
        · exact absurd hc (List.not_mem_nil c)
        · have hmem := splitDialog2Go_subset fuel _ p hp c hc
          exact List.mem_cons_of_mem _ (List.mem_of_mem_drop hmem)
      · rw [if_neg hcond] at hp
        cases hrec : splitDialog2Go fuel rest with
        | nil =>
            rw [hrec] at hp
            rcases List.mem_singleton.mp hp with rfl
            rcases List.mem_singleton.mp hc with rfl
            exact List.mem_cons_self _ _
        | cons q qs =>
            rw [hrec] at hp
            rcases List.mem_cons.mp hp with rfl | hp
            · rcases List.mem_cons.mp hc with rfl | hc2
              · exact List.mem_cons_self _ _
              · have hmem := splitDialog2Go_subset fuel rest q
                  (by rw [hrec]; exact List.mem_cons_self _ _) c hc2
                exact List.mem_cons_of_mem _ hmem
            · have hmem := splitDialog2Go_subset fuel rest p
                (by rw [hrec]; exact List.mem_cons_of_mem _ hp) c hc
              exact List.mem_cons_of_mem _ hmem

/-- Flattening a `flatMap` is flattening the per-part flattenings. -/
theorem flatten_flatMap (f : List Char → List (List Char)) (L : List (List Char)) :
    (L.flatMap f).flatten = (L.map (fun p => (f p).flatten)).flatten := by
  induction L with
  | nil => rfl
  | cons p L ih => simp [List.flatMap_cons, List.flatten_append, ih]

/-- Filtering a flattening filters each part. -/
theorem filter_flatten (q : Char → Bool) (M : List (List Char)) :
    M.flatten.filter q = (M.map (fun l => l.filter q)).flatten := by
  induction M with
  | nil => rfl
  | cons l M ih => simp [List.filter_append, ih]

/-- Removing empty parts does not change the flattening. -/
theorem flatten_filter_ne_nil (M : List (List Char)) :
    (M.filter (· ≠ [])).flatten = M.flatten := by
  induction M with
  | nil => rfl
  | cons l M ih =>
      rw [List.filter_cons]
      by_cases hl : l = []
      · subst hl
        rw [if_neg (by simp)]
        rw [ih]
        simp
      · rw [if_pos (by simp [hl])]
        rw [List.flatten_cons, List.flatten_cons, ih]

/-- `_split_dialogues` keeps the non-whitespace content. -/
theorem split_dialogues_flatten (t : List Char) :
    (split_dialogues t).flatten.filter (fun c => !c.isWhitespace)
      = t.filter (fun c => !c.isWhitespace) := by
  unfold split_dialogues
  rw [flatten_filter_ne_nil]
  rw [filter_flatten]
  rw [List.map_map]
  have h1 : (((splitDialog1 t).flatMap splitDialog2).map
        ((fun l => l.filter (fun c => !c.isWhitespace)) ∘ pyStrip))
      = (((splitDialog1 t).flatMap splitDialog2).map
          (fun l => l.filter (fun c => !c.isWhitespace))) := by
    apply List.map_congr_left
    intro l _
    show (pyStrip l).filter (fun c => !c.isWhitespace)
        = l.filter (fun c => !c.isWhitespace)
    exact pyStrip_filter l
  rw [h1]
  rw [← filter_flatten]
  rw [flatten_flatMap]
  rw [filter_flatten, List.map_map]
  have h2 : ((splitDialog1 t).map
        ((fun l => l.filter (fun c => !c.isWhitespace))
          ∘ (fun p => (splitDialog2 p).flatten)))
      = ((splitDialog1 t).map (fun l => l.filter (fun c => !c.isWhitespace))) := by
    apply List.map_congr_left
    intro l _
    show ((splitDialog2 l).flatten).filter (fun c => !c.isWhitespace)
        = l.filter (fun c => !c.isWhitespace)
    exact splitDialog2Go_flatten (l.length + 1) l
  rw [h2]
  rw [← filter_flatten]
  exact splitDialog1Go_flatten (t.length + 1) t

/-- `_split_dialogues` only redistributes the input's characters. -/
theorem split_dialogues_subset (t : List Char) :
    ∀ p ∈ split_dialogues t, ∀ c ∈ p, c ∈ t := by
  intro p hp c hc
  unfold split_dialogues at hp
  have hp2 := (List.mem_filter.mp hp).1
  obtain ⟨q, hq, rfl⟩ := List.mem_map.mp hp2
  have hc2 := pyStrip_subset _ _ hc
  obtain ⟨r, hr, hq2⟩ := List.mem_flatMap.mp hq
  exact splitDialog1Go_subset _ t r hr c (splitDialog2Go_subset _ r q hq2 c hc2)

/-- A non-default `headD` witness is a member. -/
theorem headD_eq_dot_mem : ∀ l : List Char, l.headD ' ' = '.' → '.' ∈ l
  | [], h => by simp at h
  | c :: rest, h => by
      simp only [List.headD_cons] at h
      rw [h]
      exact List.mem_cons_self _ _

/-- `str.replace` is the identity when some character of the pattern does not
occur in the string. -/
theorem pyReplaceGo_id (old new : List Char) (x : Char) (hx : x ∈ old) :
    ∀ (fuel : ℕ) (s : List Char), x ∉ s → pyReplaceGo old new fuel s = s
  | 0, s, _ => by simp [pyReplaceGo]
  | _ + 1, [], _ => by simp [pyReplaceGo]
  | fuel + 1, c :: rest, hxs => by
      have hold : ¬(old ≠ [] ∧ old.isPrefixOf (c :: rest) = true) := by
        rintro ⟨-, hpre⟩
        exact hxs ((List.isPrefixOf_iff_prefix.mp hpre).subset hx)
      simp only [pyReplaceGo]
      rw [if_neg hold]
      rw [pyReplaceGo_id old new x hx fuel rest
        (fun hm => hxs (List.mem_cons_of_mem _ hm))]

theorem pyReplace_id (old new : List Char) (x : Char) (hx : x ∈ old)
    (s : List Char) (hs : x ∉ s) : pyReplace old new s = s :=
  pyReplaceGo_id old new x hx (s.length + 1) s hs

/-- The ellipsis pass is the identity without dots and ellipsis characters. -/
theorem protectEllipsisGo_id : ∀ (fuel : ℕ) (s : List Char),
    '.' ∉ s → '…' ∉ s → protectEllipsisGo fuel s = s
  | 0, s, _, _ => by simp [protectEllipsisGo]
  | _ + 1, [], _, _ => by simp [protectEllipsisGo]
  | fuel + 1, c :: rest, hdot, hell => by
      have hc1 : ¬(c = '…') := fun h => hell (h ▸ List.mem_cons_self _ _)
      have hc2 : ¬(c = '.' ∧ rest.headD ' ' = '.') :=
        fun h => hdot (h.1 ▸ List.mem_cons_self _ _)
      simp only [protectEllipsisGo]
      rw [if_neg hc1, if_neg hc2]
      rw [protectEllipsisGo_id fuel rest (fun h => hdot (List.mem_cons_of_mem _ h))
        (fun h => hell (List.mem_cons_of_mem _ h))]

/-- The extension/domain pass is the identity without dots. -/
theorem protectExtGo_id (exts : List (List Char)) (marker : List Char) :
    ∀ (fuel : ℕ) (s : List Char), '.' ∉ s → protectExtGo exts marker fuel s = s
  | 0, s, _ => by simp [protectExtGo]
  | _ + 1, [], _ => by simp [protectExtGo]
  | fuel + 1, c :: rest, hdot => by
      have hdot' : '.' ∉ rest := fun h => hdot (List.mem_cons_of_mem _ h)
      simp only [protectExtGo]
      by_cases hw : isWordChar c = true
      · rw [if_pos hw]
        rw [if_neg (fun h => hdot' (List.mem_of_mem_drop (headD_eq_dot_mem _ h)))]
        rw [protectExtGo_id exts marker fuel _
          (fun h => hdot' (List.mem_of_mem_drop h))]
        rw [drop_takeWhile_length]
        simp [List.takeWhile_append_dropWhile]
      · rw [if_neg hw]
        rw [protectExtGo_id exts marker fuel rest hdot']

/-- The decimal pass is the identity without dots. -/
theorem protectDecimalGo_id : ∀ (fuel : ℕ) (s : List Char),
    '.' ∉ s → protectDecimalGo fuel s = s
  | 0, s, _ => by simp [protectDecimalGo]
  | _ + 1, [], _ => by simp [protectDecimalGo]
  | fuel + 1, c :: rest, hdot => by
      have hdot' : '.' ∉ rest := fun h => hdot (List.mem_cons_of_mem _ h)
      simp only [protectDecimalGo]
      by_cases hw : c.isDigit = true
      · rw [if_pos hw]
        rw [if_neg (fun h => hdot' (List.mem_of_mem_drop (headD_eq_dot_mem _ h)))]
        rw [protectDecimalGo_id fuel _ (fun h => hdot' (List.mem_of_mem_drop h))]
        rw [drop_takeWhile_length]
        simp [List.takeWhile_append_dropWhile]
      · rw [if_neg hw]
        rw [protectDecimalGo_id fuel rest hdot']

/-- `NUMBERED_LIST_PATTERN` cannot match without a dot. -/
theorem numMatch_none (l : List Char) (h : '.' ∉ l) : numMatch l = none := by
  simp only [numMatch]
  split
  · rfl
  · rw [if_neg (fun hd => h (List.mem_of_mem_drop (headD_eq_dot_mem _ hd)))]

/-- The numbered-list pass is the identity without dots. -/
theorem protectNumberedGo_id : ∀ (fuel : ℕ) (b : Bool) (s : List Char),
    '.' ∉ s → protectNumberedGo fuel b s = s
  | 0, _, s, _ => by simp [protectNumberedGo]
  | _ + 1, _, [], _ => by simp [protectNumberedGo]
  | fuel + 1, b, c :: rest, hdot => by
      have hdot' : '.' ∉ rest := fun h => hdot (List.mem_cons_of_mem _ h)
      simp only [protectNumberedGo]
      rw [numMatch_none _ hdot]
      by_cases hb : b = true
      · rw [if_pos hb]
        rw [protectNumberedGo_id fuel _ rest hdot']
      · rw [if_neg hb]
        rw [protectNumberedGo_id fuel _ rest hdot']

/-- The acronym matcher finds nothing without a dot. -/
theorem acroTake_fst_zero : ∀ l : List Char, '.' ∉ l → (acroTake l).1 = 0
  | [], _ => rfl
  | [_], _ => rfl
  | u :: d :: rest, h => by
      have hd : ¬(d = '.' ∧ isUpperLetter u = true) :=
        fun hc => h (hc.1 ▸ List.mem_cons_of_mem _ (List.mem_cons_self _ _))
      simp only [acroTake]
      rw [if_neg hd]

/-- The acronym pass is the identity without dots. -/
theorem protectAcroGo_id : ∀ (fuel : ℕ) (b : Bool) (s : List Char),
    '.' ∉ s → protectAcroGo fuel b s = s
  | 0, _, s, _ => by simp [protectAcroGo]
  | _ + 1, _, [], _ => by simp [protectAcroGo]
  | fuel + 1, b, c :: rest, hdot => by
      have hdot' : '.' ∉ rest := fun h => hdot (List.mem_cons_of_mem _ h)
      simp only [protectAcroGo]
      by_cases hb : (!b && isUpperLetter c) = true
      · rw [if_pos hb]
        rw [if_neg (by rw [acroTake_fst_zero _ hdot]; omega)]
        rw [protectAcroGo_id fuel _ rest hdot']
      · rw [if_neg hb]
        rw [protectAcroGo_id fuel _ rest hdot']

/-- The single-initial pass is the identity without dots. -/
theorem protectInitGo_id : ∀ (fuel : ℕ) (b : Bool) (s : List Char),
    '.' ∉ s → protectInitGo fuel b s = s
  | 0, _, s, _ => by simp [protectInitGo]
  | _ + 1, _, [], _ => by simp [protectInitGo]
  | fuel + 1, b, c :: rest, hdot => by
      have hdot' : '.' ∉ rest := fun h => hdot (List.mem_cons_of_mem _ h)
      simp only [protectInitGo]
      rw [if_neg (fun h => hdot' (headD_eq_dot_mem _ h.1))]
      rw [protectInitGo_id fuel _ rest hdot']

/-- The abbreviation passes are the identity when each abbreviation contains a
dot and the string has none. -/
theorem foldl_protect_abbr_id : ∀ (abbrs : List String) (s : List Char),
    '.' ∉ s → (∀ a ∈ abbrs, '.' ∈ a.toList) →
    abbrs.foldl (fun acc abbr => pyReplace abbr.toList (abbrPlaceholder abbr) acc) s
      = s
  | [], _, _, _ => rfl
  | a :: abbrs, s, hs, hall => by
      rw [List.foldl_cons]
      rw [pyReplace_id a.toList _ '.' (hall a (List.mem_cons_self _ _)) s hs]
      exact foldl_protect_abbr_id abbrs s hs
        (fun b hb => hall b (List.mem_cons_of_mem _ hb))

/-- The protect pipeline, written as a plain composition. -/
theorem protect_def (ts : TextSplitter) (text : List Char) :
    ts.protect text
      = ts.abbreviations.foldl
          (fun acc abbr => pyReplace abbr.toList (abbrPlaceholder abbr) acc)
          (protectInit false (protectAcro false (protectNumbered true
            (protectDecimal (protectExt DOMAIN_TLDS "_DOM_".toList
              (protectExt FILE_EXTS "_FEXT_".toList (protectEllipsis text))))))) := rfl

/-- `_protect_abbreviations` is the identity on texts without dots, ellipses or
underscores (assuming the configured abbreviations each contain a dot, as all of
the source's do). -/
theorem protect_id (ts : TextSplitter) (s : List Char)
    (habbr : ∀ a ∈ ts.abbreviations, '.' ∈ a.toList)
    (hdot : '.' ∉ s) (hell : '…' ∉ s) : ts.protect s = s := by
  rw [protect_def]
  rw [show protectEllipsis s = s from
    protectEllipsisGo_id (s.length + 1) s hdot hell]
  rw [show protectExt FILE_EXTS "_FEXT_".toList s = s from
    protectExtGo_id FILE_EXTS _ (s.length + 1) s hdot]
  rw [show protectExt DOMAIN_TLDS "_DOM_".toList s = s from
    protectExtGo_id DOMAIN_TLDS _ (s.length + 1) s hdot]
  rw [show protectDecimal s = s from protectDecimalGo_id (s.length + 1) s hdot]
  rw [show protectNumbered true s = s from
    protectNumberedGo_id (s.length + 1) true s hdot]
  rw [show protectAcro false s = s from protectAcroGo_id (s.length + 1) false s hdot]
  rw [show protectInit false s = s from protectInitGo_id (s.length + 1) false s hdot]
  exact foldl_protect_abbr_id ts.abbreviations s hdot habbr

/-- The restore passes are the identity on strings without underscores. -/
theorem foldl_restore_abbr_id : ∀ (abbrs : List String) (s : List Char),
    '_' ∉ s →
    abbrs.foldl (fun acc abbr => pyReplace (abbrPlaceholder abbr) abbr.toList acc) s
      = s
  | [], _, _ => rfl
  | a :: abbrs, s, hs => by
      rw [List.foldl_cons]
      rw [pyReplace_id (abbrPlaceholder a) _ '_'
        (by unfold abbrPlaceholder; exact List.mem_append.mpr (Or.inl
          (List.mem_append.mpr (Or.inl (by decide)))) ) s hs]
      exact foldl_restore_abbr_id abbrs s hs

/-- The restore pipeline, written as a plain composition. -/
theorem restore_def (ts : TextSplitter) (text : List Char) :
    ts.restore text
      = pyReplace "_ELLIPSIS_".toList "...".toList
          (pyReplace "_FEXT_".toList ['.']
            (pyReplace "_DOM_".toList ['.']
              (pyReplace "_DECIMAL_".toList ['.']
                (pyReplace "_NUM_".toList ['.']
                  (pyReplace "_ACRO_".toList ['.']
                    (pyReplace "_INIT_".toList ['.']
                      (ts.abbreviations.foldl
                        (fun acc abbr =>
                          pyReplace (abbrPlaceholder abbr) abbr.toList acc)
                        text))))))) := rfl

/-- `_restore_abbreviations` is the identity on strings without underscores. -/
theorem restore_id (ts : TextSplitter) (s : List Char) (hus : '_' ∉ s) :
    ts.restore s = s := by
  rw [restore_def]
  rw [foldl_restore_abbr_id ts.abbreviations s hus]
  rw [pyReplace_id "_INIT_".toList ['.'] '_' (by decide) s hus]
  rw [pyReplace_id "_ACRO_".toList ['.'] '_' (by decide) s hus]
  rw [pyReplace_id "_NUM_".toList ['.'] '_' (by decide) s hus]
  rw [pyReplace_id "_DECIMAL_".toList ['.'] '_' (by decide) s hus]
  rw [pyReplace_id "_DOM_".toList ['.'] '_' (by decide) s hus]
  rw [pyReplace_id "_FEXT_".toList ['.'] '_' (by decide) s hus]
  exact pyReplace_id "_ELLIPSIS_".toList "...".toList '_' (by decide) s hus

/-- Sentence-boundary characters are not whitespace. -/
theorem isSB_not_ws (c : Char) (h : isSB c = true) : c.isWhitespace = false := by
  simp only [isSB, Bool.or_eq_true, decide_eq_true_eq] at h
  rcases h with (h | h) | h <;> subst h <;> rfl

/-- `l.take (l.takeWhile p).length = l.takeWhile p`. -/
theorem take_takeWhile_length (p : Char → Bool) : ∀ l : List Char,
    l.take (l.takeWhile p).length = l.takeWhile p := by
  intro l
  induction l with
  | nil => rfl
  | cons c rest ih =>
      by_cases hc : p c
      · simp [List.takeWhile_cons, hc, ih]
      · simp [List.takeWhile_cons, hc]

/-- Splitting a filtered list at a `takeWhile` boundary. -/
theorem filter_takeWhile_append_drop (p q : Char → Bool) (l : List Char) :
    l.filter q
      = (l.takeWhile p).filter q ++ (l.drop (l.takeWhile p).length).filter q := by
  have hsplit := List.take_append_drop (l.takeWhile p).length l
  rw [take_takeWhile_length] at hsplit
  conv_lhs => rw [← hsplit]
  rw [List.filter_append]

/-- The sentence-boundary split keeps the non-whitespace content (the consumed
separator run is whitespace). -/
theorem resplitSBGo_flatten : ∀ (fuel : ℕ) (s : List Char),
    (resplitSBGo fuel s).flatten.filter (fun c => !c.isWhitespace)
      = s.filter (fun c => !c.isWhitespace)
  | 0, s => by
      rw [show resplitSBGo 0 s = [s] from by simp [resplitSBGo]]
      simp
  | _ + 1, [] => by simp [resplitSBGo]
  | fuel + 1, c :: rest => by
      have hglue : ∀ res : List (List Char),
          res = resplitSBGo fuel rest →
          ((match res with
            | [] => [[c]]
            | p :: ps => (c :: p) :: ps : List (List Char)).flatten.filter
              (fun c => !c.isWhitespace))
            = (c :: rest).filter (fun c => !c.isWhitespace) := by
        intro res hres
        have hih := resplitSBGo_flatten fuel rest
        rw [← hres] at hih
        cases res with
        | nil =>
            simp only [List.flatten_nil, List.filter_nil] at hih
            simp only [List.flatten_cons, List.flatten_nil, List.append_nil,
              List.filter_cons, ← hih, List.filter_nil]
        | cons p ps =>
            simp only [List.flatten_cons] at hih ⊢
            rw [List.cons_append, List.filter_cons, List.filter_cons, hih]
      simp only [resplitSBGo]
      by_cases hsb : isSB c = true
      · rw [if_pos hsb]
        split
        · have hT : (rest.takeWhile isSB).filter (fun c => !c.isWhitespace)
              = rest.takeWhile isSB :=
            List.filter_eq_self.mpr (fun a ha => by
              simp [isSB_not_ws a (List.mem_takeWhile_imp ha)])
          have hdropkw : (rest.drop ((rest.takeWhile isSB).length
                + ((rest.drop (rest.takeWhile isSB).length).takeWhile
                    Char.isWhitespace).length)).filter (fun c => !c.isWhitespace)
              = (rest.drop (rest.takeWhile isSB).length).filter
                  (fun c => !c.isWhitespace) := by
            rw [filter_takeWhile_append_drop Char.isWhitespace
              (fun c => !c.isWhitespace) (rest.drop (rest.takeWhile isSB).length)]
            rw [filter_nw_takeWhile_ws, List.nil_append, List.drop_drop]
          have hrest : rest.filter (fun c => !c.isWhitespace)
              = rest.takeWhile isSB
                ++ (rest.drop (rest.takeWhile isSB).length).filter
                    (fun c => !c.isWhitespace) := by
            rw [filter_takeWhile_append_drop isSB (fun c => !c.isWhitespace) rest,
              hT]
          simp only [List.flatten_cons, List.nil_append]
          rw [List.filter_append, resplitSBGo_flatten fuel _]
          rw [List.filter_cons, List.filter_cons]
          rw [hdropkw]
          simp [isSB_not_ws c hsb, hT, hrest]
        · exact hglue _ rfl
      · rw [if_neg hsb]
        exact hglue _ rfl

/-- The sentence-boundary split only redistributes the input's characters. -/
theorem resplitSBGo_subset : ∀ (fuel : ℕ) (s : List Char),
    ∀ p ∈ resplitSBGo fuel s, ∀ c ∈ p, c ∈ s
  | 0, s => by
      intro p hp c hc
      rw [show resplitSBGo 0 s = [s] from by simp [resplitSBGo]] at hp
      rw [List.mem_singleton.mp hp] at hc
      exact hc
  | _ + 1, [] => by
      intro p hp c hc
      rw [show resplitSBGo (_ + 1) [] = [[]] from by simp [resplitSBGo]] at hp
      rw [List.mem_singleton.mp hp] at hc
      exact absurd hc (List.not_mem_nil c)
  | fuel + 1, c0 :: rest => by
      intro p hp c hc
      have hglue : ∀ res : List (List Char),
          res = resplitSBGo fuel rest →
          p ∈ (match res with
            | [] => [[c0]]
            | q :: qs => (c0 :: q) :: qs : List (List Char)) → c ∈ c0 :: rest := by
        intro res hres hmem
        cases res with
        | nil =>
            rw [List.mem_singleton.mp hmem] at hc
            rw [List.mem_singleton.mp hc]
            exact List.mem_cons_self _ _
        | cons q qs =>
            rcases List.mem_cons.mp hmem with rfl | hmem2
            · rcases List.mem_cons.mp hc with rfl | hc2
              · exact List.mem_cons_self _ _
              · exact List.mem_cons_of_mem _
                  (resplitSBGo_subset fuel rest q
                    (by rw [← hres]; exact List.mem_cons_self _ _) c hc2)
            · exact List.mem_cons_of_mem _
                (resplitSBGo_subset fuel rest p
                  (by rw [← hres]; exact List.mem_cons_of_mem _ hmem2) c hc)
      simp only [resplitSBGo] at hp
      by_cases hsb : isSB c0 = true
      · rw [if_pos hsb] at hp
        revert hp
        split
        · intro hp
          rcases List.mem_cons.mp hp with rfl | hp2
          · exact absurd hc (List.not_mem_nil c)
          · rcases List.mem_cons.mp hp2 with rfl | hp3
            · rcases List.mem_cons.mp hc with rfl | hc2
              · exact List.mem_cons_self _ _
              · exact List.mem_cons_of_mem _
                  ((List.takeWhile_sublist isSB).subset hc2)
            · exact List.mem_cons_of_mem _
                (List.mem_of_mem_drop
                  (resplitSBGo_subset fuel _ p hp3 c hc))
        · intro hp
          exact hglue _ rfl hp
      · rw [if_neg hsb] at hp
        exact hglue _ rfl hp

/-- The recombination loop keeps the non-whitespace content (dropped pieces
strip to empty, hence are all whitespace). -/
theorem recombineSB_flatten (L : List (List Char)) :
    (recombineSB L).flatten.filter (fun c => !c.isWhitespace)
      = L.flatten.filter (fun c => !c.isWhitespace) := by
  induction L using recombineSB.induct with
  | case1 => rfl
  | case2 p q rest hq ih =>
      rw [show recombineSB (p :: q :: rest) = (p ++ q) :: recombineSB rest from by
        simp [recombineSB, hq]]
      simp only [List.flatten_cons, List.filter_append, ih, List.append_assoc]
  | case3 p q rest hq hp ih =>
      rw [show recombineSB (p :: q :: rest) = p :: recombineSB (q :: rest) from by
        simp [recombineSB, hq, hp]]
      simp only [List.flatten_cons, List.filter_append, ih]
  | case4 p q rest hq hp ih =>
      rw [show recombineSB (p :: q :: rest) = recombineSB (q :: rest) from by
        simp [recombineSB, hq, hp]]
      rw [ih]
      simp only [List.flatten_cons, List.filter_append]
      rw [pyStrip_nil_filter p (by simpa using hp), List.nil_append]
  | case5 p hp =>
      rw [show recombineSB [p] = [p] from by simp [recombineSB, hp]]
  | case6 p hp =>
      rw [show recombineSB [p] = [] from by simp [recombineSB, hp]]
      simp only [List.flatten_cons, List.flatten_nil, List.append_nil,
        List.filter_nil]
      rw [pyStrip_nil_filter p (by simpa using hp)]

/-- The recombination loop only redistributes characters of its pieces. -/
theorem recombineSB_subset (L : List (List Char)) :
    ∀ p ∈ recombineSB L, ∀ c ∈ p, ∃ q ∈ L, c ∈ q := by
  induction L using recombineSB.induct with
  | case1 => intro p hp; exact absurd hp (List.not_mem_nil p)
  | case2 p q rest hq ih =>
      rw [show recombineSB (p :: q :: rest) = (p ++ q) :: recombineSB rest from by
        simp [recombineSB, hq]]
      intro r hr c hc
      rcases List.mem_cons.mp hr with rfl | hr2
      · rcases List.mem_append.mp hc with h | h
        · exact ⟨p, List.mem_cons_self _ _, h⟩
        · exact ⟨q, List.mem_cons_of_mem _ (List.mem_cons_self _ _), h⟩
      · obtain ⟨q2, hq2, hcq2⟩ := ih r hr2 c hc
        exact ⟨q2, List.mem_cons_of_mem _ (List.mem_cons_of_mem _ hq2), hcq2⟩
  | case3 p q rest hq hp ih =>
      rw [show recombineSB (p :: q :: rest) = p :: recombineSB (q :: rest) from by
        simp [recombineSB, hq, hp]]
      intro r hr c hc
      rcases List.mem_cons.mp hr with rfl | hr2
      · exact ⟨r, List.mem_cons_self _ _, hc⟩
      · obtain ⟨q2, hq2, hcq2⟩ := ih r hr2 c hc
        exact ⟨q2, List.mem_cons_of_mem _ hq2, hcq2⟩
  | case4 p q rest hq hp ih =>
      rw [show recombineSB (p :: q :: rest) = recombineSB (q :: rest) from by
        simp [recombineSB, hq, hp]]
      intro r hr c hc
      obtain ⟨q2, hq2, hcq2⟩ := ih r hr c hc
      exact ⟨q2, List.mem_cons_of_mem _ hq2, hcq2⟩
  | case5 p hp =>
      rw [show recombineSB [p] = [p] from by simp [recombineSB, hp]]
      intro r hr c hc
      rcases List.mem_singleton.mp hr with rfl
      exact ⟨r, List.mem_cons_self _ _, hc⟩
  | case6 p hp =>
      rw [show recombineSB [p] = [] from by simp [recombineSB, hp]]
      intro r hr
      exact absurd hr (List.not_mem_nil r)

/-- `_split_regex` keeps the non-whitespace content, on texts without dots,
ellipses or underscores (with dotted abbreviations, the protect/restore passes
are then the identity). -/
theorem split_regex_flatten (ts : TextSplitter) (s : List Char)
    (habbr : ∀ a ∈ ts.abbreviations, '.' ∈ a.toList)
    (hdot : '.' ∉ s) (hell : '…' ∉ s) (hus : '_' ∉ s) :
    (ts.split_regex s).flatten.filter (fun c => !c.isWhitespace)
      = s.filter (fun c => !c.isWhitespace) := by
  unfold TextSplitter.split_regex
  rw [protect_id ts s habbr hdot hell]
  have hrestore : ∀ p ∈ recombineSB (resplitSB s), ts.restore p = p := by
    intro p hp
    refine restore_id ts p (fun hmem => ?_)
    obtain ⟨q, hq, hq2⟩ := recombineSB_subset _ p hp '_' hmem
    exact hus (resplitSBGo_subset (s.length + 1) s q hq '_' hq2)
  rw [List.map_congr_left hrestore]
  simp only [List.map_id']
  rw [recombineSB_flatten]
  exact resplitSBGo_flatten (s.length + 1) s

/-- `_split_regex` only redistributes the input's characters, on texts without
dots, ellipses or underscores. -/
theorem split_regex_subset (ts : TextSplitter) (s : List Char)
    (habbr : ∀ a ∈ ts.abbreviations, '.' ∈ a.toList)
    (hdot : '.' ∉ s) (hell : '…' ∉ s) (hus : '_' ∉ s) :
    ∀ p ∈ ts.split_regex s, ∀ c ∈ p, c ∈ s := by
  unfold TextSplitter.split_regex
  rw [protect_id ts s habbr hdot hell]
  intro p hp c hc
  obtain ⟨q, hq, rfl⟩ := List.mem_map.mp hp
  have hqsub : ∀ x ∈ q, x ∈ s := by
    intro x hx
    obtain ⟨r, hr, hxr⟩ := recombineSB_subset _ q hq x hx
    exact resplitSBGo_subset (s.length + 1) s r hr x hxr
  rw [restore_id ts q (fun hmem => hus (hqsub '_' hmem))] at hc
  exact hqsub c hc

/-- A found pattern is a prefix of the remainder at the found index. -/
theorem findSeq_matchAt : ∀ (pat l : List Char) (i : ℕ), findSeq pat l = some i →
    pat.isPrefixOf (l.drop i) = true
  | pat, [], i => by
      intro h
      unfold findSeq at h
      split at h
      · next hpat =>
          injection h with h
          subst h
          subst hpat
          rfl
      · exact absurd h (by simp)
  | pat, c :: rest, i => by
      intro h
      unfold findSeq at h
      by_cases hpre : pat.isPrefixOf (c :: rest) = true
      · rw [if_pos hpre] at h
        injection h with h
        subst h
        exact hpre
      · rw [if_neg hpre] at h
        cases hfs : findSeq pat rest with
        | none =>
            rw [hfs] at h
            exact absurd h (by simp)
        | some j =>
            rw [hfs] at h
            simp only [Option.map_some'] at h
            injection h with h
            subst h
            rw [List.drop_succ_cons]
            exact findSeq_matchAt pat rest j hfs

/-- The characters of a found pattern occur in the string. -/
theorem findSeq_mem (pat l : List Char) (i : ℕ) (h : findSeq pat l = some i) :
    ∀ x ∈ pat, x ∈ l := by
  intro x hx
  have hpre := List.isPrefixOf_iff_prefix.mp (findSeq_matchAt pat l i h)
  exact List.mem_of_mem_drop (hpre.subset hx)

/-- No semicolon, no semicolon split. -/
theorem semiParts_none (s : List Char) (h : ';' ∉ s) : semiParts s = none := by
  have hc : s.contains ';' = false := by
    cases hcon : s.contains ';'
    · rfl
    · exact absurd (List.elem_iff.mp hcon) h
  unfold semiParts
  rw [hc]
  rfl

/-- No em-dash, no spaced-em-dash split. -/
theorem emdashParts_none (s : List Char) (h : '—' ∉ s) : emdashParts s = none := by
  unfold emdashParts
  cases hfs : findSeq " — ".toList s with
  | none => rfl
  | some i => exact absurd (findSeq_mem _ s i hfs '—' (by decide)) h

/-- Shape of a successful conjunction split: for some listed pattern found at
`idx`, the parts are the stripped take/drop around it. -/
theorem conjPartsGo_spec : ∀ (pats : List (List Char)) (s : List Char)
    (p : List Char × List Char),
    conjPartsGo s pats = some p →
    ∃ pat ∈ pats, ∃ idx : ℕ, findSeq pat s = some idx
      ∧ p.1 = pyStrip (s.take (idx + 1)) ∧ p.2 = pyStrip (s.drop (idx + 2))
  | [], s, p => by
      intro h
      simp [conjPartsGo] at h
  | pat :: more, s, p => by
      intro h
      unfold conjPartsGo at h
      revert h
      cases hfs : findSeq pat s with
      | none =>
          intro h
          obtain ⟨pat2, hmem, hrest⟩ := conjPartsGo_spec more s p h
          exact ⟨pat2, List.mem_cons_of_mem _ hmem, hrest⟩
      | some idx =>
          intro h
          have h2 : (if pyStrip (s.take (idx + 1)) ≠ [] ∧ pyStrip (s.drop (idx + 2)) ≠ []
              then some (pyStrip (s.take (idx + 1)), pyStrip (s.drop (idx + 2)))
              else conjPartsGo s more) = some p := h
          by_cases hne : pyStrip (s.take (idx + 1)) ≠ [] ∧ pyStrip (s.drop (idx + 2)) ≠ []
          · rw [if_pos hne] at h2
            have hp := Option.some.inj h2
            exact ⟨pat, List.mem_cons_self _ _, idx, hfs, by rw [← hp], by rw [← hp]⟩
          · rw [if_neg hne] at h2
            obtain ⟨pat2, hmem, hrest⟩ := conjPartsGo_spec more s p h2
            exact ⟨pat2, List.mem_cons_of_mem _ hmem, hrest⟩

/-- Shape of a successful comma split: the parts are the stripped take/drop
around some index. -/
theorem commaParts_spec (s : List Char) (p : List Char × List Char)
    (h : commaParts s = some p) :
    ∃ b : ℕ, p.1 = pyStrip (s.take (b + 1)) ∧ p.2 = pyStrip (s.drop (b + 1)) := by
  simp only [commaParts] at h
  split at h
  · split at h
    · exact absurd h (by simp)
    · next x hd tl heq =>
        split at h
        · split at h
          · have hp := Option.some.inj h
            exact ⟨bestComma (s.length / 2) tl hd, by rw [← hp], by rw [← hp]⟩
          · exact absurd h (by simp)
        · exact absurd h (by simp)
  · exact absurd h (by simp)

/-- Both halves of a take/drop split carry the original content. -/
theorem split_pair_filter (s : List Char) (b : ℕ) :
    (pyStrip (s.take (b + 1))).filter (fun c => !c.isWhitespace)
        ++ (pyStrip (s.drop (b + 1))).filter (fun c => !c.isWhitespace)
      = s.filter (fun c => !c.isWhitespace) := by
  rw [pyStrip_filter, pyStrip_filter, ← List.filter_append, List.take_append_drop]

/-- A conjunction split at a `", <conj> "` pattern carries the original content:
the only character dropped between the halves is the pattern's space. -/
theorem conj_pair_filter (s pat : List Char) (idx : ℕ)
    (hfs : findSeq pat s = some idx) (hpat2 : pat.take 2 = [',', ' ']) :
    (pyStrip (s.take (idx + 1))).filter (fun c => !c.isWhitespace)
        ++ (pyStrip (s.drop (idx + 2))).filter (fun c => !c.isWhitespace)
      = s.filter (fun c => !c.isWhitespace) := by
  rw [pyStrip_filter, pyStrip_filter]
  have hpre := List.isPrefixOf_iff_prefix.mp (findSeq_matchAt pat s idx hfs)
  obtain ⟨t, ht⟩ := hpre
  have hsdrop : s.drop idx = ',' :: ' ' :: (pat.drop 2 ++ t) := by
    rw [← ht]
    conv_lhs => rw [show pat = pat.take 2 ++ pat.drop 2 from
      (List.take_append_drop 2 pat).symm, hpat2]
    simp
  have htake : s.take (idx + 1) = s.take idx ++ [','] := by
    rw [List.take_succ]
    have hg : s[idx]? = some ',' := by
      rw [← List.head?_drop, hsdrop]
      rfl
    rw [hg]
    rfl
  have hdrop2 : s.drop (idx + 2) = pat.drop 2 ++ t := by
    rw [← List.drop_drop, hsdrop]
    rfl
  have hs : s = s.take idx ++ (',' :: ' ' :: (pat.drop 2 ++ t)) := by
    conv_lhs => rw [← List.take_append_drop idx s]
    rw [hsdrop]
  rw [htake, hdrop2]
  conv_rhs => rw [hs]
  simp [List.filter_append, List.filter_cons,
    show (',' : Char).isWhitespace = false from rfl,
    show (' ' : Char).isWhitespace = true from rfl]

/-- Every conjunction pattern starts with a comma and a space. -/
theorem conj_patterns_take2 : ∀ pat ∈ CONJ_PATTERNS, pat.take 2 = [',', ' '] := by
  decide

/-- `_split_long_sentence` keeps the non-whitespace content on sentences
without semicolons and em-dashes: the conjunction and comma splits drop only
the separating space. -/
theorem split_long_sentence_flatten (ts : TextSplitter) :
    ∀ (fuel : ℕ) (s : List Char), ';' ∉ s → '—' ∉ s →
    ((ts.split_long_sentence fuel s).flatten.filter (fun c => !c.isWhitespace))
      = s.filter (fun c => !c.isWhitespace) := by
  intro fuel
  induction fuel with
  | zero =>
      intro s h1 h2
      rw [show ts.split_long_sentence 0 s = [s] from by
        simp [TextSplitter.split_long_sentence]]
      simp
  | succ fuel ih =>
      intro s h1 h2
      by_cases hlen : s.length ≤ ts.max_sentence_length
      · rw [show ts.split_long_sentence (fuel + 1) s = [s] from by
          simp [TextSplitter.split_long_sentence, hlen]]
        simp
      · have hsem := semiParts_none s h1
        have hem := emdashParts_none s h2
        cases hconj : conjParts s with
        | some pr =>
            rw [show ts.split_long_sentence (fuel + 1) s
                = ts.split_long_sentence fuel pr.1 ++ ts.split_long_sentence fuel pr.2
              from by
              simp [TextSplitter.split_long_sentence, hlen, hsem, hem, hconj]]
            obtain ⟨pat, hpatmem, idx, hfs, hp1, hp2⟩ :=
              conjPartsGo_spec CONJ_PATTERNS s pr hconj
            have hs1 : ∀ c ∈ pr.1, c ∈ s := by
              intro c hc
              rw [hp1] at hc
              exact List.mem_of_mem_take (pyStrip_subset _ c hc)
            have hs2 : ∀ c ∈ pr.2, c ∈ s := by
              intro c hc
              rw [hp2] at hc
              exact List.mem_of_mem_drop (pyStrip_subset _ c hc)
            rw [List.flatten_append, List.filter_append]
            rw [ih pr.1 (fun hc => h1 (hs1 _ hc)) (fun hc => h2 (hs1 _ hc))]
            rw [ih pr.2 (fun hc => h1 (hs2 _ hc)) (fun hc => h2 (hs2 _ hc))]
            rw [hp1, hp2]
            exact conj_pair_filter s pat idx hfs (conj_patterns_take2 pat hpatmem)
        | none =>
        cases hcomma : commaParts s with
        | some pr =>
            rw [show ts.split_long_sentence (fuel + 1) s
                = ts.split_long_sentence fuel pr.1 ++ ts.split_long_sentence fuel pr.2
              from by
              simp [TextSplitter.split_long_sentence, hlen, hsem, hem, hconj, hcomma]]
            obtain ⟨b, hp1, hp2⟩ := commaParts_spec s pr hcomma
            have hs1 : ∀ c ∈ pr.1, c ∈ s := by
              intro c hc
              rw [hp1] at hc
              exact List.mem_of_mem_take (pyStrip_subset _ c hc)
            have hs2 : ∀ c ∈ pr.2, c ∈ s := by
              intro c hc
              rw [hp2] at hc
              exact List.mem_of_mem_drop (pyStrip_subset _ c hc)
            rw [List.flatten_append, List.filter_append]
            rw [ih pr.1 (fun hc => h1 (hs1 _ hc)) (fun hc => h2 (hs1 _ hc))]
            rw [ih pr.2 (fun hc => h1 (hs2 _ hc)) (fun hc => h2 (hs2 _ hc))]
            rw [hp1, hp2]
            exact split_pair_filter s b
        | none =>
            rw [show ts.split_long_sentence (fuel + 1) s = [s] from by
              simp [TextSplitter.split_long_sentence, hlen, hsem, hem, hconj, hcomma]]
            simp

/-- `_split_long_sentences` keeps the non-whitespace content. -/
theorem split_long_sentences_flatten (ts : TextSplitter)
    (sentences : List (List Char))
    (h : ∀ s ∈ sentences, ';' ∉ s ∧ '—' ∉ s) :
    ((ts.split_long_sentences sentences).flatten.filter (fun c => !c.isWhitespace))
      = sentences.flatten.filter (fun c => !c.isWhitespace) := by
  unfold TextSplitter.split_long_sentences
  rw [flatten_flatMap, filter_flatten, List.map_map]
  rw [List.map_congr_left (g := fun s => s.filter (fun c => !c.isWhitespace))
    (fun s hs => by
      show ((if s.length ≤ ts.max_sentence_length then [s]
          else ts.split_long_sentence 11 s).flatten.filter
            (fun c => !c.isWhitespace))
        = s.filter (fun c => !c.isWhitespace)
      by_cases hlen : s.length ≤ ts.max_sentence_length
      · rw [if_pos hlen]
        simp
      · rw [if_neg hlen]
        exact split_long_sentence_flatten ts 11 s (h s hs).1 (h s hs).2)]
  rw [← filter_flatten]

/-- `sentencesPreCap` keeps the non-whitespace content, on texts without dots,
ellipses or underscores. -/
theorem sentencesPreCap_flatten (ts : TextSplitter) (text : List Char)
    (habbr : ∀ a ∈ ts.abbreviations, '.' ∈ a.toList)
    (hdot : '.' ∉ text) (hell : '…' ∉ text) (hus : '_' ∉ text) :
    ((ts.sentencesPreCap text).flatten.filter (fun c => !c.isWhitespace))
      = text.filter (fun c => !c.isWhitespace) := by
  unfold TextSplitter.sentencesPreCap
  rw [flatten_filter_ne_nil, filter_flatten, List.map_map]
  rw [List.map_congr_left (g := fun l => l.filter (fun c => !c.isWhitespace))
    (fun l _ => by
      show (pyStrip l).filter (fun c => !c.isWhitespace)
          = l.filter (fun c => !c.isWhitespace)
      exact pyStrip_filter l)]
  rw [← filter_flatten]
  rw [flatten_flatMap, filter_flatten, List.map_map]
  rw [List.map_congr_left (g := fun para => para.filter (fun c => !c.isWhitespace))
    (fun para hpara => by
      have hsub : ∀ c ∈ para, c ∈ text := split_dialogues_subset text para hpara
      have hdotc : '.' ∉ cleanText para := by
        intro hc
        rcases cleanText_subset para '.' hc with hin | hsp
        · exact hdot (hsub _ hin)
        · exact absurd hsp (by decide)
      have hellc : '…' ∉ cleanText para := by
        intro hc
        rcases cleanText_subset para '…' hc with hin | hsp
        · exact hell (hsub _ hin)
        · exact absurd hsp (by decide)
      have husc : '_' ∉ cleanText para := by
        intro hc
        rcases cleanText_subset para '_' hc with hin | hsp
        · exact hus (hsub _ hin)
        · exact absurd hsp (by decide)
      show ((if cleanText para = [] then []
          else ts.split_regex (cleanText para)).flatten.filter
            (fun c => !c.isWhitespace))
        = para.filter (fun c => !c.isWhitespace)
      by_cases hnil : cleanText para = []
      · rw [if_pos hnil]
        rw [show ([] : List (List Char)).flatten.filter (fun c => !c.isWhitespace)
            = [] from rfl]
        rw [← cleanText_filter para, hnil]
        rfl
      · rw [if_neg hnil]
        rw [split_regex_flatten ts _ habbr hdotc hellc husc]
        exact cleanText_filter para)]
  rw [← filter_flatten]
  exact split_dialogues_flatten text

/-- Every character of a pre-cap sentence is from the text or whitespace. -/
theorem sentencesPreCap_subset (ts : TextSplitter) (text : List Char)
    (habbr : ∀ a ∈ ts.abbreviations, '.' ∈ a.toList)
    (hdot : '.' ∉ text) (hell : '…' ∉ text) (hus : '_' ∉ text) :
    ∀ p ∈ ts.sentencesPreCap text, ∀ c ∈ p, c ∈ text ∨ c = ' ' := by
  unfold TextSplitter.sentencesPreCap
  intro p hp c hc
  have hp2 := (List.mem_filter.mp hp).1
  obtain ⟨q, hq, rfl⟩ := List.mem_map.mp hp2
  have hc2 := pyStrip_subset _ _ hc
  obtain ⟨para, hpara, hq2⟩ := List.mem_flatMap.mp hq
  have hsub : ∀ x ∈ para, x ∈ text := split_dialogues_subset text para hpara
  have hdotc : '.' ∉ cleanText para := by
    intro hcc
    rcases cleanText_subset para '.' hcc with hin | hsp
    · exact hdot (hsub _ hin)
    · exact absurd hsp (by decide)
  have hellc : '…' ∉ cleanText para := by
    intro hcc
    rcases cleanText_subset para '…' hcc with hin | hsp
    · exact hell (hsub _ hin)
    · exact absurd hsp (by decide)
  have husc : '_' ∉ cleanText para := by
    intro hcc
    rcases cleanText_subset para '_' hcc with hin | hsp
    · exact hus (hsub _ hin)
    · exact absurd hsp (by decide)
  by_cases hnil : cleanText para = []
  · rw [if_pos hnil] at hq2
    exact absurd hq2 (List.not_mem_nil q)
  · rw [if_neg hnil] at hq2
    have hcpara := split_regex_subset ts (cleanText para) habbr hdotc hellc husc
      q hq2 c hc2
    rcases cleanText_subset para c hcpara with hin | hsp
    · exact Or.inl (hsub _ hin)
    · exact Or.inr hsp

/-- Joining with single spaces adds only whitespace. -/
theorem filter_nw_flatten_intersperse (L : List (List Char)) :
    ((L.intersperse [' ']).flatten.filter (fun c => !c.isWhitespace))
      = L.flatten.filter (fun c => !c.isWhitespace) := by
  induction L with
  | nil => rfl
  | cons a L ih =>
      cases L with
      | nil => rfl
      | cons b M =>
          rw [List.intersperse_cons_cons]
          rw [List.flatten_cons, List.flatten_cons]
          rw [List.filter_append, List.filter_append]
          rw [show ([' '] : List Char).filter (fun c => !c.isWhitespace) = []
            from rfl]
          rw [List.nil_append, ih]
          simp [List.flatten_cons, List.filter_append]

/-- C4 (amended): on texts free of the characters the pipeline canonicalizes or
consumes — no `.` (protections and their placeholders), no `…` (normalized to
`...`), no `_` (placeholder alphabet), no `;` and no `—` (long-sentence splits
can drop bare separators) — joining the split sentences with single spaces
reproduces the input text up to whitespace: the non-whitespace characters are
exactly the input's, in order.  The counterexample shows the claim is false on
the full input space (`…` is rewritten to `...`). -/
theorem split_roundtrip_spec (ts : TextSplitter) (text : String)
    (habbr : ∀ a ∈ ts.abbreviations, '.' ∈ a.toList)
    (hchars : ∀ c ∈ text.toList, c ≠ '.' ∧ c ≠ '…' ∧ c ≠ '_' ∧ c ≠ ';' ∧ c ≠ '—') :
    (((ts.splitCore text.toList).intersperse [' ']).flatten.filter
        (fun c => !c.isWhitespace))
      = text.toList.filter (fun c => !c.isWhitespace) := by
  have hdot : '.' ∉ text.toList := fun h => (hchars _ h).1 rfl
  have hell : '…' ∉ text.toList := fun h => (hchars _ h).2.1 rfl
  have hus : '_' ∉ text.toList := fun h => (hchars _ h).2.2.1 rfl
  have hsemi : ';' ∉ text.toList := fun h => (hchars _ h).2.2.2.1 rfl
  have hdash : '—' ∉ text.toList := fun h => (hchars _ h).2.2.2.2 rfl
  rw [filter_nw_flatten_intersperse]
  by_cases htext : text.data = []
  · rw [show ts.splitCore text.toList = [] from by
      simp [TextSplitter.splitCore, htext]]
    show ([] : List Char).filter _ = _
    rw [show text.toList = [] from htext]
  · have hsent := sentencesPreCap_flatten ts text.toList habbr hdot hell hus
    have hsentsub := sentencesPreCap_subset ts text.toList habbr hdot hell hus
    by_cases hmax : 0 < ts.max_sentence_length
    · rw [show ts.splitCore text.toList
          = ts.split_long_sentences (ts.sentencesPreCap text.toList) from by
        simp [TextSplitter.splitCore, htext, hmax]]
      rw [split_long_sentences_flatten ts _ (fun s hs => by
        constructor
        · intro hcs
          rcases hsentsub s hs ';' hcs with hin | hsp
          · exact hsemi hin
          · exact absurd hsp (by decide)
        · intro hcs
          rcases hsentsub s hs '—' hcs with hin | hsp
          · exact hdash hin
          · exact absurd hsp (by decide))]
      exact hsent
    · rw [show ts.splitCore text.toList = ts.sentencesPreCap text.toList from by
        simp [TextSplitter.splitCore, htext, hmax]]
      exact hsent

/-- Witness for the amended C4: the default English splitter on a plain text. -/
theorem split_roundtrip_spec_witness :
    (∀ a ∈ (TextSplitter.mk "en" 95 ABBREVIATIONS_EN).abbreviations, '.' ∈ a.toList)
      ∧ (∀ c ∈ "Hello world, how are you today my good friend".toList,
          c ≠ '.' ∧ c ≠ '…' ∧ c ≠ '_' ∧ c ≠ ';' ∧ c ≠ '—')
      ∧ ((((TextSplitter.mk "en" 95 ABBREVIATIONS_EN).splitCore
            "Hello world, how are you today my good friend".toList).intersperse
              [' ']).flatten.filter (fun c => !c.isWhitespace))
        = "Hello world, how are you today my good friend".toList.filter
            (fun c => !c.isWhitespace) :=
  ⟨by decide, by decide,
    split_roundtrip_spec (TextSplitter.mk "en" 95 ABBREVIATIONS_EN)
      "Hello world, how are you today my good friend" (by decide) (by decide)⟩

/-- C4 counterexample: through the real constructor, the Spanish splitter turns
the ellipsis character `…` into three dots — the split output joins to
`"Hola... amiga"`, which differs from the input `"Hola… amiga"` in
non-whitespace characters. -/
theorem split_roundtrip_counterexample :
    mkTextSplitter "es" 95 = Except.ok (TextSplitter.mk "es" 95 ABBREVIATIONS_ES)
      ∧ (TextSplitter.mk "es" 95 ABBREVIATIONS_ES).split "Hola… amiga"
          = ["Hola... amiga"]
      ∧ "Hola... amiga".toList.filter (fun c => !c.isWhitespace)
        ≠ "Hola… amiga".toList.filter (fun c => !c.isWhitespace) :=
  ⟨rfl, rfl, by decide⟩

end BiLangGen
